import Mathlib

/-!
Scribus: bulk item naming and the plugin manager.

A shallow embedding of `scribus/bulkadder.cpp`, `scribus/pluginmanager.cpp`
and the docstring helper of `scribus/plugins/scriptplugin/scriptplugin.cpp`,
together with theorems about the embedded functions.

Conventions of the embedding:

* a `QString` is a Lean `String`; the null `QString()` is `none` where the
  difference between a null and a non-null string is observable;
* a pointer is a `Nat`, the null pointer is `0`;
* a `QMap<QString, T>` is its list of entries in ascending key order;
* a C++ loop whose trip count is not known in advance carries a `fuel`
  argument and yields `none` when the fuel is used up before the loop
  condition turns false; theorems show the fuel supplied by the callers
  is always enough;
* C++ `int`/`uint` counters are `Nat`/`Int` without wrap-around: every
  counter below is bounded by the size of a container held in memory.
-/

set_option autoImplicit false

/-! ## Definitions: `bulkadder.cpp` -/

/-- A page item as far as `bulkadder.cpp` looks at it (the class is declared in
`pageitem.h`, outside the sources at hand). `uid` stands for the address of the
C++ object (two `PageItem*` are equal iff the uids are), the other fields are
`itemName()`, `itemType()`, `isGroup()` and `groupItemList`. -/
inductive PageItem where
  | mk (uid : Nat) (itemName : String) (itemType : Nat) (isGroup : Bool)
      (groupItemList : List PageItem)

namespace PageItem

/-- Address of the item. -/
def uid : PageItem → Nat
  | mk u _ _ _ _ => u

/-- The accessor `PageItem::itemName()`. -/
def itemName : PageItem → String
  | mk _ n _ _ _ => n

/-- The accessor `PageItem::itemType()`; the enum `ItemType` is a `Nat`. -/
def itemType : PageItem → Nat
  | mk _ _ t _ _ => t

/-- The predicate `PageItem::isGroup()`. -/
def isGroup : PageItem → Bool
  | mk _ _ _ g _ => g

/-- The member `PageItem::groupItemList`. -/
def groupItemList : PageItem → List PageItem
  | mk _ _ _ _ cs => cs

end PageItem

namespace BulkAdder

mutual
/-- Modelled from the spec: `PageItem::setSafeItemName` is declared outside the
sources at hand; it is the step that assigns the name found. The effect of
`item->setSafeItemName(t)` on one tree of the document, where `item` is the
object with address `u`: that object gets the name `t`, nothing else
changes. -/
def setSafeItemName (u : Nat) (t : String) : PageItem → PageItem
  | .mk uid n ty g cs => .mk uid (if uid = u then t else n) ty g (setSafeItemNameList u t cs)
/-- The effect of `item->setSafeItemName(t)` on a list of trees. -/
def setSafeItemNameList (u : Nat) (t : String) : List PageItem → List PageItem
  | [] => []
  | c :: cs => setSafeItemName u t c :: setSafeItemNameList u t cs
end

mutual
/-- Every object of one tree: the item and all it holds in `groupItemList`,
recursively, whatever `isGroup()` says. -/
def allItemsOf : PageItem → List PageItem
  | .mk uid n ty g cs => .mk uid n ty g cs :: allItems cs
/-- Every object of a list of trees. -/
def allItems : List PageItem → List PageItem
  | [] => []
  | c :: cs => allItemsOf c ++ allItems cs
end

mutual
/-- The items of one tree that belong to the document: the item itself and,
when it is a group, the items nested in it at any depth. -/
def docItemsOf : PageItem → List PageItem
  | .mk uid n ty g cs => .mk uid n ty g cs :: (if g then docItems cs else [])
/-- The items of the document `*doc->Items`: top-level or nested at any depth
inside groups. -/
def docItems : List PageItem → List PageItem
  | [] => []
  | c :: cs => docItemsOf c ++ docItems cs
end

/-- The statement `names.insert(s)` on a `std::set<QString>`, the set being kept
as a list of its members. -/
def setInsert (names : List String) (s : String) : List String :=
  if s ∈ names then names else s :: names

/-- The body shared by the two `for` loops of `gatherNames`: every item of
`items` has its name inserted into `names` and is pushed onto `groups` when it
is a group. The vector `groups` is kept with its back at the head of the
list. -/
def gatherItems (items : List PageItem) (names : List String) (groups : List PageItem) :
    List String × List PageItem :=
  items.foldl
    (fun acc item =>
      (setInsert acc.1 item.itemName, if item.isGroup then item :: acc.2 else acc.2))
    (names, groups)

/-- The loop `while (!groups.empty())` of `gatherNames`: pop the back of
`groups` and run over its `groupItemList`. -/
def gatherGroups : Nat → List PageItem → List String → Option (List String)
  | _, [], names => some names
  | 0, _ :: _, _ => none
  | fuel + 1, item :: groups, names =>
      let r := gatherItems item.groupItemList names groups
      gatherGroups fuel r.2 r.1

/-- The function `gatherNames(doc)`, `items` being `*doc->Items`. Each turn of
the `while` loop pops one object, so the number of objects bounds the turns. -/
def gatherNames (items : List PageItem) : Option (List String) :=
  let r := gatherItems items [] []
  gatherGroups (allItems items).length r.2 r.1

/-- The loop `while (names.count(tmp) != 0)` of `findName`, started at
`nameNum`; `tmp` is `baseName` followed by the decimal digits of `nameNum`
(`setNum` then `prepend`). The result is the final value of `nameNum`. -/
def findNameLoop (baseName : String) (names : List String) : Nat → Nat → Option Nat
  | 0, _ => none
  | fuel + 1, nameNum =>
      if baseName ++ Nat.repr nameNum ∈ names then
        findNameLoop baseName names fuel (nameNum + 1)
      else
        some nameNum

/-- What `findName` reads and writes: the items of the document, the set
`names` and the map `lastSuccess` (a missing key reads as `0`, as
`std::map::operator[]` value-initialises it). -/
structure NamerState where
  /-- The item trees `*doc->Items`. -/
  items : List PageItem
  /-- The set `names`. -/
  names : List String
  /-- The map `lastSuccess`. -/
  lastSuccess : Nat → Nat

/-- The function `findName(item, names, lastSuccess)` for the item with address
`u`. `nameFromType` is `PageItem::nameFromType`, which is not part of this
file. An address that belongs to no object of the document yields `none`. -/
def findName (nameFromType : Nat → String) (st : NamerState) (u : Nat) : Option NamerState :=
  match (allItems st.items).find? (fun p => p.uid == u) with
  | none => none
  | some item =>
      let type := item.itemType
      let baseName := nameFromType type
      match findNameLoop baseName st.names (st.names.length + 1) (st.lastSuccess type) with
      | none => none
      | some nameNum =>
          let tmp := baseName ++ Nat.repr nameNum
          some
            { items := setSafeItemNameList u tmp st.items
              names := setInsert st.names tmp
              lastSuccess := Function.update st.lastSuccess type nameNum }

/-- Invariant of the loop `for (auto item : m_pending)` of `process`, `done`
being the addresses already handled and `names0` the set `gatherNames` gave:
`names` has grown from `names0` and holds the name of every document item and
of every handled item; a handled item's name is outside `names0` and differs
from the name of every other document item and every other handled item. -/
def NamesApart (names0 : List String) (done : List Nat) (st : NamerState) : Prop :=
  (∀ s ∈ names0, s ∈ st.names) ∧
  (∀ q ∈ docItems st.items, q.itemName ∈ st.names) ∧
  (∀ p ∈ allItems st.items, p.uid ∈ done → p.itemName ∈ st.names ∧ p.itemName ∉ names0) ∧
  (∀ p ∈ allItems st.items, p.uid ∈ done →
    ∀ q, (q ∈ docItems st.items ∨ (q ∈ allItems st.items ∧ q.uid ∈ done)) →
      q.uid ≠ p.uid → p.itemName ≠ q.itemName)

end BulkAdder

/-- The class `BulkAdder`: the items of `m_doc` and the addresses in
`m_pending`. -/
structure BulkAdder where
  /-- The item trees `*m_doc->Items`. -/
  m_doc : List PageItem
  /-- The vector `m_pending`. -/
  m_pending : List Nat

namespace BulkAdder

/-- The method `BulkAdder::process()`. -/
def process (nameFromType : Nat → String) (b : BulkAdder) : Option BulkAdder :=
  if b.m_pending.isEmpty then
    some b
  else
    match gatherNames b.m_doc with
    | none => none
    | some names =>
        match b.m_pending.foldlM (findName nameFromType)
            { items := b.m_doc, names := names, lastSuccess := fun _ => 0 } with
        | none => none
        | some st => some { m_doc := st.items, m_pending := [] }

end BulkAdder

/-! ## Definitions: `pluginmanager.cpp`, loading the plugins of a directory -/

namespace QString

/-- The comparison of two character sequences by `QString::operator<`: the
first position where they differ decides, by character code; a proper prefix is
less. -/
def lessChars : List Char → List Char → Bool
  | _, [] => false
  | [], _ :: _ => true
  | x :: xs, y :: ys => decide (x.toNat < y.toNat) || (decide (x.toNat = y.toNat) && lessChars xs ys)

/-- The operator `QString::operator<`, which orders the keys of a `QMap`. -/
def lessThan (a b : String) : Bool :=
  lessChars a.data b.data

end QString

namespace QMap

/-- The statement `map[key] = value` (or `map.insert(key, value)`) on a `QMap`
given by its entries in ascending key order: the value of an existing key is
replaced, a new key is put at its place in the order. -/
def insert {α : Type} (key : String) (value : α) : List (String × α) → List (String × α)
  | [] => [(key, value)]
  | (k, v) :: rest =>
      if QString.lessThan key k then (key, value) :: (k, v) :: rest
      else if key = k then (key, value) :: rest
      else (k, v) :: insert key value rest

end QMap

namespace PluginManager

/-- The call `list.removeAll(key)` on a `QStringList`. -/
def removeAll (list : List String) (key : String) : List String :=
  list.filter (fun f => f ≠ key)

/-- The variables of `PluginManager::initPlugs` and what it acts on. `world` is
all that `initPlugin` reads and writes (the plugin map, the loaded libraries,
the preferences). The last three fields are not variables of the C++ code:
`attempts` records the calls `initPlugin(key)` of the retry pass under way or
just finished with their results, in order; `passes` counts the finished retry
passes; `warning` is the content of the message box, when one was shown: the
numbers put for `%1` and `%2` and the listed files. -/
structure InitPlugs (σ : Type) where
  /-- State that `initPlugin` reads and writes. -/
  world : σ
  /-- The map `allPlugs`, file name to last result of `initPlugin`. -/
  allPlugs : List (String × Int)
  /-- The counter `loaded`. -/
  loaded : Nat
  /-- The counter `changes`. -/
  changes : Nat
  /-- The list `failedPlugs`. -/
  failedPlugs : List String
  /-- Calls of the current retry pass with their results. -/
  attempts : List (String × Int)
  /-- Number of finished retry passes. -/
  passes : Nat
  /-- Content of the warning shown, if any. -/
  warning : Option (Nat × Nat × List String)

/-- The variables at the start of `initPlugs`: `allPlugs` empty, `loaded = 0`,
`changes = 1`, `failedPlugs` empty. -/
def initPlugsStart {σ : Type} (world : σ) : InitPlugs σ :=
  { world := world, allPlugs := [], loaded := 0, changes := 1, failedPlugs := [],
    attempts := [], passes := 0, warning := none }

/-- The first loop of `initPlugs`, `for (uint i = 0; i < dirList.count(); ++i)`,
over the file names of the directory listing in its order. -/
def initPlugsFirstLoop {σ : Type} (initPlugin : σ → String → σ × Int) :
    List String → InitPlugs σ → InitPlugs σ
  | [], s => s
  | f :: fs, s =>
      let r := initPlugin s.world f
      initPlugsFirstLoop initPlugin fs
        { s with
          world := r.1
          allPlugs := QMap.insert f r.2 s.allPlugs
          loaded := if r.2 ≠ 0 then s.loaded + 1 else s.loaded
          failedPlugs := if r.2 ≠ 0 then s.failedPlugs else s.failedPlugs ++ [f] }

/-- The loop `for (auto it = allPlugs.begin(); it != allPlugs.end(); ++it)` of
one retry pass, run over the entries from the iterator on. The first component
of the result is these entries after the pass (`allPlugs[it.key()] = res`
writes the value of the entry the iterator stands on), the second gives the
other variables; its field `allPlugs` is not used. -/
def initPlugsRetryPass {σ : Type} (initPlugin : σ → String → σ × Int) :
    List (String × Int) → InitPlugs σ → List (String × Int) × InitPlugs σ
  | [], s => ([], s)
  | (key, value) :: rest, s =>
      if value ≠ 0 then
        let r := initPlugsRetryPass initPlugin rest s
        ((key, value) :: r.1, r.2)
      else
        let res := initPlugin s.world key
        let s' : InitPlugs σ :=
          if res.2 = 1 then
            { s with
              world := res.1
              loaded := s.loaded + 1
              changes := s.changes + 1
              failedPlugs := removeAll s.failedPlugs key
              attempts := s.attempts ++ [(key, res.2)] }
          else
            { s with world := res.1, attempts := s.attempts ++ [(key, res.2)] }
        let r := initPlugsRetryPass initPlugin rest s'
        ((key, res.2) :: r.1, r.2)

/-- The condition `loaded < allPlugs.count() && changes != 0` of the retry
loop. -/
def retryCondition {σ : Type} (s : InitPlugs σ) : Bool :=
  decide (s.loaded < s.allPlugs.length) && decide (s.changes ≠ 0)

/-- One turn of the retry loop: `changes = 0`, then the pass over `allPlugs`. -/
def initPlugsRetryTurn {σ : Type} (initPlugin : σ → String → σ × Int) (s : InitPlugs σ) :
    InitPlugs σ :=
  let r := initPlugsRetryPass initPlugin s.allPlugs { s with changes := 0, attempts := [] }
  { r.2 with allPlugs := r.1, passes := s.passes + 1 }

/-- The retry loop `while (loaded < allPlugs.count() && changes != 0)`. -/
def initPlugsRetryLoop {σ : Type} (initPlugin : σ → String → σ × Int) :
    Nat → InitPlugs σ → Option (InitPlugs σ)
  | 0, s => if retryCondition s then none else some s
  | fuel + 1, s =>
      if retryCondition s then
        initPlugsRetryLoop initPlugin fuel (initPlugsRetryTurn initPlugin s)
      else
        some s

/-- The end of `initPlugs`: the warning, raised when `loaded != allPlugs.count()`
and the GUI is in use. -/
def initPlugsWarn {σ : Type} (usingGUI : Bool) (s : InitPlugs σ) : InitPlugs σ :=
  if s.loaded ≠ s.allPlugs.length then
    if usingGUI then
      { s with warning := some (s.allPlugs.length - s.loaded, s.allPlugs.length, s.failedPlugs) }
    else s
  else s

/-- The method `PluginManager::initPlugs()`. `dirExists` and `dirList` are
`dirList.exists()` and the entries of `dirList`, `usingGUI` is
`ScCore->usingGUI()`, `initPlugin` is the call `initPlugin(fileName)` as a
function of the state it acts on. A retry pass that does not end the loop
raises `loaded`, so `dirList.count()` turns are enough. -/
def initPlugs {σ : Type} (initPlugin : σ → String → σ × Int) (usingGUI dirExists : Bool)
    (dirList : List String) (world : σ) : Option (InitPlugs σ) :=
  if !dirExists || dirList.length = 0 then
    some (initPlugsStart world)
  else
    match initPlugsRetryLoop initPlugin dirList.length
        (initPlugsFirstLoop initPlugin dirList (initPlugsStart world)) with
    | none => none
    | some s => some (initPlugsWarn usingGUI s)

/-- The number of entries of `allPlugs` whose status is not `0`. -/
def loadedEntries (allPlugs : List (String × Int)) : Nat :=
  (allPlugs.filter (fun e => decide (e.2 ≠ 0))).length

/-- What holds of the variables of `initPlugs` whenever the condition of the
retry loop is tested: the keys of `allPlugs` are distinct, `loaded` counts no
more than the entries with a non-zero status, and when `changes` is `0` a retry
pass has been made, in which every file whose status is still `0` was tried,
no file was tried twice, each result was stored in `allPlugs`, and no result
was `1`. -/
def RetryInvariant {σ : Type} (s : InitPlugs σ) : Prop :=
  (s.allPlugs.map Prod.fst).Nodup ∧
  s.loaded ≤ loadedEntries s.allPlugs ∧
  (s.changes = 0 →
    0 < s.passes ∧ (s.attempts.map Prod.fst).Nodup ∧
    (∀ f, (f, (0 : Int)) ∈ s.allPlugs → (f, (0 : Int)) ∈ s.attempts) ∧
    (∀ a ∈ s.attempts, a ∈ s.allPlugs ∧ a.2 ≠ 1))

/-- The model of `initPlugin` for dependency-ordered loading: `world` is the
list of the files loaded so far, `deps f` lists the files `f` depends on, and
`initPlugin(f)` succeeds (result `1`, `f` becomes loaded) exactly when every
dependency of `f` is already loaded; otherwise the result is `0` and nothing
changes. -/
def dependencyInitPlugin (deps : String → List String) (world : List String) (f : String) :
    List String × Int :=
  if (deps f).all (fun d => decide (d ∈ world)) then (f :: world, 1) else (world, 0)

/-- The least fixed point of the dependency relation over the files of the
directory: a file is loadable when it is in the directory and all its
dependencies are loadable. No file on a dependency cycle, and no file with a
dependency outside the directory, is loadable. -/
inductive Loadable (files : List String) (deps : String → List String) : String → Prop
  | load (f : String) (hf : f ∈ files) (hd : ∀ d ∈ deps f, Loadable files deps d) :
      Loadable files deps f

/-- What holds of the variables of `initPlugs` under `dependencyInitPlugin`
whenever the condition of the retry loop is tested: every loaded file is
loadable, every key of `allPlugs` is a file of the directory, a file with a
non-zero status is loaded, and when `changes` is `0` every file whose status is
`0` has a dependency that is not loaded. -/
def DependencyInvariant (files : List String) (deps : String → List String)
    (s : InitPlugs (List String)) : Prop :=
  (∀ f ∈ s.world, Loadable files deps f) ∧
  (∀ e ∈ s.allPlugs, e.1 ∈ files) ∧
  (∀ e ∈ s.allPlugs, e.2 ≠ 0 → e.1 ∈ s.world) ∧
  (s.changes = 0 → ∀ f, (f, (0 : Int)) ∈ s.allPlugs →
    (deps f).all (fun d => decide (d ∈ s.world)) = false)

end PluginManager

/-! ## Definitions: `pluginmanager.cpp`, loading one library -/

/-- The struct `PluginData` of `pluginmanager.h` (outside the sources at hand),
with the members that `pluginmanager.cpp` uses. The pointers `plugin`
(`ScPlugin*`) and `pluginDLL` (`void*`) are addresses, `0` is `nullptr`. -/
structure PluginData where
  /-- Path of the library file. -/
  pluginFile : String
  /-- Name of the plugin, the prefix of its exported symbols. -/
  pluginName : String
  /-- The plugin object, `0` when there is none. -/
  plugin : Nat
  /-- The handle of the opened library, `0` when it is not open. -/
  pluginDLL : Nat
  /-- Whether the plugin has been enabled. -/
  enabled : Bool
  /-- Whether the plugin is to be enabled at startup. -/
  enableOnStartup : Bool
deriving DecidableEq

namespace PluginManager

/-- The operating system's loader and the code inside the libraries, as
`loadPlugin` meets them: `loadDLL` and `resolveSym` are the functions of that
name (`0` is a null handle or a symbol that does not resolve), the other two
give what a call through a resolved function pointer returns. -/
structure Loader where
  /-- Result of `loadDLL(pluginFile)`. -/
  loadDLL : String → Nat
  /-- Result of `resolveSym(pluginDLL, sym)`. -/
  resolveSym : Nat → String → Nat
  /-- Result of `(*getPluginAPIVersion)()` for the function at this address. -/
  callGetPluginAPIVersion : Nat → Int
  /-- Result of `(*getPlugin)()` for the function at this address. -/
  callGetPlugin : Nat → Nat

/-- What `loadPlugin` does to the outside, in order. -/
inductive LoaderEvent where
  | loadDLL (pluginFile : String)
  | resolveSym (pluginDLL : Nat) (sym : String)
  | callGetPluginAPIVersion (address : Nat)
  | callGetPlugin (address : Nat)
  | unloadDLL (pluginDLL : Nat)
deriving DecidableEq

/-- What a call of `loadPlugin` leaves: the value returned, the `pluginData`
passed by reference, and the calls made. -/
structure LoadResult where
  /-- The value returned. -/
  returned : Bool
  /-- The argument `pluginData` after the call. -/
  pluginData : PluginData
  /-- The calls made to the loader and into the library, in order. -/
  trace : List LoaderEvent
deriving DecidableEq

/-- The common end of `loadPlugin` after the library was opened and no plugin
was obtained: `unloadDLL(pluginData.pluginDLL)`, `pluginData.pluginDLL =
nullptr`, `return false`. -/
def loadPluginFailed (pluginData : PluginData) (trace : List LoaderEvent) : LoadResult :=
  { returned := false
    pluginData := { pluginData with pluginDLL := 0 }
    trace := trace ++ [LoaderEvent.unloadDLL pluginData.pluginDLL] }

/-- The method `PluginManager::loadPlugin(pluginData)`. `apiVersion` is the
macro `PLUGIN_API_VERSION`. The three `Q_ASSERT`s at the start end the program
when they fail, which is the result `none`; with the assertions compiled out
the call goes on, so the theorems below speak of calls that meet them. -/
def loadPlugin (env : Loader) (apiVersion : Int) (pluginData : PluginData) :
    Option LoadResult :=
  if pluginData.plugin ≠ 0 ∨ pluginData.pluginDLL ≠ 0 ∨ pluginData.enabled = true then
    none
  else
    let pd₁ : PluginData :=
      { pluginData with plugin := 0, pluginDLL := env.loadDLL pluginData.pluginFile }
    let t₁ := [LoaderEvent.loadDLL pluginData.pluginFile]
    if pd₁.pluginDLL = 0 then
      some { returned := false, pluginData := pd₁, trace := t₁ }
    else
      let symVersion := pd₁.pluginName ++ "_getPluginAPIVersion"
      let getPluginAPIVersion := env.resolveSym pd₁.pluginDLL symVersion
      let t₂ := t₁ ++ [LoaderEvent.resolveSym pd₁.pluginDLL symVersion]
      if getPluginAPIVersion ≠ 0 then
        let gotVersion := env.callGetPluginAPIVersion getPluginAPIVersion
        let t₃ := t₂ ++ [LoaderEvent.callGetPluginAPIVersion getPluginAPIVersion]
        if gotVersion ≠ apiVersion then
          some (loadPluginFailed pd₁ t₃)
        else
          let symPlugin := pd₁.pluginName ++ "_getPlugin"
          let getPlugin := env.resolveSym pd₁.pluginDLL symPlugin
          let t₄ := t₃ ++ [LoaderEvent.resolveSym pd₁.pluginDLL symPlugin]
          if getPlugin ≠ 0 then
            let pd₂ : PluginData := { pd₁ with plugin := env.callGetPlugin getPlugin }
            let t₅ := t₄ ++ [LoaderEvent.callGetPlugin getPlugin]
            if pd₂.plugin = 0 then
              some (loadPluginFailed pd₂ t₅)
            else
              some { returned := true, pluginData := pd₂, trace := t₅ }
          else
            some (loadPluginFailed pd₁ t₄)
      else
        some (loadPluginFailed pd₁ t₂)

end PluginManager

/-! ## Definitions: `pluginmanager.cpp`, plugin names -/

namespace QFileInfo

/-- The file name part of a path: what follows the last `/`. -/
def fileName (path : List Char) : List Char :=
  (path.reverse.takeWhile (fun c => c ≠ '/')).reverse

/-- The method `QFileInfo::baseName()`: the file name without the path, up to
but not including its first `.`. -/
def baseName (path : List Char) : List Char :=
  (fileName path).takeWhile (fun c => c ≠ '.')

end QFileInfo

namespace QString

/-- The method `QString::chop(n)`: the last `n` characters are removed; when
`n` is the size or more, the result is empty. -/
def chop (n : Nat) (s : List Char) : List Char :=
  s.take (s.length - n)

end QString

namespace PluginManager

/-- The platforms told apart by the preprocessor in `platformDllExtension`. -/
inductive Platform where
  | hpux
  | macos
  | windows
  | unix
deriving DecidableEq

/-- The function `PluginManager::platformDllExtension()`. -/
def platformDllExtension : Platform → String
  | Platform.hpux => "sl"
  | Platform.macos => "so"
  | Platform.windows => "dll"
  | Platform.unix => "so"

/-- The test `QChar::isLetterOrNumber()`. For the characters of ASCII it is
true of the letters and the digits; for the other characters it is
`unicodeLetterOrNumber`, which stands for the Unicode tables of Qt. -/
def isLetterOrNumber (unicodeLetterOrNumber : Char → Bool) (c : Char) : Bool :=
  if c.toNat < 128 then c.isAlphanum else unicodeLetterOrNumber c

/-- The conversion at `return baseName.toLatin1()`: to Latin-1 bytes and back
to a `QString`. Text of ASCII characters comes back unchanged; what becomes of
other text is `convert`, which stands for the codecs of Qt. -/
def toLatin1 (convert : String → String) (s : String) : String :=
  if s.data.all (fun c => decide (c.toNat < 128)) then s else convert s

/-- Lines 130 to 135 of `getPluginName`: the base name of the file, without a
leading `lib`, and chopped by the length of the extension and one more
character when it ends with the extension. -/
def strippedBaseName (platform : Platform) (fileName : String) : List Char :=
  let baseName := QFileInfo.baseName fileName.data
  let baseName := if "lib".data.isPrefixOf baseName then baseName.drop 3 else baseName
  if (platformDllExtension platform).data.isSuffixOf baseName then
    QString.chop (1 + (platformDllExtension platform).length) baseName
  else
    baseName

/-- The loop `for (int i = 0; i < (int) baseName.length(); i++)` of
`getPluginName`, from the character at `i` on: `false` when it meets a
character that is neither a letter, a digit nor `_` (the function then
returns the null string), `true` when it runs to the end. -/
def checkName (unicodeLetterOrNumber : Char → Bool) : List Char → Bool
  | [] => true
  | c :: rest =>
      if !isLetterOrNumber unicodeLetterOrNumber c && c != '_' then false
      else checkName unicodeLetterOrNumber rest

/-- The method `PluginManager::getPluginName(fileName)`; `none` is the null
`QString()`. -/
def getPluginName (platform : Platform) (unicodeLetterOrNumber : Char → Bool)
    (convert : String → String) (fileName : String) : Option String :=
  let baseName := strippedBaseName platform fileName
  if checkName unicodeLetterOrNumber baseName then
    some (toLatin1 convert (String.mk baseName))
  else
    none

end PluginManager

/-! ## Definitions: `pluginmanager.cpp`, queries on the plugin map -/

/-- A value-initialised `PluginData`, what `QMap::operator[] const` gives for a
key that is not in the map. -/
instance : Inhabited PluginData :=
  ⟨{ pluginFile := "", pluginName := "", plugin := 0, pluginDLL := 0, enabled := false,
     enableOnStartup := false }⟩

namespace QMap

/-- The method `QMap::contains(key)`. -/
def contains {α : Type} (m : List (String × α)) (key : String) : Bool :=
  m.any (fun e => e.1 == key)

/-- The operator `QMap::operator[](key) const`: the value stored for `key`, or a
value-initialised one; the map is not changed. -/
def value {α : Type} [Inhabited α] (m : List (String × α)) (key : String) : α :=
  match m.find? (fun e => e.1 == key) with
  | some e => e.2
  | none => default

/-- The entries of a `QMap` are in strictly ascending key order. -/
def Sorted {α : Type} (m : List (String × α)) : Prop :=
  (m.map Prod.fst).Pairwise (fun a b => QString.lessThan a b = true)

/-- Whether the entries are in strictly ascending key order can be computed. -/
instance {α : Type} (m : List (String × α)) : Decidable (Sorted m) := by
  unfold Sorted
  infer_instance

end QMap

namespace PluginManager

/-- The method `PluginManager::DLLexists(name, includeDisabled) const`, with the
member `pluginMap` before and after the call. -/
def DLLexists (pluginMap : List (String × PluginData)) (name : String)
    (includeDisabled : Bool) : Bool × List (String × PluginData) :=
  if QMap.contains pluginMap name then
    if (QMap.value pluginMap name).plugin ≠ 0 then
      if (QMap.value pluginMap name).enabled then (true, pluginMap)
      else (includeDisabled, pluginMap)
    else (false, pluginMap)
  else (false, pluginMap)

/-- The method `PluginManager::getPlugin(pluginName, includeDisabled) const`,
with the member `pluginMap` before and after the call; `0` is `nullptr`. -/
def getPlugin (pluginMap : List (String × PluginData)) (pluginName : String)
    (includeDisabled : Bool) : Nat × List (String × PluginData) :=
  let r := DLLexists pluginMap pluginName includeDisabled
  if r.1 then ((QMap.value r.2 pluginName).plugin, r.2) else (0, r.2)

/-- The loop of `PluginManager::pluginNames` from the iterator on, `names`
being the list built so far. `inheritsClass p c` is `p->inherits(c)` for the
plugin object at address `p`; `inherits` is `none` for a null `const char*`.
Calling `inherits` through a null `plugin` has no defined result: `none`. -/
def pluginNamesLoop (inheritsClass : Nat → String → Bool) (includeDisabled : Bool)
    (inherits : Option String) : List (String × PluginData) → List String → Option (List String)
  | [], names => some names
  | (_, value) :: rest, names =>
      if !includeDisabled && !value.enabled then
        pluginNamesLoop inheritsClass includeDisabled inherits rest names
      else
        match inherits with
        | none =>
            pluginNamesLoop inheritsClass includeDisabled inherits rest
              (names ++ [value.pluginName])
        | some className =>
            if value.plugin = 0 then none
            else if inheritsClass value.plugin className then
              pluginNamesLoop inheritsClass includeDisabled inherits rest
                (names ++ [value.pluginName])
            else
              pluginNamesLoop inheritsClass includeDisabled inherits rest names

/-- The method `PluginManager::pluginNames(includeDisabled, inherits) const`. -/
def pluginNames (inheritsClass : Nat → String → Bool)
    (pluginMap : List (String × PluginData)) (includeDisabled : Bool)
    (inherits : Option String) : Option (List String) :=
  pluginNamesLoop inheritsClass includeDisabled inherits pluginMap []

end PluginManager

/-! ## Definitions: `pluginmanager.cpp`, initialising one plugin -/

namespace PluginManager

/-- All that `initPlugin` takes from outside the plugin map: the platform, the
character tables and codecs of Qt (see `getPluginName`), the loader, the macro
`PLUGIN_API_VERSION`, the test `plugin->inherits(className)` for the plugin
object at an address, the result of `plugin->initPlugin()` for a persistent
plugin, the method `prefs->getBool(key, default)` of the preferences, and the
directory `ScPaths::instance().pluginDir()`. -/
structure PluginEnv where
  /-- The platform the program is compiled for. -/
  platform : Platform
  /-- The test `QChar::isLetterOrNumber()` outside ASCII. -/
  unicodeLetterOrNumber : Char → Bool
  /-- The Latin-1 round trip of Qt on text that is not ASCII. -/
  convert : String → String
  /-- The loader and the code of the libraries. -/
  loader : Loader
  /-- The macro `PLUGIN_API_VERSION`. -/
  apiVersion : Int
  /-- The test `plugin->inherits(className)`. -/
  inheritsClass : Nat → String → Bool
  /-- The result of `plugin->initPlugin()` of a persistent plugin. -/
  pluginInitPlugin : Nat → Bool
  /-- The method `prefs->getBool(key, default)`. -/
  getBool : String → Bool → Bool
  /-- The directory of the plugins. -/
  pluginDir : String

/-- The method `PluginManager::enablePlugin(pda)`, as far as it changes `pda`
(the messages for the splash screen are left out). The `Q_ASSERT` at its start
and the call through `pda.plugin` have no result when they fail: `none`. The
`assert(plugin)` after `qobject_cast<ScPersistentPlugin*>` holds in the branch
where `inherits("ScPersistentPlugin")` is true, both reading the same meta
object. -/
def enablePlugin (env : PluginEnv) (pda : PluginData) : Option PluginData :=
  if pda.enabled = true then none
  else if pda.plugin = 0 then none
  else if env.inheritsClass pda.plugin "ScActionPlugin" then some pda
  else if env.inheritsClass pda.plugin "ScPersistentPlugin" then
    some { pda with enabled := env.pluginInitPlugin pda.plugin }
  else if env.inheritsClass pda.plugin "LoadSavePlugin" then
    some { pda with enabled := true }
  else some pda

/-- What a call of `initPlugin` leaves: the value returned, the member
`pluginMap`, and two records that are not variables of the C++ code: the
arguments with which `enablePlugin` was called, and the calls `loadPlugin` made
to the loader. -/
structure InitPluginResult where
  /-- The value returned. -/
  returned : Int
  /-- The member `pluginMap` after the call. -/
  pluginMap : List (String × PluginData)
  /-- The arguments of the calls of `enablePlugin`, as passed. -/
  enablePluginCalls : List PluginData
  /-- The calls made to the loader and into the library. -/
  trace : List LoaderEvent

/-- The `PluginData` that `initPlugin` hands to `loadPlugin` for a file whose
plugin name is `pluginName`. -/
def initPluginData (env : PluginEnv) (fileName pluginName : String) : PluginData :=
  { pluginFile := env.pluginDir ++ "/" ++ fileName
    pluginName := pluginName
    plugin := 0
    pluginDLL := 0
    enabled := false
    enableOnStartup := env.getBool pluginName false }

/-- The method `PluginManager::initPlugin(fileName)` (the message for the splash
screen is left out). The result is `none` only where `loadPlugin` or
`enablePlugin` has none, which the theorems show does not happen. -/
def initPlugin (env : PluginEnv) (pluginMap : List (String × PluginData))
    (fileName : String) : Option InitPluginResult :=
  match getPluginName env.platform env.unicodeLetterOrNumber env.convert
      (env.pluginDir ++ "/" ++ fileName) with
  | none =>
      some { returned := 0, pluginMap := pluginMap, enablePluginCalls := [], trace := [] }
  | some pluginName =>
      match loadPlugin env.loader env.apiVersion (initPluginData env fileName pluginName) with
      | none => none
      | some r =>
          if r.returned then
            let pda : PluginData :=
              if env.inheritsClass r.pluginData.plugin "ScPersistentPlugin" then
                { r.pluginData with enableOnStartup := true }
              else r.pluginData
            if pda.enableOnStartup then
              match enablePlugin env pda with
              | none => none
              | some pda' =>
                  some
                    { returned := 1
                      pluginMap := QMap.insert pda'.pluginName pda' pluginMap
                      enablePluginCalls := [pda]
                      trace := r.trace }
            else
              some
                { returned := 1
                  pluginMap := QMap.insert pda.pluginName pda pluginMap
                  enablePluginCalls := []
                  trace := r.trace }
          else
            some
              { returned := 0, pluginMap := pluginMap, enablePluginCalls := [], trace := r.trace }

end PluginManager

/-! ## Definitions: `pluginmanager.cpp`, the load-failure warning -/

namespace PluginManager

/-- What holds of the variables of `initPlugs` whenever the condition of the
retry loop is tested, when `initPlugin` returns only `0` or `1` and the listing
has no repeated file name: the keys of `allPlugs` are distinct, `failedPlugs`
has no repeated entry and holds exactly the files whose status is `0`, and
`loaded` is the number of files whose status is not `0`. -/
def FailedInvariant {σ : Type} (s : InitPlugs σ) : Prop :=
  (s.allPlugs.map Prod.fst).Nodup ∧
  s.failedPlugs.Nodup ∧
  (∀ f, f ∈ s.failedPlugs ↔ (f, (0 : Int)) ∈ s.allPlugs) ∧
  s.loaded = loadedEntries s.allPlugs

end PluginManager

/-! ## Definitions: `bulkadder.cpp`, naming without the cache -/

namespace BulkAdder

/-- The reference for `findName`: the same naming step with the search for a
free number restarted from `0`, whatever `lastSuccess` holds. -/
def findNameRestart (nameFromType : Nat → String) (st : NamerState) (u : Nat) :
    Option NamerState :=
  findName nameFromType { st with lastSuccess := fun _ => 0 } u

/-- The reference for `process`: as `BulkAdder::process()`, with every pending
item named by `findNameRestart`. -/
def processRestart (nameFromType : Nat → String) (b : BulkAdder) : Option BulkAdder :=
  if b.m_pending.isEmpty then
    some b
  else
    match gatherNames b.m_doc with
    | none => none
    | some names =>
        match b.m_pending.foldlM (findNameRestart nameFromType)
            { items := b.m_doc, names := names, lastSuccess := fun _ => 0 } with
        | none => none
        | some st => some { m_doc := st.items, m_pending := [] }

/-- What holds of `lastSuccess` throughout the loop of `process`: for every
item type, every number below `lastSuccess[type]` is taken, that is, the base
name of the type followed by that number is in `names`. -/
def CacheInvariant (nameFromType : Nat → String) (st : NamerState) : Prop :=
  ∀ type j, j < st.lastSuccess type → nameFromType type ++ Nat.repr j ∈ st.names

end BulkAdder

/-! ## Definitions: `scriptplugin.cpp`, the docstring helper -/

namespace QString

/-- The scan of `QString::replace(before, after)` for a non-empty `before`, from
a position on; `skip` is the number of characters of the text that still
belong to the occurrence of `before` just replaced. Occurrences are taken from
the left and do not overlap. -/
def replaceFrom (before after : List Char) : Nat → List Char → List Char
  | _, [] => []
  | skip + 1, _ :: cs => replaceFrom before after skip cs
  | 0, c :: cs =>
      if before.isPrefixOf (c :: cs) then
        after ++ replaceFrom before after (before.length - 1) cs
      else
        c :: replaceFrom before after 0 cs

/-- The method `QString::replace(const QString &before, const QString &after)`
for a non-empty `before`: every occurrence of `before`, taken from the left
without overlap, is replaced by `after`. -/
def replace (before after : List Char) (s : List Char) : List Char :=
  replaceFrom before after 0 s

/-- The method `QString::replace(QChar before, const QString &after)`: every
occurrence of the character is replaced by `after`. -/
def replaceChar (before : Char) (after : List Char) : List Char → List Char
  | [] => []
  | c :: cs => if c = before then after ++ replaceChar before after cs
      else c :: replaceChar before after cs

end QString

namespace ScriptPlugin

/-- The function `tr(docstringConstant)` of `scriptplugin.cpp`. `translate` is
`QObject::tr(docstringConstant, "scripter docstring")`. The result is the C
string that `strdup` copies from the UTF-8 bytes of the text, so it ends before
the first NUL character; it is `none` (a null pointer) when `strdup` fails. -/
def tr (translate : String → String) (strdupFails : Bool) (docstringConstant : String) :
    Option String :=
  let translated := (translate docstringConstant).data
  let translated := QString.replace "\n\n".data "<P>".data translated
  let translated := QString.replaceChar '\n' " ".data translated
  let translated := QString.replace "<P>".data "\n\n".data translated
  if strdupFails then none
  else some (String.mk (translated.takeWhile (fun c => c ≠ Char.ofNat 0)))

/-- The text that the docstring helper is to give, in the words of its
description: each pair of newlines, taken from the left without overlap, is
kept; every other newline becomes one space; every other character is kept. -/
def unwrapLines : List Char → List Char
  | [] => []
  | [c] => if c = '\n' then [' '] else [c]
  | c :: d :: rest =>
      if c = '\n' then
        if d = '\n' then '\n' :: '\n' :: unwrapLines rest
        else ' ' :: unwrapLines (d :: rest)
      else c :: unwrapLines (d :: rest)

end ScriptPlugin

/-! ## Theorems: `bulkadder.cpp` -/

namespace BulkAdder

theorem mem_setInsert (names : List String) (s x : String) :
    x ∈ setInsert names s ↔ x = s ∨ x ∈ names := by
  unfold setInsert
  by_cases h : s ∈ names
  · simp only [h, if_true]
    constructor
    · intro hx; exact Or.inr hx
    · rintro (rfl | hx)
      · exact h
      · exact hx
  · simp [h]

theorem gatherItems_fst (items : List PageItem) :
    ∀ (names : List String) (groups : List PageItem) (x : String),
      x ∈ (gatherItems items names groups).1 ↔
        x ∈ names ∨ ∃ p ∈ items, p.itemName = x := by
  induction items with
  | nil => intro names groups x; simp [gatherItems]
  | cons c cs ih =>
      intro names groups x
      have h := ih (setInsert names c.itemName) (if c.isGroup then c :: groups else groups) x
      simp only [gatherItems, List.foldl_cons] at h ⊢
      rw [h, mem_setInsert]
      simp only [List.mem_cons, exists_eq_or_imp]
      constructor
      · rintro ((h1 | h1) | h1)
        · exact Or.inr (Or.inl h1.symm)
        · exact Or.inl h1
        · exact Or.inr (Or.inr h1)
      · rintro (h1 | h1 | h1)
        · exact Or.inl (Or.inr h1)
        · exact Or.inl (Or.inl h1.symm)
        · exact Or.inr h1

theorem gatherItems_snd (items : List PageItem) :
    ∀ (names : List String) (groups : List PageItem),
      (gatherItems items names groups).2 =
        (items.filter (fun p => p.isGroup)).reverse ++ groups := by
  induction items with
  | nil => intro names groups; simp [gatherItems]
  | cons c cs ih =>
      intro names groups
      have h := ih (setInsert names c.itemName) (if c.isGroup then c :: groups else groups)
      simp only [gatherItems, List.foldl_cons] at h ⊢
      rw [h]
      cases hg : c.isGroup <;> simp [List.filter_cons, hg]

theorem allItems_append (l₁ l₂ : List PageItem) :
    allItems (l₁ ++ l₂) = allItems l₁ ++ allItems l₂ := by
  induction l₁ with
  | nil => simp [allItems]
  | cons c cs ih => simp [allItems, ih]

theorem allItemsOf_length (p : PageItem) :
    (allItemsOf p).length = 1 + (allItems p.groupItemList).length := by
  cases p with
  | mk uid n ty g cs => simp [allItemsOf, PageItem.groupItemList, Nat.add_comm]

theorem allItems_reverse_length (l : List PageItem) :
    (allItems l.reverse).length = (allItems l).length := by
  induction l with
  | nil => simp
  | cons c cs ih =>
      simp only [List.reverse_cons, allItems_append, allItems, List.length_append, ih,
        List.append_nil]
      omega

theorem allItems_filter_length (f : PageItem → Bool) (l : List PageItem) :
    (allItems (l.filter f)).length ≤ (allItems l).length := by
  induction l with
  | nil => simp
  | cons c cs ih =>
      cases hf : f c
      · simp only [List.filter_cons, hf, allItems, List.length_append]
        simp only [Bool.false_eq_true, if_false]
        omega
      · simp only [List.filter_cons, hf, allItems, List.length_append, if_true]
        omega

theorem mem_docItems (l : List PageItem) (p : PageItem) :
    p ∈ docItems l ↔
      p ∈ l ∨ ∃ c ∈ l, c.isGroup = true ∧ p ∈ docItems c.groupItemList := by
  induction l with
  | nil => simp [docItems]
  | cons c cs ih =>
      cases c with
      | mk uid n ty g cs' =>
          simp only [docItems, docItemsOf, List.mem_append, List.mem_cons, ih,
            exists_eq_or_imp, PageItem.isGroup, PageItem.groupItemList]
          cases g
          · simp only [Bool.false_eq_true, if_false, List.not_mem_nil, false_and, or_false,
              false_or]
            tauto
          · simp only [if_true, true_and]
            tauto

end BulkAdder
namespace BulkAdder

theorem gatherGroups_spec :
    ∀ (fuel : Nat) (groups : List PageItem) (names : List String),
      (allItems groups).length ≤ fuel →
      ∃ r, gatherGroups fuel groups names = some r ∧
        ∀ x, x ∈ r ↔
          x ∈ names ∨ ∃ g ∈ groups, ∃ p ∈ docItems g.groupItemList, p.itemName = x := by
  intro fuel
  induction fuel with
  | zero =>
      intro groups names hlen
      cases groups with
      | nil => exact ⟨names, rfl, by simp⟩
      | cons g gs =>
          exfalso
          simp only [allItems, List.length_append, allItemsOf_length] at hlen
          omega
  | succ fuel ih =>
      intro groups names hlen
      cases groups with
      | nil => exact ⟨names, rfl, by simp⟩
      | cons g gs =>
          have hlen' : (allItems (gatherItems g.groupItemList names gs).2).length ≤ fuel := by
            rw [gatherItems_snd, allItems_append, List.length_append, allItems_reverse_length]
            have h1 := allItems_filter_length (fun p => p.isGroup) g.groupItemList
            simp only [allItems, List.length_append, allItemsOf_length] at hlen
            omega
          obtain ⟨r, hr, hmem⟩ := ih _ (gatherItems g.groupItemList names gs).1 hlen'
          refine ⟨r, ?_, ?_⟩
          · simpa only [gatherGroups] using hr
          · intro x
            rw [hmem, gatherItems_fst, gatherItems_snd]
            simp only [List.mem_append, List.mem_reverse, List.mem_filter, List.mem_cons,
              exists_eq_or_imp, mem_docItems g.groupItemList]
            constructor
            · rintro ((h | ⟨p, hp, rfl⟩) | ⟨c, (⟨hc, hg⟩ | hc), p, hp, rfl⟩)
              · exact Or.inl h
              · exact Or.inr (Or.inl ⟨p, Or.inl hp, rfl⟩)
              · exact Or.inr (Or.inl ⟨p, Or.inr ⟨c, hc, hg, hp⟩, rfl⟩)
              · exact Or.inr (Or.inr ⟨c, hc, p, hp, rfl⟩)
            · rintro (h | ⟨p, (hp | ⟨c, hc, hg, hp⟩), rfl⟩ | ⟨c, hc, p, hp, rfl⟩)
              · exact Or.inl (Or.inl h)
              · exact Or.inl (Or.inr ⟨p, hp, rfl⟩)
              · exact Or.inr ⟨c, Or.inl ⟨hc, hg⟩, p, hp, rfl⟩
              · exact Or.inr ⟨c, Or.inr hc, p, hp, rfl⟩

theorem gatherNames_spec (items : List PageItem) :
    ∃ r, gatherNames items = some r ∧
      ∀ x, x ∈ r ↔ ∃ p ∈ docItems items, p.itemName = x := by
  have hlen : (allItems (gatherItems items [] []).2).length ≤ (allItems items).length := by
    rw [gatherItems_snd, List.append_nil, allItems_reverse_length]
    exact allItems_filter_length _ _
  obtain ⟨r, hr, hmem⟩ := gatherGroups_spec _ _ (gatherItems items [] []).1 hlen
  refine ⟨r, hr, ?_⟩
  intro x
  rw [hmem, gatherItems_fst, gatherItems_snd]
  simp only [List.not_mem_nil, false_or, List.append_nil, List.mem_reverse, List.mem_filter,
    mem_docItems items]
  constructor
  · rintro (⟨p, hp, rfl⟩ | ⟨c, ⟨hc, hg⟩, p, hp, rfl⟩)
    · exact ⟨p, Or.inl hp, rfl⟩
    · exact ⟨p, Or.inr ⟨c, hc, hg, hp⟩, rfl⟩
  · rintro ⟨p, (hp | ⟨c, hc, hg, hp⟩), rfl⟩
    · exact Or.inl ⟨p, hp, rfl⟩
    · exact Or.inr ⟨c, ⟨hc, hg⟩, p, hp, rfl⟩

theorem digitChar_toNat (d : Nat) (h : d < 10) : (Nat.digitChar d).toNat - 48 = d := by
  interval_cases d <;> rfl

theorem toDigitsCore_decode :
    ∀ (fuel n : Nat) (ds : List Char), n < fuel →
      ∃ l, Nat.toDigitsCore 10 fuel n ds = l ++ ds ∧
        l.foldl (fun a c => a * 10 + (c.toNat - 48)) 0 = n := by
  intro fuel
  induction fuel with
  | zero => intro n ds h; omega
  | succ fuel ih =>
      intro n ds h
      simp only [Nat.toDigitsCore]
      by_cases h0 : n / 10 = 0
      · refine ⟨[Nat.digitChar (n % 10)], by simp [h0], ?_⟩
        simp only [List.foldl_cons, List.foldl_nil, Nat.zero_mul, Nat.zero_add]
        rw [digitChar_toNat _ (Nat.mod_lt _ (by decide))]
        omega
      · have hlt : n / 10 < fuel := by omega
        obtain ⟨l, hl, hv⟩ := ih (n / 10) (Nat.digitChar (n % 10) :: ds) hlt
        refine ⟨l ++ [Nat.digitChar (n % 10)], by simp [h0, hl], ?_⟩
        simp only [List.foldl_append, List.foldl_cons, List.foldl_nil, hv]
        rw [digitChar_toNat _ (Nat.mod_lt _ (by decide))]
        omega

theorem repr_injective (n m : Nat) (h : Nat.repr n = Nat.repr m) : n = m := by
  have hd : Nat.toDigits 10 n = Nat.toDigits 10 m := by
    have := congrArg String.data h
    simpa [Nat.repr, List.asString] using this
  obtain ⟨l₁, h₁, v₁⟩ := toDigitsCore_decode (n + 1) n [] (Nat.lt_succ_self n)
  obtain ⟨l₂, h₂, v₂⟩ := toDigitsCore_decode (m + 1) m [] (Nat.lt_succ_self m)
  simp only [Nat.toDigits] at hd
  rw [h₁, h₂] at hd
  simp only [List.append_nil] at hd
  rw [← v₁, ← v₂, hd]

theorem numbered_injective (baseName : String) (n m : Nat)
    (h : baseName ++ Nat.repr n = baseName ++ Nat.repr m) : n = m := by
  apply repr_injective
  have := congrArg String.data h
  simp only [String.data_append] at this
  exact String.ext (List.append_cancel_left this)

theorem findNameLoop_free (baseName : String) (names : List String) :
    ∀ (fuel n k : Nat), findNameLoop baseName names fuel n = some k →
      baseName ++ Nat.repr k ∉ names ∧ n ≤ k ∧
        ∀ j, n ≤ j → j < k → baseName ++ Nat.repr j ∈ names := by
  intro fuel
  induction fuel with
  | zero => intro n k h; simp [findNameLoop] at h
  | succ fuel ih =>
      intro n k h
      simp only [findNameLoop] at h
      by_cases hn : baseName ++ Nat.repr n ∈ names
      · simp only [hn, if_true] at h
        obtain ⟨h1, h2, h3⟩ := ih (n + 1) k h
        refine ⟨h1, by omega, ?_⟩
        intro j hj hjk
        by_cases hjn : j = n
        · subst hjn; exact hn
        · exact h3 j (by omega) hjk
      · simp only [hn, if_false, Option.some.injEq] at h
        subst h
        exact ⟨hn, le_refl _, fun j h1 h2 => by omega⟩

theorem findNameLoop_none (baseName : String) (names : List String) :
    ∀ (fuel n : Nat), findNameLoop baseName names fuel n = none →
      ∀ j, n ≤ j → j < n + fuel → baseName ++ Nat.repr j ∈ names := by
  intro fuel
  induction fuel with
  | zero => intro n _ j h1 h2; omega
  | succ fuel ih =>
      intro n h j h1 h2
      simp only [findNameLoop] at h
      by_cases hn : baseName ++ Nat.repr n ∈ names
      · simp only [hn, if_true] at h
        by_cases hjn : j = n
        · subst hjn; exact hn
        · exact ih (n + 1) h j (by omega) (by omega)
      · simp [hn] at h

theorem findNameLoop_terminates (baseName : String) (names : List String) (n : Nat) :
    ∃ k, findNameLoop baseName names (names.length + 1) n = some k := by
  cases h : findNameLoop baseName names (names.length + 1) n with
  | some k => exact ⟨k, rfl⟩
  | none =>
      exfalso
      have hall := findNameLoop_none baseName names _ n h
      have hnd : ((List.range' n (names.length + 1)).map
          (fun j => baseName ++ Nat.repr j)).Nodup := by
        apply List.Nodup.map
        · intro a b hab; exact numbered_injective baseName a b hab
        · exact List.nodup_range' _ _
      have hsub : (List.range' n (names.length + 1)).map
          (fun j => baseName ++ Nat.repr j) ⊆ names := by
        intro x hx
        simp only [List.mem_map, List.mem_range'_1] at hx
        obtain ⟨j, ⟨hj1, hj2⟩, rfl⟩ := hx
        exact hall j hj1 hj2
      have hle := (List.subperm_of_subset hnd hsub).length_le
      simp at hle

end BulkAdder
namespace BulkAdder

theorem setSafeItemName_uid (u : Nat) (t : String) (p : PageItem) :
    (setSafeItemName u t p).uid = p.uid := by
  cases p; simp [setSafeItemName, PageItem.uid]

theorem setSafeItemName_itemName (u : Nat) (t : String) (p : PageItem) :
    (setSafeItemName u t p).itemName = if p.uid = u then t else p.itemName := by
  cases p; simp [setSafeItemName, PageItem.uid, PageItem.itemName]

mutual
theorem allItemsOf_setSafeItemName (u : Nat) (t : String) :
    ∀ p : PageItem,
      allItemsOf (setSafeItemName u t p) = (allItemsOf p).map (setSafeItemName u t)
  | .mk uid n ty g cs => by
      simp [setSafeItemName, allItemsOf, allItems_setSafeItemNameList u t cs]
theorem allItems_setSafeItemNameList (u : Nat) (t : String) :
    ∀ l : List PageItem,
      allItems (setSafeItemNameList u t l) = (allItems l).map (setSafeItemName u t)
  | [] => by simp [setSafeItemNameList, allItems]
  | c :: cs => by
      simp [setSafeItemNameList, allItems, allItemsOf_setSafeItemName u t c,
        allItems_setSafeItemNameList u t cs]
end

mutual
theorem docItemsOf_setSafeItemName (u : Nat) (t : String) :
    ∀ p : PageItem,
      docItemsOf (setSafeItemName u t p) = (docItemsOf p).map (setSafeItemName u t)
  | .mk uid n ty g cs => by
      cases g <;>
        simp [setSafeItemName, docItemsOf, docItems_setSafeItemNameList u t cs]
theorem docItems_setSafeItemNameList (u : Nat) (t : String) :
    ∀ l : List PageItem,
      docItems (setSafeItemNameList u t l) = (docItems l).map (setSafeItemName u t)
  | [] => by simp [setSafeItemNameList, docItems]
  | c :: cs => by
      simp [setSafeItemNameList, docItems, docItemsOf_setSafeItemName u t c,
        docItems_setSafeItemNameList u t cs]
end

mutual
theorem docItemsOf_subset_allItemsOf :
    ∀ (p q : PageItem), q ∈ docItemsOf p → q ∈ allItemsOf p
  | .mk uid n ty g cs, q, h => by
      cases g
      · simp only [docItemsOf, Bool.false_eq_true, if_false, List.mem_singleton] at h
        simp [allItemsOf, h]
      · simp only [docItemsOf, if_true, List.mem_cons] at h
        rcases h with h | h
        · simp [allItemsOf, h]
        · simp only [allItemsOf, List.mem_cons]
          exact Or.inr (docItems_subset_allItems cs q h)
theorem docItems_subset_allItems :
    ∀ (l : List PageItem) (q : PageItem), q ∈ docItems l → q ∈ allItems l
  | [], q, h => by simp [docItems] at h
  | c :: cs, q, h => by
      simp only [docItems, List.mem_append] at h
      simp only [allItems, List.mem_append]
      rcases h with h | h
      · exact Or.inl (docItemsOf_subset_allItemsOf c q h)
      · exact Or.inr (docItems_subset_allItems cs q h)
end

theorem findName_step (nameFromType : Nat → String) (names0 : List String)
    (done : List Nat) (st : NamerState) (u : Nat)
    (hu : ∃ p ∈ allItems st.items, p.uid = u) (hinv : NamesApart names0 done st) :
    ∃ st', findName nameFromType st u = some st' ∧ NamesApart names0 (u :: done) st' ∧
      (allItems st'.items).map PageItem.uid = (allItems st.items).map PageItem.uid ∧
      (docItems st'.items).map PageItem.uid = (docItems st.items).map PageItem.uid := by
  obtain ⟨h0, h1, h2, h3⟩ := hinv
  obtain ⟨p0, hp0, hp0u⟩ := hu
  cases hfind : (allItems st.items).find? (fun p => p.uid == u) with
  | none =>
      exfalso
      rw [List.find?_eq_none] at hfind
      exact hfind p0 hp0 (by simp [hp0u])
  | some item =>
      obtain ⟨k, hk⟩ := findNameLoop_terminates (nameFromType item.itemType) st.names
        (st.lastSuccess item.itemType)
      have hfree := (findNameLoop_free _ _ _ _ _ hk).1
      refine ⟨{ items := setSafeItemNameList u (nameFromType item.itemType ++ Nat.repr k) st.items
                names := setInsert st.names (nameFromType item.itemType ++ Nat.repr k)
                lastSuccess := Function.update st.lastSuccess item.itemType k },
        by simp only [findName, hfind, hk], ⟨?_, ?_, ?_, ?_⟩, ?_, ?_⟩
      · intro s hs
        exact (mem_setInsert _ _ _).2 (Or.inr (h0 s hs))
      · intro q hq
        simp only [docItems_setSafeItemNameList, List.mem_map] at hq
        obtain ⟨q₁, hq₁, rfl⟩ := hq
        rw [setSafeItemName_itemName, mem_setInsert]
        by_cases hqu : q₁.uid = u
        · simp [hqu]
        · simp only [hqu, if_false]; exact Or.inr (h1 q₁ hq₁)
      · intro p hp hpd
        simp only [allItems_setSafeItemNameList, List.mem_map] at hp
        obtain ⟨p₁, hp₁, rfl⟩ := hp
        rw [setSafeItemName_uid] at hpd
        rw [setSafeItemName_itemName, mem_setInsert]
        by_cases hpu : p₁.uid = u
        · simp only [hpu, if_true, true_or, true_and]
          intro hc; exact hfree (h0 _ hc)
        · simp only [hpu, if_false]
          have hd : p₁.uid ∈ done := by
            rcases List.mem_cons.1 hpd with h | h
            · exact absurd h hpu
            · exact h
          exact ⟨Or.inr (h2 p₁ hp₁ hd).1, (h2 p₁ hp₁ hd).2⟩
      · intro p hp hpd q hq hne
        simp only [allItems_setSafeItemNameList, docItems_setSafeItemNameList,
          List.mem_map] at hp hq
        obtain ⟨p₁, hp₁, rfl⟩ := hp
        rw [setSafeItemName_uid] at hpd
        have hqn : ∃ q₁, q = setSafeItemName u
              (nameFromType item.itemType ++ Nat.repr k) q₁ ∧
            (q₁.uid = u ∨ q₁.itemName ∈ st.names) ∧
            (q₁ ∈ docItems st.items ∨ (q₁ ∈ allItems st.items ∧ (q₁.uid = u ∨ q₁.uid ∈ done))) := by
          rcases hq with ⟨q₁, hq₁, rfl⟩ | ⟨⟨q₁, hq₁, rfl⟩, hqd⟩
          · exact ⟨q₁, rfl, Or.inr (h1 q₁ hq₁), Or.inl hq₁⟩
          · rw [setSafeItemName_uid] at hqd
            rcases List.mem_cons.1 hqd with h | h
            · exact ⟨q₁, rfl, Or.inl h, Or.inr ⟨hq₁, Or.inl h⟩⟩
            · exact ⟨q₁, rfl, Or.inr (h2 q₁ hq₁ h).1, Or.inr ⟨hq₁, Or.inr h⟩⟩
        obtain ⟨q₁, rfl, hqname, hqwhere⟩ := hqn
        rw [setSafeItemName_uid, setSafeItemName_uid] at hne
        rw [setSafeItemName_itemName, setSafeItemName_itemName]
        by_cases hpu : p₁.uid = u
        · have hqu : q₁.uid ≠ u := fun h => hne (h.trans hpu.symm)
          simp only [hpu, if_true, hqu, if_false]
          rcases hqname with h | h
          · exact absurd h hqu
          · intro hc; exact hfree (hc ▸ h)
        · have hd : p₁.uid ∈ done := by
            rcases List.mem_cons.1 hpd with h | h
            · exact absurd h hpu
            · exact h
          simp only [hpu, if_false]
          by_cases hqu : q₁.uid = u
          · simp only [hqu, if_true]
            intro hc; exact hfree (hc ▸ (h2 p₁ hp₁ hd).1)
          · simp only [hqu, if_false]
            apply h3 p₁ hp₁ hd q₁ _ hne
            rcases hqwhere with h | ⟨h, h' | h'⟩
            · exact Or.inl h
            · exact absurd h' hqu
            · exact Or.inr ⟨h, h'⟩
      · simp only [allItems_setSafeItemNameList, List.map_map]
        apply List.map_congr_left
        intro a _; exact setSafeItemName_uid _ _ a
      · simp only [docItems_setSafeItemNameList, List.map_map]
        apply List.map_congr_left
        intro a _; exact setSafeItemName_uid _ _ a

theorem foldlM_findName (nameFromType : Nat → String) (names0 : List String) :
    ∀ (pending done : List Nat) (st : NamerState),
      (∀ u ∈ pending, ∃ p ∈ allItems st.items, p.uid = u) →
      NamesApart names0 done st →
      ∃ st', pending.foldlM (findName nameFromType) st = some st' ∧
        NamesApart names0 (pending.reverse ++ done) st' ∧
        (allItems st'.items).map PageItem.uid = (allItems st.items).map PageItem.uid ∧
        (docItems st'.items).map PageItem.uid = (docItems st.items).map PageItem.uid := by
  intro pending
  induction pending with
  | nil => intro done st _ hinv; exact ⟨st, rfl, by simpa using hinv, rfl, rfl⟩
  | cons u us ih =>
      intro done st hp hinv
      obtain ⟨st₁, hst₁, hinv₁, hu₁, hd₁⟩ :=
        findName_step nameFromType names0 done st u (hp u (List.mem_cons_self _ _)) hinv
      have hp₁ : ∀ v ∈ us, ∃ p ∈ allItems st₁.items, p.uid = v := by
        intro v hv
        obtain ⟨p, hpm, hpu⟩ := hp v (List.mem_cons_of_mem _ hv)
        have : v ∈ (allItems st₁.items).map PageItem.uid := by
          rw [hu₁]; exact List.mem_map.2 ⟨p, hpm, hpu⟩
        obtain ⟨p', hp', hpu'⟩ := List.mem_map.1 this
        exact ⟨p', hp', hpu'⟩
      obtain ⟨st₂, hst₂, hinv₂, hu₂, hd₂⟩ := ih (u :: done) st₁ hp₁ hinv₁
      refine ⟨st₂, ?_, ?_, hu₂.trans hu₁, hd₂.trans hd₁⟩
      · simp only [List.foldlM, hst₁]
        exact hst₂
      · simpa using hinv₂

end BulkAdder
namespace BulkAdder

/-- C1: `BulkAdder::process` assigns unique names. When every pending address
is an object of the document, `process` returns, the document keeps its
objects, and every pending item `p` ends with a name that differs from the
name of every other document item (top-level or nested in groups at any
depth), from the name of every other pending item, and from every name a
document item carried when `process` started. -/
theorem process_assigns_unique_names (nameFromType : Nat → String) (b : BulkAdder)
    (hp : ∀ u ∈ b.m_pending, ∃ p ∈ allItems b.m_doc, p.uid = u) :
    ∃ b', process nameFromType b = some b' ∧
      (allItems b'.m_doc).map PageItem.uid = (allItems b.m_doc).map PageItem.uid ∧
      (docItems b'.m_doc).map PageItem.uid = (docItems b.m_doc).map PageItem.uid ∧
      ∀ p ∈ allItems b'.m_doc, p.uid ∈ b.m_pending →
        (∀ q ∈ docItems b'.m_doc, q.uid ≠ p.uid → p.itemName ≠ q.itemName) ∧
        (∀ q ∈ allItems b'.m_doc, q.uid ∈ b.m_pending → q.uid ≠ p.uid →
          p.itemName ≠ q.itemName) ∧
        (∀ q ∈ docItems b.m_doc, p.itemName ≠ q.itemName) := by
  by_cases hemp : b.m_pending.isEmpty = true
  · refine ⟨b, by simp [process, hemp], rfl, rfl, ?_⟩
    intro p _ hpp
    have : b.m_pending = [] := List.isEmpty_iff.1 hemp
    rw [this] at hpp
    exact absurd hpp (List.not_mem_nil _)
  · obtain ⟨names0, hg, hnames⟩ := gatherNames_spec b.m_doc
    have hinit : NamesApart names0 []
        { items := b.m_doc, names := names0, lastSuccess := fun _ => 0 } := by
      refine ⟨fun s hs => hs, ?_, ?_, ?_⟩
      · intro q hq; exact (hnames _).2 ⟨q, hq, rfl⟩
      · intro p _ hd; exact absurd hd (List.not_mem_nil _)
      · intro p _ hd; exact absurd hd (List.not_mem_nil _)
    obtain ⟨st, hst, ⟨_, _, h2, h3⟩, hu, hd⟩ :=
      foldlM_findName nameFromType names0 b.m_pending []
        { items := b.m_doc, names := names0, lastSuccess := fun _ => 0 } hp hinit
    have hdone : ∀ v, v ∈ b.m_pending → v ∈ b.m_pending.reverse ++ [] := by
      intro v hv; simpa using hv
    refine ⟨{ m_doc := st.items, m_pending := [] }, ?_, hu, hd, ?_⟩
    · simp only [process, hemp, hg, hst]
      simp
    · intro p hpm hpp
      refine ⟨?_, ?_, ?_⟩
      · intro q hq hne
        exact h3 p hpm (hdone _ hpp) q (Or.inl hq) hne
      · intro q hq hqp hne
        exact h3 p hpm (hdone _ hpp) q (Or.inr ⟨hq, hdone _ hqp⟩) hne
      · intro q hq hc
        exact (h2 p hpm (hdone _ hpp)).2 ((hnames _).2 ⟨q, hq, hc.symm⟩)

/-- Witness for C1: a document with a text frame and a group of two frames,
the nested frame 4 and the top-level frame 1 pending. -/
theorem process_assigns_unique_names_witness :
    (∀ u ∈ [4, 1], ∃ p ∈ allItems
        [PageItem.mk 1 "Text0" 0 false [],
          PageItem.mk 2 "Group0" 1 true
            [PageItem.mk 3 "Text1" 0 false [], PageItem.mk 4 "" 0 false []]],
        p.uid = u) ∧
      ∃ b', process (fun t => if t = 0 then "Text" else "Group")
          ⟨[PageItem.mk 1 "Text0" 0 false [],
          PageItem.mk 2 "Group0" 1 true
            [PageItem.mk 3 "Text1" 0 false [], PageItem.mk 4 "" 0 false []]], [4, 1]⟩ = some b' ∧
        (allItems b'.m_doc).map PageItem.uid = (allItems
          [PageItem.mk 1 "Text0" 0 false [],
          PageItem.mk 2 "Group0" 1 true
            [PageItem.mk 3 "Text1" 0 false [], PageItem.mk 4 "" 0 false []]]).map PageItem.uid ∧
        (docItems b'.m_doc).map PageItem.uid = (docItems
          [PageItem.mk 1 "Text0" 0 false [],
          PageItem.mk 2 "Group0" 1 true
            [PageItem.mk 3 "Text1" 0 false [], PageItem.mk 4 "" 0 false []]]).map PageItem.uid ∧
        ∀ p ∈ allItems b'.m_doc, p.uid ∈ [4, 1] →
          (∀ q ∈ docItems b'.m_doc, q.uid ≠ p.uid → p.itemName ≠ q.itemName) ∧
          (∀ q ∈ allItems b'.m_doc, q.uid ∈ [4, 1] → q.uid ≠ p.uid →
            p.itemName ≠ q.itemName) ∧
          (∀ q ∈ docItems
            [PageItem.mk 1 "Text0" 0 false [],
          PageItem.mk 2 "Group0" 1 true
            [PageItem.mk 3 "Text1" 0 false [], PageItem.mk 4 "" 0 false []]],
            p.itemName ≠ q.itemName) :=
  ⟨by decide,
    process_assigns_unique_names (fun t => if t = 0 then "Text" else "Group")
      ⟨[PageItem.mk 1 "Text0" 0 false [],
          PageItem.mk 2 "Group0" 1 true
            [PageItem.mk 3 "Text1" 0 false [], PageItem.mk 4 "" 0 false []]], [4, 1]⟩ (by decide)⟩

end BulkAdder
/-! ## Theorems: `PluginManager::initPlugs` -/

namespace QMap

theorem insert_length_le {α : Type} (key : String) (value : α) (m : List (String × α)) :
    (insert key value m).length ≤ m.length + 1 := by
  induction m with
  | nil => simp [insert]
  | cons e rest ih =>
      obtain ⟨k, v⟩ := e
      simp only [insert]
      split
      · simp
      · split
        · simp
        · simp only [List.length_cons]; omega

theorem insert_perm {α : Type} (key : String) (value : α) (m : List (String × α))
    (hfresh : key ∉ m.map Prod.fst) : (insert key value m).Perm ((key, value) :: m) := by
  induction m with
  | nil => simp [insert]
  | cons e rest ih =>
      obtain ⟨k, v⟩ := e
      simp only [List.map_cons, List.mem_cons, not_or] at hfresh
      simp only [insert]
      split
      · exact List.Perm.refl _
      · rw [if_neg hfresh.1]
        exact ((ih hfresh.2).cons (k, v)).trans (List.Perm.swap _ _ _)

end QMap

namespace PluginManager

theorem initPlugsFirstLoop_counts {σ : Type} (initPlugin : σ → String → σ × Int) :
    ∀ (dirList : List String) (s : InitPlugs σ),
      (initPlugsFirstLoop initPlugin dirList s).allPlugs.length ≤
          s.allPlugs.length + dirList.length ∧
        (initPlugsFirstLoop initPlugin dirList s).loaded +
            (initPlugsFirstLoop initPlugin dirList s).failedPlugs.length =
          s.loaded + s.failedPlugs.length + dirList.length ∧
        (initPlugsFirstLoop initPlugin dirList s).changes = s.changes ∧
        (initPlugsFirstLoop initPlugin dirList s).passes = s.passes := by
  intro dirList
  induction dirList with
  | nil => intro s; simp [initPlugsFirstLoop]
  | cons f fs ih =>
      intro s
      simp only [initPlugsFirstLoop]
      obtain ⟨h1, h2, h3, h4⟩ := ih
        { s with
          world := (initPlugin s.world f).1
          allPlugs := QMap.insert f (initPlugin s.world f).2 s.allPlugs
          loaded := if (initPlugin s.world f).2 ≠ 0 then s.loaded + 1 else s.loaded
          failedPlugs :=
            if (initPlugin s.world f).2 ≠ 0 then s.failedPlugs else s.failedPlugs ++ [f] }
      have hl := QMap.insert_length_le f (initPlugin s.world f).2 s.allPlugs
      dsimp only at h1 h2 h3 h4
      refine ⟨?_, ?_, h3, h4⟩
      · simp only [List.length_cons] at h1 ⊢; omega
      · rw [h2]
        by_cases hr : (initPlugin s.world f).2 = 0
        · simp only [hr, ne_eq, not_true_eq_false, if_false, List.length_cons,
            List.length_append, List.length_singleton, List.length_nil]
          omega
        · simp only [hr, ne_eq, not_false_eq_true, if_true, List.length_cons]
          omega

theorem initPlugsRetryPass_counts {σ : Type} (initPlugin : σ → String → σ × Int) :
    ∀ (entries : List (String × Int)) (s : InitPlugs σ),
      (initPlugsRetryPass initPlugin entries s).1.length = entries.length ∧
        (initPlugsRetryPass initPlugin entries s).2.loaded + s.changes =
          s.loaded + (initPlugsRetryPass initPlugin entries s).2.changes ∧
        s.changes ≤ (initPlugsRetryPass initPlugin entries s).2.changes ∧
        (initPlugsRetryPass initPlugin entries s).2.passes = s.passes ∧
        (initPlugsRetryPass initPlugin entries s).2.warning = s.warning := by
  intro entries
  induction entries with
  | nil => intro s; simp [initPlugsRetryPass]
  | cons e rest ih =>
      intro s
      obtain ⟨key, value⟩ := e
      simp only [initPlugsRetryPass]
      by_cases hv : value ≠ 0
      · simp only [hv, if_true, ne_eq, not_false_eq_true, List.length_cons]
        obtain ⟨h1, h2, h3, h4, h5⟩ := ih s
        exact ⟨by omega, h2, h3, h4, h5⟩
      · simp only [hv, if_false, List.length_cons]
        by_cases hr : (initPlugin s.world key).2 = 1
        · simp only [hr, if_true]
          obtain ⟨h1, h2, h3, h4, h5⟩ := ih
            { s with
              world := (initPlugin s.world key).1
              loaded := s.loaded + 1
              changes := s.changes + 1
              failedPlugs := removeAll s.failedPlugs key
              attempts := s.attempts ++ [(key, 1)] }
          simp only at h2 h3 h4 h5
          exact ⟨by omega, by omega, by omega, h4, h5⟩
        · simp only [hr, if_false]
          obtain ⟨h1, h2, h3, h4, h5⟩ := ih
            { s with
              world := (initPlugin s.world key).1
              attempts := s.attempts ++ [(key, (initPlugin s.world key).2)] }
          exact ⟨by omega, h2, h3, h4, h5⟩

theorem initPlugsRetryTurn_counts {σ : Type} (initPlugin : σ → String → σ × Int)
    (s : InitPlugs σ) :
    (initPlugsRetryTurn initPlugin s).allPlugs.length = s.allPlugs.length ∧
      (initPlugsRetryTurn initPlugin s).loaded =
        s.loaded + (initPlugsRetryTurn initPlugin s).changes ∧
      (initPlugsRetryTurn initPlugin s).passes = s.passes + 1 := by
  obtain ⟨h1, h2, _, _, _⟩ :=
    initPlugsRetryPass_counts initPlugin s.allPlugs { s with changes := 0, attempts := [] }
  dsimp only at h1 h2
  refine ⟨h1, ?_, rfl⟩
  show (initPlugsRetryPass initPlugin s.allPlugs { s with changes := 0, attempts := [] }).2.loaded =
    s.loaded +
      (initPlugsRetryPass initPlugin s.allPlugs { s with changes := 0, attempts := [] }).2.changes
  omega

theorem initPlugsRetryLoop_of_stop {σ : Type} (initPlugin : σ → String → σ × Int)
    (fuel : Nat) (s : InitPlugs σ) (h : retryCondition s = false) :
    initPlugsRetryLoop initPlugin fuel s = some s := by
  cases fuel <;> simp [initPlugsRetryLoop, h]

theorem initPlugsRetryLoop_terminates {σ : Type} (initPlugin : σ → String → σ × Int) :
    ∀ (fuel : Nat) (s : InitPlugs σ), s.allPlugs.length - s.loaded ≤ fuel →
      ∃ s', initPlugsRetryLoop initPlugin fuel s = some s' ∧
        s'.passes ≤ s.passes + (s.allPlugs.length - s.loaded) := by
  intro fuel
  induction fuel with
  | zero =>
      intro s hfuel
      have hc : retryCondition s = false := by
        simp only [retryCondition, Bool.and_eq_false_imp, decide_eq_true_eq]
        intro h; omega
      exact ⟨s, initPlugsRetryLoop_of_stop initPlugin 0 s hc, by omega⟩
  | succ fuel ih =>
      intro s hfuel
      cases hc : retryCondition s with
      | false => exact ⟨s, initPlugsRetryLoop_of_stop initPlugin _ s hc, by omega⟩
      | true =>
          have hlt : s.loaded < s.allPlugs.length := by
            simp only [retryCondition, Bool.and_eq_true, decide_eq_true_eq] at hc
            exact hc.1
          obtain ⟨h1, h2, h3⟩ := initPlugsRetryTurn_counts initPlugin s
          simp only [initPlugsRetryLoop, hc, if_true]
          by_cases hch : (initPlugsRetryTurn initPlugin s).changes = 0
          · have hc' : retryCondition (initPlugsRetryTurn initPlugin s) = false := by
              simp [retryCondition, hch]
            exact ⟨_, initPlugsRetryLoop_of_stop initPlugin fuel _ hc', by omega⟩
          · obtain ⟨s', hs', hp⟩ := ih (initPlugsRetryTurn initPlugin s) (by omega)
            exact ⟨s', hs', by omega⟩

theorem initPlugsWarn_fields {σ : Type} (usingGUI : Bool) (s : InitPlugs σ) :
    (initPlugsWarn usingGUI s).world = s.world ∧
      (initPlugsWarn usingGUI s).allPlugs = s.allPlugs ∧
      (initPlugsWarn usingGUI s).loaded = s.loaded ∧
      (initPlugsWarn usingGUI s).changes = s.changes ∧
      (initPlugsWarn usingGUI s).failedPlugs = s.failedPlugs ∧
      (initPlugsWarn usingGUI s).attempts = s.attempts ∧
      (initPlugsWarn usingGUI s).passes = s.passes := by
  unfold initPlugsWarn
  split
  · split <;> simp
  · simp

/-- C3: the retry loop of `PluginManager::initPlugs` terminates whatever the
calls of `initPlugin` do and return, and the number of retry passes is at most
the number of files that failed in the first pass (so `0` when none failed),
hence at most the number of plugin files. -/
theorem initPlugs_retry_passes_bounded {σ : Type} (initPlugin : σ → String → σ × Int)
    (usingGUI dirExists : Bool) (dirList : List String) (world : σ) :
    ∃ s, initPlugs initPlugin usingGUI dirExists dirList world = some s ∧
      s.passes ≤
        (initPlugsFirstLoop initPlugin dirList (initPlugsStart world)).failedPlugs.length ∧
      s.passes ≤ dirList.length := by
  unfold initPlugs
  split
  · exact ⟨initPlugsStart world, rfl, by simp [initPlugsStart], by simp [initPlugsStart]⟩
  · obtain ⟨h1, h2, _, h4⟩ :=
      initPlugsFirstLoop_counts initPlugin dirList (initPlugsStart world)
    simp only [initPlugsStart, List.length_nil, Nat.zero_add] at h1 h2 h4
    obtain ⟨s', hs', hp⟩ := initPlugsRetryLoop_terminates initPlugin dirList.length
      (initPlugsFirstLoop initPlugin dirList (initPlugsStart world))
      (by simp only [initPlugsStart]; omega)
    simp only [initPlugsStart] at hs' hp ⊢
    rw [hs']
    refine ⟨initPlugsWarn usingGUI s', rfl, ?_, ?_⟩
    · rw [(initPlugsWarn_fields usingGUI s').2.2.2.2.2.2]; omega
    · rw [(initPlugsWarn_fields usingGUI s').2.2.2.2.2.2]; omega

end PluginManager
namespace PluginManager

theorem loadedEntries_cons (e : String × Int) (m : List (String × Int)) :
    loadedEntries (e :: m) = (if e.2 ≠ 0 then 1 else 0) + loadedEntries m := by
  unfold loadedEntries
  by_cases h : e.2 = 0
  · simp [List.filter_cons, h]
  · simp [List.filter_cons, h, Nat.add_comm]

theorem loadedEntries_insert (key : String) (value : Int) (m : List (String × Int))
    (hfresh : key ∉ m.map Prod.fst) :
    loadedEntries (QMap.insert key value m) = (if value ≠ 0 then 1 else 0) + loadedEntries m := by
  have hp := QMap.insert_perm key value m hfresh
  have := (hp.filter (fun e => decide (e.2 ≠ 0))).length_eq
  rw [← loadedEntries_cons (key, value) m]
  exact this

theorem loadedEntries_le (m : List (String × Int)) : loadedEntries m ≤ m.length :=
  List.length_filter_le _ _

theorem all_loaded_of_loadedEntries (m : List (String × Int))
    (h : m.length ≤ loadedEntries m) : ∀ e ∈ m, e.2 ≠ 0 := by
  induction m with
  | nil => intro e he; exact absurd he (List.not_mem_nil _)
  | cons x rest ih =>
      rw [loadedEntries_cons] at h
      have hle := loadedEntries_le rest
      by_cases hx : x.2 = 0
      · simp only [hx, ne_eq, not_true_eq_false, if_false, List.length_cons] at h
        omega
      · simp only [hx, ne_eq, not_false_eq_true, if_true, List.length_cons] at h
        intro e he
        rcases List.mem_cons.1 he with rfl | he
        · exact hx
        · exact ih (by omega) e he

theorem initPlugsFirstLoop_keys {σ : Type} (initPlugin : σ → String → σ × Int) :
    ∀ (dirList : List String) (s : InitPlugs σ), dirList.Nodup →
      (∀ f ∈ dirList, f ∉ s.allPlugs.map Prod.fst) →
      ((initPlugsFirstLoop initPlugin dirList s).allPlugs.map Prod.fst).Perm
          (dirList ++ s.allPlugs.map Prod.fst) ∧
        loadedEntries (initPlugsFirstLoop initPlugin dirList s).allPlugs + s.loaded =
          loadedEntries s.allPlugs + (initPlugsFirstLoop initPlugin dirList s).loaded := by
  intro dirList
  induction dirList with
  | nil => intro s _ _; simp [initPlugsFirstLoop]
  | cons f fs ih =>
      intro s hnd hfresh
      have hf : f ∉ s.allPlugs.map Prod.fst := hfresh f (List.mem_cons_self _ _)
      have hperm := QMap.insert_perm f (initPlugin s.world f).2 s.allPlugs hf
      have hkeys : ((QMap.insert f (initPlugin s.world f).2 s.allPlugs).map Prod.fst).Perm
          (f :: s.allPlugs.map Prod.fst) := by
        simpa using hperm.map Prod.fst
      obtain ⟨h1, h2⟩ := ih
        { s with
          world := (initPlugin s.world f).1
          allPlugs := QMap.insert f (initPlugin s.world f).2 s.allPlugs
          loaded := if (initPlugin s.world f).2 ≠ 0 then s.loaded + 1 else s.loaded
          failedPlugs :=
            if (initPlugin s.world f).2 ≠ 0 then s.failedPlugs else s.failedPlugs ++ [f] }
        (List.nodup_cons.1 hnd).2
        (by
          intro g hg hmem
          rcases List.mem_cons.1 (hkeys.subset hmem) with h | h
          · subst h; exact (List.nodup_cons.1 hnd).1 hg
          · exact hfresh g (List.mem_cons_of_mem _ hg) h)
      dsimp only at h1 h2
      simp only [initPlugsFirstLoop]
      refine ⟨?_, ?_⟩
      · refine h1.trans ?_
        refine (List.Perm.append_left fs hkeys).trans ?_
        simp
      · rw [loadedEntries_insert f _ s.allPlugs hf] at h2
        by_cases hr : (initPlugin s.world f).2 = 0
        · simp only [hr, ne_eq, not_true_eq_false, if_false] at h2 ⊢
          omega
        · simp only [hr, ne_eq, not_false_eq_true, if_true] at h2 ⊢
          omega

theorem initPlugsRetryPass_attempts {σ : Type} (initPlugin : σ → String → σ × Int) :
    ∀ (entries : List (String × Int)) (s : InitPlugs σ),
      ∃ new, (initPlugsRetryPass initPlugin entries s).2.attempts = s.attempts ++ new ∧
        (new.map Prod.fst).Sublist (entries.map Prod.fst) ∧
        (∀ a ∈ new, a ∈ (initPlugsRetryPass initPlugin entries s).1) ∧
        (∀ f, (f, (0 : Int)) ∈ (initPlugsRetryPass initPlugin entries s).1 →
          (f, (0 : Int)) ∈ new) ∧
        ((initPlugsRetryPass initPlugin entries s).2.changes = s.changes →
          ∀ a ∈ new, a.2 ≠ 1) ∧
        (initPlugsRetryPass initPlugin entries s).1.map Prod.fst = entries.map Prod.fst ∧
        loadedEntries entries + (initPlugsRetryPass initPlugin entries s).2.loaded ≤
          loadedEntries (initPlugsRetryPass initPlugin entries s).1 + s.loaded := by
  intro entries
  induction entries with
  | nil => intro s; exact ⟨[], by simp [initPlugsRetryPass]⟩
  | cons e rest ih =>
      intro s
      obtain ⟨key, value⟩ := e
      simp only [initPlugsRetryPass]
      by_cases hv : value = 0
      · subst hv
        simp only [ne_eq, not_true_eq_false, if_false]
        by_cases hr : (initPlugin s.world key).2 = 1
        · simp only [hr, if_true]
          obtain ⟨new, h1, h2, h3, h4, h5, h6, h7⟩ := ih
            { s with
              world := (initPlugin s.world key).1
              loaded := s.loaded + 1
              changes := s.changes + 1
              failedPlugs := removeAll s.failedPlugs key
              attempts := s.attempts ++ [(key, 1)] }
          have hmono := (initPlugsRetryPass_counts initPlugin rest
            { s with
              world := (initPlugin s.world key).1
              loaded := s.loaded + 1
              changes := s.changes + 1
              failedPlugs := removeAll s.failedPlugs key
              attempts := s.attempts ++ [(key, 1)] }).2.2.1
          dsimp only at h1 h5 h7 hmono
          refine ⟨(key, 1) :: new, by simp [h1], ?_, ?_, ?_, ?_, ?_, ?_⟩
          · simpa using h2.cons₂ key
          · intro a ha
            rcases List.mem_cons.1 ha with rfl | ha
            · exact List.mem_cons_self _ _
            · exact List.mem_cons_of_mem _ (h3 a ha)
          · intro f hf
            rcases List.mem_cons.1 hf with h | h
            · simp at h
            · exact List.mem_cons_of_mem _ (h4 f h)
          · intro hch; omega
          · simp [h6]
          · rw [loadedEntries_cons, loadedEntries_cons]
            simp only [ne_eq, not_true_eq_false, if_false, one_ne_zero, not_false_eq_true,
              if_true]
            omega
        · simp only [hr, if_false]
          obtain ⟨new, h1, h2, h3, h4, h5, h6, h7⟩ := ih
            { s with
              world := (initPlugin s.world key).1
              attempts := s.attempts ++ [(key, (initPlugin s.world key).2)] }
          dsimp only at h1 h5 h7
          refine ⟨(key, (initPlugin s.world key).2) :: new, by simp [h1], ?_, ?_, ?_, ?_, ?_, ?_⟩
          · simpa using h2.cons₂ key
          · intro a ha
            rcases List.mem_cons.1 ha with rfl | ha
            · exact List.mem_cons_self _ _
            · exact List.mem_cons_of_mem _ (h3 a ha)
          · intro f hf
            rcases List.mem_cons.1 hf with h | h
            · rw [← h]; exact List.mem_cons_self _ _
            · exact List.mem_cons_of_mem _ (h4 f h)
          · intro hch a ha
            rcases List.mem_cons.1 ha with rfl | ha
            · exact hr
            · exact h5 hch a ha
          · simp [h6]
          · rw [loadedEntries_cons, loadedEntries_cons]
            simp only [ne_eq, not_true_eq_false, if_false]
            have : 0 ≤ (if ¬(initPlugin s.world key).2 = 0 then 1 else 0 : Nat) := Nat.zero_le _
            omega
      · simp only [hv, ne_eq, not_false_eq_true, if_true]
        obtain ⟨new, h1, h2, h3, h4, h5, h6, h7⟩ := ih s
        refine ⟨new, h1, ?_, ?_, ?_, h5, ?_, ?_⟩
        · simpa using h2.cons key
        · intro a ha; exact List.mem_cons_of_mem _ (h3 a ha)
        · intro f hf
          rcases List.mem_cons.1 hf with h | h
          · exfalso; simp only [Prod.mk.injEq] at h; exact hv h.2.symm
          · exact h4 f h
        · simp [h6]
        · rw [loadedEntries_cons, loadedEntries_cons]
          simp only [ne_eq, hv, not_false_eq_true, if_true]
          omega

end PluginManager
namespace PluginManager

theorem initPlugsRetryTurn_invariant {σ : Type} (initPlugin : σ → String → σ × Int)
    (s : InitPlugs σ) (hinv : RetryInvariant s) :
    RetryInvariant (initPlugsRetryTurn initPlugin s) ∧
      (initPlugsRetryTurn initPlugin s).allPlugs.map Prod.fst = s.allPlugs.map Prod.fst := by
  obtain ⟨hk, hl, _⟩ := hinv
  obtain ⟨new, h1, h2, h3, h4, h5, h6, h7⟩ :=
    initPlugsRetryPass_attempts initPlugin s.allPlugs { s with changes := 0, attempts := [] }
  obtain ⟨_, _, _, hp, _⟩ :=
    initPlugsRetryPass_counts initPlugin s.allPlugs { s with changes := 0, attempts := [] }
  dsimp only at h1 h5 h7 hp
  rw [List.nil_append] at h1
  refine ⟨⟨?_, ?_, ?_⟩, h6⟩
  · show ((initPlugsRetryPass initPlugin s.allPlugs
        { s with changes := 0, attempts := [] }).1.map Prod.fst).Nodup
    rw [h6]; exact hk
  · show (initPlugsRetryPass initPlugin s.allPlugs
        { s with changes := 0, attempts := [] }).2.loaded ≤
      loadedEntries (initPlugsRetryPass initPlugin s.allPlugs
        { s with changes := 0, attempts := [] }).1
    omega
  · intro hch
    have hch' : (initPlugsRetryPass initPlugin s.allPlugs
        { s with changes := 0, attempts := [] }).2.changes = 0 := hch
    refine ⟨Nat.succ_pos _, ?_, ?_, ?_⟩
    · show ((initPlugsRetryPass initPlugin s.allPlugs
          { s with changes := 0, attempts := [] }).2.attempts.map Prod.fst).Nodup
      rw [h1]; exact hk.sublist h2
    · intro f hf
      show (f, (0 : Int)) ∈ (initPlugsRetryPass initPlugin s.allPlugs
          { s with changes := 0, attempts := [] }).2.attempts
      rw [h1]; exact h4 f hf
    · intro a ha
      have ha' : a ∈ new := by rw [← h1]; exact ha
      exact ⟨h3 a ha', h5 hch' a ha'⟩

theorem initPlugsRetryLoop_invariant {σ : Type} (initPlugin : σ → String → σ × Int) :
    ∀ (fuel : Nat) (s s' : InitPlugs σ), initPlugsRetryLoop initPlugin fuel s = some s' →
      RetryInvariant s →
      RetryInvariant s' ∧ retryCondition s' = false ∧
        s'.allPlugs.map Prod.fst = s.allPlugs.map Prod.fst := by
  intro fuel
  induction fuel with
  | zero =>
      intro s s' h hinv
      cases hc : retryCondition s with
      | true => simp [initPlugsRetryLoop, hc] at h
      | false =>
          simp only [initPlugsRetryLoop, hc, Bool.false_eq_true, if_false,
            Option.some.injEq] at h
          subst h; exact ⟨hinv, hc, rfl⟩
  | succ fuel ih =>
      intro s s' h hinv
      cases hc : retryCondition s with
      | true =>
          simp only [initPlugsRetryLoop, hc, if_true] at h
          obtain ⟨hinv₁, hk₁⟩ := initPlugsRetryTurn_invariant initPlugin s hinv
          obtain ⟨h1, h2, h3⟩ := ih _ s' h hinv₁
          exact ⟨h1, h2, h3.trans hk₁⟩
      | false =>
          simp only [initPlugsRetryLoop, hc, Bool.false_eq_true, if_false,
            Option.some.injEq] at h
          subst h; exact ⟨hinv, hc, rfl⟩

theorem initPlugsFirstLoop_invariant {σ : Type} (initPlugin : σ → String → σ × Int)
    (dirList : List String) (hnd : dirList.Nodup) (world : σ) :
    RetryInvariant (initPlugsFirstLoop initPlugin dirList (initPlugsStart world)) ∧
      ((initPlugsFirstLoop initPlugin dirList (initPlugsStart world)).allPlugs.map
        Prod.fst).Perm dirList := by
  obtain ⟨h1, h2⟩ := initPlugsFirstLoop_keys initPlugin dirList (initPlugsStart world) hnd
    (by intro f _; simp [initPlugsStart])
  obtain ⟨_, _, h3, _⟩ := initPlugsFirstLoop_counts initPlugin dirList (initPlugsStart world)
  simp only [initPlugsStart, List.map_nil, List.append_nil, loadedEntries, List.filter_nil,
    List.length_nil, Nat.add_zero, Nat.zero_add] at h1 h2 h3
  refine ⟨⟨?_, ?_, ?_⟩, h1⟩
  · exact (h1.nodup_iff).2 hnd
  · simp only [loadedEntries, initPlugsStart]; omega
  · intro hch
    simp only [initPlugsStart] at hch
    omega

theorem stopped_after_progress {σ : Type} (s : InitPlugs σ) (hinv : RetryInvariant s)
    (hstop : retryCondition s = false) (hch : s.changes ≠ 0) : ∀ e ∈ s.allPlugs, e.2 ≠ 0 := by
  apply all_loaded_of_loadedEntries
  have hle := hinv.2.1
  simp only [retryCondition, Bool.and_eq_false_imp, decide_eq_true_eq] at hstop
  by_cases hlt : s.loaded < s.allPlugs.length
  · have := hstop hlt
    simp [hch] at this
  · omega

theorem initPlugs_retry_example :
    (initPlugs
        (dependencyInitPlugin fun f =>
          if f = "a" then ["b"] else if f = "b" then ["c"] else if f = "d" then ["e"] else [])
        true true ["a", "b", "c", "d"] []).map
      (fun s => (s.world, s.allPlugs, s.attempts, s.passes)) =
      some (["a", "b", "c"], [("a", 1), ("b", 1), ("c", 1), ("d", 0)], [("d", 0)], 3) := by
  decide

end PluginManager
namespace QMap

theorem mem_insert {α : Type} (key : String) (value : α) (m : List (String × α))
    (e : String × α) (he : e ∈ insert key value m) : e = (key, value) ∨ e ∈ m := by
  induction m with
  | nil => simpa [insert] using he
  | cons x rest ih =>
      obtain ⟨k, v⟩ := x
      simp only [insert] at he
      split at he
      · rcases List.mem_cons.1 he with h | h
        · exact Or.inl h
        · exact Or.inr h
      · split at he
        · rcases List.mem_cons.1 he with h | h
          · exact Or.inl h
          · exact Or.inr (List.mem_cons_of_mem _ h)
        · rcases List.mem_cons.1 he with h | h
          · exact Or.inr (h ▸ List.mem_cons_self _ _)
          · rcases ih h with h' | h'
            · exact Or.inl h'
            · exact Or.inr (List.mem_cons_of_mem _ h')

end QMap

namespace PluginManager

theorem Loadable.mono {files files' : List String} {deps : String → List String} {f : String}
    (h : Loadable files deps f) (hsub : ∀ x, x ∈ files → x ∈ files') :
    Loadable files' deps f := by
  induction h with
  | load f hf _ ih => exact Loadable.load f (hsub f hf) ih

theorem dependencyInitPlugin_world (deps : String → List String) (world : List String)
    (f : String) :
    ((dependencyInitPlugin deps world f).2 = 1 ∧
        (dependencyInitPlugin deps world f).1 = f :: world ∧
        (deps f).all (fun d => decide (d ∈ world)) = true) ∨
      ((dependencyInitPlugin deps world f).2 = 0 ∧
        (dependencyInitPlugin deps world f).1 = world ∧
        (deps f).all (fun d => decide (d ∈ world)) = false) := by
  unfold dependencyInitPlugin
  cases h : (deps f).all (fun d => decide (d ∈ world)) <;> simp

theorem loadable_of_dependencies (files : List String) (deps : String → List String)
    (world : List String) (f : String) (hf : f ∈ files)
    (hw : ∀ g ∈ world, Loadable files deps g)
    (hd : (deps f).all (fun d => decide (d ∈ world)) = true) : Loadable files deps f := by
  refine Loadable.load f hf ?_
  intro d hdm
  rw [List.all_eq_true] at hd
  exact hw d (by simpa using hd d hdm)

theorem initPlugsFirstLoop_dependency (files : List String) (deps : String → List String) :
    ∀ (dirList : List String) (s : InitPlugs (List String)),
      (∀ f ∈ dirList, f ∈ files) →
      (∀ f ∈ s.world, Loadable files deps f) → (∀ e ∈ s.allPlugs, e.1 ∈ files) →
      (∀ e ∈ s.allPlugs, e.2 ≠ 0 → e.1 ∈ s.world) →
      (∀ f ∈ (initPlugsFirstLoop (dependencyInitPlugin deps) dirList s).world,
          Loadable files deps f) ∧
        (∀ e ∈ (initPlugsFirstLoop (dependencyInitPlugin deps) dirList s).allPlugs,
          e.1 ∈ files) ∧
        (∀ e ∈ (initPlugsFirstLoop (dependencyInitPlugin deps) dirList s).allPlugs,
          e.2 ≠ 0 → e.1 ∈ (initPlugsFirstLoop (dependencyInitPlugin deps) dirList s).world) := by
  intro dirList
  induction dirList with
  | nil => intro s _ h1 h2 h3; exact ⟨h1, h2, h3⟩
  | cons f fs ih =>
      intro s hfiles h1 h2 h3
      simp only [initPlugsFirstLoop]
      apply ih _ (fun g hg => hfiles g (List.mem_cons_of_mem _ hg))
      · intro g hg
        dsimp only at hg
        rcases dependencyInitPlugin_world deps s.world f with ⟨_, hw, hd⟩ | ⟨_, hw, _⟩
        · rw [hw] at hg
          rcases List.mem_cons.1 hg with rfl | hg
          · exact loadable_of_dependencies files deps s.world g
              (hfiles g (List.mem_cons_self _ _)) h1 hd
          · exact h1 g hg
        · rw [hw] at hg; exact h1 g hg
      · intro e he
        rcases QMap.mem_insert _ _ _ e he with rfl | he
        · exact hfiles f (List.mem_cons_self _ _)
        · exact h2 e he
      · intro e he hne
        dsimp only at he ⊢
        rcases dependencyInitPlugin_world deps s.world f with ⟨hr, hw, _⟩ | ⟨hr, hw, _⟩
        · rw [hw]
          rcases QMap.mem_insert _ _ _ e he with rfl | he
          · exact List.mem_cons_self _ _
          · exact List.mem_cons_of_mem _ (h3 e he hne)
        · rw [hw]
          rcases QMap.mem_insert _ _ _ e he with rfl | he
          · exact absurd hr hne
          · exact h3 e he hne

theorem initPlugsRetryPass_dependency (files : List String) (deps : String → List String) :
    ∀ (entries : List (String × Int)) (s : InitPlugs (List String)),
      (∀ f ∈ s.world, Loadable files deps f) → (∀ e ∈ entries, e.1 ∈ files) →
      (∀ e ∈ entries, e.2 ≠ 0 → e.1 ∈ s.world) →
      (∀ f ∈ (initPlugsRetryPass (dependencyInitPlugin deps) entries s).2.world,
          Loadable files deps f) ∧
        (∀ e ∈ (initPlugsRetryPass (dependencyInitPlugin deps) entries s).1,
          e.2 ≠ 0 → e.1 ∈ (initPlugsRetryPass (dependencyInitPlugin deps) entries s).2.world) ∧
        (∀ f ∈ s.world, f ∈ (initPlugsRetryPass (dependencyInitPlugin deps) entries s).2.world) ∧
        ((initPlugsRetryPass (dependencyInitPlugin deps) entries s).2.changes = s.changes →
          (initPlugsRetryPass (dependencyInitPlugin deps) entries s).2.world = s.world ∧
          ∀ f, (f, (0 : Int)) ∈ (initPlugsRetryPass (dependencyInitPlugin deps) entries s).1 →
            (deps f).all (fun d => decide (d ∈ s.world)) = false) := by
  intro entries
  induction entries with
  | nil =>
      intro s h1 _ _
      simpa [initPlugsRetryPass] using h1
  | cons e rest ih =>
      intro s h1 h2 h3
      obtain ⟨key, value⟩ := e
      have h2' : ∀ e ∈ rest, e.1 ∈ files := fun e he => h2 e (List.mem_cons_of_mem _ he)
      have h3' : ∀ e ∈ rest, e.2 ≠ 0 → e.1 ∈ s.world :=
        fun e he => h3 e (List.mem_cons_of_mem _ he)
      simp only [initPlugsRetryPass]
      by_cases hv : value = 0
      · subst hv
        simp only [ne_eq, not_true_eq_false, if_false]
        rcases dependencyInitPlugin_world deps s.world key with ⟨hr, hw, hd⟩ | ⟨hr, hw, hd⟩
        · simp only [hr, if_true, hw]
          have hmono := (initPlugsRetryPass_counts (dependencyInitPlugin deps) rest
            { s with
              world := key :: s.world
              loaded := s.loaded + 1
              changes := s.changes + 1
              failedPlugs := removeAll s.failedPlugs key
              attempts := s.attempts ++ [(key, 1)] }).2.2.1
          obtain ⟨i1, i2, i3, _⟩ := ih
            { s with
              world := key :: s.world
              loaded := s.loaded + 1
              changes := s.changes + 1
              failedPlugs := removeAll s.failedPlugs key
              attempts := s.attempts ++ [(key, 1)] }
            (by
              intro g hg
              rcases List.mem_cons.1 hg with rfl | hg
              · exact loadable_of_dependencies files deps s.world g
                  (h2 _ (List.mem_cons_self _ _)) h1 hd
              · exact h1 g hg)
            h2' (fun e he hne => List.mem_cons_of_mem _ (h3' e he hne))
          dsimp only at i3 hmono
          refine ⟨i1, ?_, ?_, ?_⟩
          · intro e he hne
            rcases List.mem_cons.1 he with rfl | he
            · exact i3 key (List.mem_cons_self _ _)
            · exact i2 e he hne
          · intro g hg; exact i3 g (List.mem_cons_of_mem _ hg)
          · intro hch; omega
        · simp only [hr, hw, if_neg (show ¬((0 : Int) = 1) by decide)]
          obtain ⟨i1, i2, i3, i4⟩ := ih
            { s with world := s.world, attempts := s.attempts ++ [(key, 0)] } h1 h2' h3'
          dsimp only at i3 i4
          refine ⟨i1, ?_, i3, ?_⟩
          · intro e he hne
            rcases List.mem_cons.1 he with rfl | he
            · exact absurd rfl hne
            · exact i2 e he hne
          · intro hch
            refine ⟨(i4 hch).1, ?_⟩
            intro g hg
            rcases List.mem_cons.1 hg with h | h
            · simp only [Prod.mk.injEq, and_true] at h
              rw [h]; exact hd
            · exact (i4 hch).2 g h
      · simp only [hv, ne_eq, not_false_eq_true, if_true]
        obtain ⟨i1, i2, i3, i4⟩ := ih s h1 h2' h3'
        refine ⟨i1, ?_, i3, ?_⟩
        · intro e he hne
          rcases List.mem_cons.1 he with rfl | he
          · exact i3 _ (h3 _ (List.mem_cons_self _ _) hv)
          · exact i2 e he hne
        · intro hch
          refine ⟨(i4 hch).1, ?_⟩
          intro g hg
          rcases List.mem_cons.1 hg with h | h
          · exfalso; simp only [Prod.mk.injEq] at h; exact hv h.2.symm
          · exact (i4 hch).2 g h

end PluginManager
namespace PluginManager

theorem initPlugsRetryTurn_dependency (files : List String) (deps : String → List String)
    (s : InitPlugs (List String)) (hinv : DependencyInvariant files deps s) :
    DependencyInvariant files deps (initPlugsRetryTurn (dependencyInitPlugin deps) s) := by
  obtain ⟨h1, h2, h3, _⟩ := hinv
  obtain ⟨i1, i2, _, i4⟩ := initPlugsRetryPass_dependency files deps s.allPlugs
    { s with changes := 0, attempts := [] } h1 h2 h3
  obtain ⟨_, _, _, _, _, _, hk, _⟩ := initPlugsRetryPass_attempts (dependencyInitPlugin deps)
    s.allPlugs { s with changes := 0, attempts := [] }
  dsimp only at i4
  refine ⟨i1, ?_, i2, ?_⟩
  · intro e he
    have hmem : e.1 ∈ (initPlugsRetryPass (dependencyInitPlugin deps) s.allPlugs
        { s with changes := 0, attempts := [] }).1.map Prod.fst :=
      List.mem_map.2 ⟨e, he, rfl⟩
    rw [hk] at hmem
    obtain ⟨e', he', heq⟩ := List.mem_map.1 hmem
    rw [← heq]; exact h2 e' he'
  · intro hch f hf
    have hch' : (initPlugsRetryPass (dependencyInitPlugin deps) s.allPlugs
        { s with changes := 0, attempts := [] }).2.changes = 0 := hch
    have hw : (initPlugsRetryTurn (dependencyInitPlugin deps) s).world = s.world :=
      (i4 hch').1
    rw [hw]
    exact (i4 hch').2 f hf

theorem initPlugsRetryLoop_dependency (files : List String) (deps : String → List String) :
    ∀ (fuel : Nat) (s s' : InitPlugs (List String)),
      initPlugsRetryLoop (dependencyInitPlugin deps) fuel s = some s' →
      DependencyInvariant files deps s → DependencyInvariant files deps s' := by
  intro fuel
  induction fuel with
  | zero =>
      intro s s' h hinv
      cases hc : retryCondition s with
      | true => simp [initPlugsRetryLoop, hc] at h
      | false =>
          simp only [initPlugsRetryLoop, hc, Bool.false_eq_true, if_false,
            Option.some.injEq] at h
          subst h; exact hinv
  | succ fuel ih =>
      intro s s' h hinv
      cases hc : retryCondition s with
      | true =>
          simp only [initPlugsRetryLoop, hc, if_true] at h
          exact ih _ s' h (initPlugsRetryTurn_dependency files deps s hinv)
      | false =>
          simp only [initPlugsRetryLoop, hc, Bool.false_eq_true, if_false,
            Option.some.injEq] at h
          subst h; exact hinv

theorem initPlugs_dependency_fixed_point (deps : String → List String) (usingGUI : Bool)
    (dirList : List String) (hnd : dirList.Nodup) :
    ∃ s, initPlugs (dependencyInitPlugin deps) usingGUI true dirList [] = some s ∧
      (∀ f, (∃ v, (f, v) ∈ s.allPlugs ∧ v ≠ 0) ↔ Loadable dirList deps f) ∧
      (∀ f, f ∈ s.world ↔ Loadable dirList deps f) := by
  unfold initPlugs
  split
  · rename_i hret
    simp only [Bool.not_true, Bool.false_or, decide_eq_true_eq] at hret
    have hnil : dirList = [] := List.length_eq_zero.1 hret
    subst hnil
    have hno : ∀ f, ¬Loadable [] deps f := by
      intro f hf
      cases hf with
      | load _ hf _ => exact absurd hf (List.not_mem_nil _)
    refine ⟨initPlugsStart [], rfl, ?_, ?_⟩
    · intro f
      constructor
      · rintro ⟨v, hv, _⟩; simp [initPlugsStart] at hv
      · intro h; exact absurd h (hno f)
    · intro f
      constructor
      · intro h; simp [initPlugsStart] at h
      · intro h; exact absurd h (hno f)
  · obtain ⟨hinv₀, hperm⟩ :=
      initPlugsFirstLoop_invariant (dependencyInitPlugin deps) dirList hnd []
    obtain ⟨h1, _, _, _⟩ :=
      initPlugsFirstLoop_counts (dependencyInitPlugin deps) dirList (initPlugsStart [])
    have h1' : (initPlugsFirstLoop (dependencyInitPlugin deps) dirList
        (initPlugsStart [])).allPlugs.length ≤ 0 + dirList.length := h1
    obtain ⟨s', hs', _⟩ := initPlugsRetryLoop_terminates (dependencyInitPlugin deps)
      dirList.length (initPlugsFirstLoop (dependencyInitPlugin deps) dirList (initPlugsStart []))
      (by omega)
    obtain ⟨hinv, hstop, hkeys⟩ :=
      initPlugsRetryLoop_invariant (dependencyInitPlugin deps) _ _ s' hs' hinv₀
    obtain ⟨d1, d2, d3⟩ := initPlugsFirstLoop_dependency dirList deps dirList
      (initPlugsStart []) (fun f hf => hf)
      (by intro f hf; simp [initPlugsStart] at hf)
      (by intro e he; simp [initPlugsStart] at he)
      (by intro e he; simp [initPlugsStart] at he)
    have hdinv₀ : DependencyInvariant dirList deps
        (initPlugsFirstLoop (dependencyInitPlugin deps) dirList (initPlugsStart [])) := by
      refine ⟨d1, d2, d3, ?_⟩
      intro hch
      have := (initPlugsFirstLoop_counts (dependencyInitPlugin deps) dirList
        (initPlugsStart [])).2.2.1
      rw [hch] at this
      simp [initPlugsStart] at this
    obtain ⟨e1, _, e3, e4⟩ := initPlugsRetryLoop_dependency dirList deps _ _ s' hs' hdinv₀
    obtain ⟨hw, ha, _, _, _, _, _⟩ := initPlugsWarn_fields usingGUI s'
    have hall : ∀ f, Loadable dirList deps f → ∃ v, (f, v) ∈ s'.allPlugs ∧ v ≠ 0 := by
      intro f hf
      induction hf with
      | load f hfm _ ih =>
          have hkey : f ∈ s'.allPlugs.map Prod.fst := by
            rw [hkeys]; exact hperm.symm.subset hfm
          obtain ⟨⟨f', v⟩, he, hfe⟩ := List.mem_map.1 hkey
          simp only at hfe
          subst hfe
          refine ⟨v, he, ?_⟩
          intro hv
          subst hv
          by_cases hch : s'.changes = 0
          · have hfail := e4 hch f' he
            have hok : (deps f').all (fun d => decide (d ∈ s'.world)) = true := by
              rw [List.all_eq_true]
              intro d hd
              obtain ⟨v', hv', hne⟩ := ih d hd
              simpa using e3 (d, v') hv' hne
            rw [hok] at hfail
            exact Bool.noConfusion hfail
          · exact stopped_after_progress s' hinv hstop hch (f', 0) he rfl
    rw [hs']
    refine ⟨initPlugsWarn usingGUI s', rfl, ?_, ?_⟩
    · intro f
      rw [ha]
      constructor
      · rintro ⟨v, hv, hne⟩
        exact e1 f (e3 (f, v) hv hne)
      · exact hall f
    · intro f
      rw [hw]
      constructor
      · exact e1 f
      · intro hf
        obtain ⟨v, hv, hne⟩ := hall f hf
        exact e3 (f, v) hv hne

/-- C2: dependency-ordered loading is complete and order-independent. Let
`initPlugin(f)` succeed exactly when every dependency of `f` is already loaded
(`dependencyInitPlugin`). Then for every listing `dirList` of distinct file
names, every dependency relation `deps` and every other order `dirList'` of the
same files, `initPlugs` returns, the files with a non-zero status in `allPlugs`
(and the loaded files) are exactly the least fixed point `Loadable` of the
dependency relation, and the two orders load the same files. -/
theorem initPlugs_loads_least_fixed_point (deps : String → List String)
    (usingGUI : Bool) (dirList dirList' : List String) (hnd : dirList.Nodup)
    (hperm : dirList.Perm dirList') :
    ∃ s s', initPlugs (dependencyInitPlugin deps) usingGUI true dirList [] = some s ∧
      initPlugs (dependencyInitPlugin deps) usingGUI true dirList' [] = some s' ∧
      (∀ f, (∃ v, (f, v) ∈ s.allPlugs ∧ v ≠ 0) ↔ Loadable dirList deps f) ∧
      (∀ f, f ∈ s.world ↔ Loadable dirList deps f) ∧
      (∀ f, f ∈ s'.world ↔ f ∈ s.world) := by
  obtain ⟨s, hs, h1, h2⟩ := initPlugs_dependency_fixed_point deps usingGUI dirList hnd
  obtain ⟨s', hs', _, h2'⟩ :=
    initPlugs_dependency_fixed_point deps usingGUI dirList' ((hperm.nodup_iff).1 hnd)
  refine ⟨s, s', hs, hs', h1, h2, ?_⟩
  intro f
  rw [h2, h2']
  constructor
  · intro h; exact h.mono (fun x hx => hperm.symm.subset hx)
  · intro h; exact h.mono (fun x hx => hperm.subset hx)

/-- Witness for C2: `a` needs `b`, `b` needs `c`, `d` needs the absent `e`;
the listing in ascending and in descending order. -/
theorem initPlugs_loads_least_fixed_point_witness :
    ["a", "b", "c", "d"].Nodup ∧ ["a", "b", "c", "d"].Perm ["d", "c", "b", "a"] ∧
      ∃ s s', initPlugs
          (dependencyInitPlugin fun f =>
            if f = "a" then ["b"] else if f = "b" then ["c"] else if f = "d" then ["e"] else [])
          true true ["a", "b", "c", "d"] [] = some s ∧
        initPlugs
          (dependencyInitPlugin fun f =>
            if f = "a" then ["b"] else if f = "b" then ["c"] else if f = "d" then ["e"] else [])
          true true ["d", "c", "b", "a"] [] = some s' ∧
        (∀ f, (∃ v, (f, v) ∈ s.allPlugs ∧ v ≠ 0) ↔
          Loadable ["a", "b", "c", "d"]
            (fun f =>
              if f = "a" then ["b"] else if f = "b" then ["c"] else if f = "d" then ["e"]
              else []) f) ∧
        (∀ f, f ∈ s.world ↔
          Loadable ["a", "b", "c", "d"]
            (fun f =>
              if f = "a" then ["b"] else if f = "b" then ["c"] else if f = "d" then ["e"]
              else []) f) ∧
        (∀ f, f ∈ s'.world ↔ f ∈ s.world) :=
  ⟨by decide, by decide,
    initPlugs_loads_least_fixed_point
      (fun f =>
        if f = "a" then ["b"] else if f = "b" then ["c"] else if f = "d" then ["e"] else [])
      true ["a", "b", "c", "d"] ["d", "c", "b", "a"] (by decide) (by decide)⟩

end PluginManager
/-! ## Theorems: `PluginManager::loadPlugin` -/

namespace PluginManager

/-- C5: `PluginManager::loadPlugin` enforces the versioned C ABI. A call that
meets the assertions returns, and it returns `true` if and only if the
library opens, `<pluginName>_getPluginAPIVersion` resolves and returns
exactly `PLUGIN_API_VERSION`, and `<pluginName>_getPlugin` resolves and
returns a non-null plugin; `_getPlugin` is called only after the library
reported exactly that version. -/
theorem loadPlugin_enforces_api_version (env : Loader) (apiVersion : Int) (pd : PluginData)
    (h1 : pd.plugin = 0) (h2 : pd.pluginDLL = 0) (h3 : pd.enabled = false) :
    ∃ r, loadPlugin env apiVersion pd = some r ∧
      (r.returned = true ↔
        env.loadDLL pd.pluginFile ≠ 0 ∧
        env.resolveSym (env.loadDLL pd.pluginFile)
          (pd.pluginName ++ "_getPluginAPIVersion") ≠ 0 ∧
        env.callGetPluginAPIVersion (env.resolveSym (env.loadDLL pd.pluginFile)
          (pd.pluginName ++ "_getPluginAPIVersion")) = apiVersion ∧
        env.resolveSym (env.loadDLL pd.pluginFile) (pd.pluginName ++ "_getPlugin") ≠ 0 ∧
        env.callGetPlugin (env.resolveSym (env.loadDLL pd.pluginFile)
          (pd.pluginName ++ "_getPlugin")) ≠ 0) ∧
      (∀ a, LoaderEvent.callGetPlugin a ∈ r.trace →
        env.loadDLL pd.pluginFile ≠ 0 ∧
        env.resolveSym (env.loadDLL pd.pluginFile)
          (pd.pluginName ++ "_getPluginAPIVersion") ≠ 0 ∧
        env.callGetPluginAPIVersion (env.resolveSym (env.loadDLL pd.pluginFile)
          (pd.pluginName ++ "_getPluginAPIVersion")) = apiVersion) := by
  have hpre : ¬(pd.plugin ≠ 0 ∨ pd.pluginDLL ≠ 0 ∨ pd.enabled = true) := by
    simp [h1, h2, h3]
  simp only [loadPlugin, if_neg hpre]
  by_cases hdll : env.loadDLL pd.pluginFile = 0
  · simp [hdll]
  · by_cases hver : env.resolveSym (env.loadDLL pd.pluginFile)
        (pd.pluginName ++ "_getPluginAPIVersion") = 0
    · simp [hdll, hver, loadPluginFailed]
    · by_cases hgot : env.callGetPluginAPIVersion (env.resolveSym (env.loadDLL pd.pluginFile)
          (pd.pluginName ++ "_getPluginAPIVersion")) = apiVersion
      · by_cases hsym : env.resolveSym (env.loadDLL pd.pluginFile)
            (pd.pluginName ++ "_getPlugin") = 0
        · simp [hdll, hver, hgot, hsym, loadPluginFailed]
        · by_cases hplug : env.callGetPlugin (env.resolveSym (env.loadDLL pd.pluginFile)
              (pd.pluginName ++ "_getPlugin")) = 0
          · simp [hdll, hver, hgot, hsym, hplug, loadPluginFailed]
          · simp [hdll, hver, hgot, hsym, hplug]
      · simp [hdll, hver, hgot, loadPluginFailed]

/-- Witness for C5: a library whose version function returns `3`, the expected
version. -/
theorem loadPlugin_enforces_api_version_witness :
    (0 : Nat) = 0 ∧ (0 : Nat) = 0 ∧ false = false ∧
      ∃ r, loadPlugin
          ⟨fun _ => 7, fun _ s => if s = "x_getPluginAPIVersion" then 11 else 12,
            fun _ => 3, fun _ => 99⟩ 3
          ⟨"/p/libx.so", "x", 0, 0, false, false⟩ = some r ∧
        (r.returned = true ↔
          (7 : Nat) ≠ 0 ∧
          (if "x" ++ "_getPluginAPIVersion" = "x_getPluginAPIVersion" then 11 else 12 : Nat) ≠ 0 ∧
          (3 : Int) = 3 ∧
          (if "x" ++ "_getPlugin" = "x_getPluginAPIVersion" then 11 else 12 : Nat) ≠ 0 ∧
          (99 : Nat) ≠ 0) ∧
        (∀ a, LoaderEvent.callGetPlugin a ∈ r.trace →
          (7 : Nat) ≠ 0 ∧
          (if "x" ++ "_getPluginAPIVersion" = "x_getPluginAPIVersion" then 11 else 12 : Nat) ≠ 0 ∧
          (3 : Int) = 3) :=
  ⟨rfl, rfl, rfl,
    loadPlugin_enforces_api_version
      ⟨fun _ => 7, fun _ s => if s = "x_getPluginAPIVersion" then 11 else 12,
        fun _ => 3, fun _ => 99⟩ 3
      ⟨"/p/libx.so", "x", 0, 0, false, false⟩ rfl rfl rfl⟩

/-- C6: `PluginManager::loadPlugin` leaves no half-loaded state. A call that
meets the assertions returns with `pluginName` and `pluginFile` unchanged; when
it returns `false`, `plugin` and `pluginDLL` are null, `enabled` is false, and
the library, if it had been opened, has been unloaded exactly once (nothing
else is ever unloaded); when it returns `true`, `plugin` and `pluginDLL` are
non-null and nothing has been unloaded. -/
theorem loadPlugin_no_half_loaded_state (env : Loader) (apiVersion : Int) (pd : PluginData)
    (h1 : pd.plugin = 0) (h2 : pd.pluginDLL = 0) (h3 : pd.enabled = false) :
    ∃ r, loadPlugin env apiVersion pd = some r ∧
      r.pluginData.pluginName = pd.pluginName ∧ r.pluginData.pluginFile = pd.pluginFile ∧
      (r.returned = false →
        r.pluginData.plugin = 0 ∧ r.pluginData.pluginDLL = 0 ∧ r.pluginData.enabled = false ∧
        ∀ dll, r.trace.count (LoaderEvent.unloadDLL dll) =
          if dll = env.loadDLL pd.pluginFile ∧ dll ≠ 0 then 1 else 0) ∧
      (r.returned = true →
        r.pluginData.plugin ≠ 0 ∧ r.pluginData.pluginDLL ≠ 0 ∧
        r.pluginData.pluginDLL = env.loadDLL pd.pluginFile ∧
        ∀ dll, r.trace.count (LoaderEvent.unloadDLL dll) = 0) := by
  have hpre : ¬(pd.plugin ≠ 0 ∨ pd.pluginDLL ≠ 0 ∨ pd.enabled = true) := by
    simp [h1, h2, h3]
  have hcount : ∀ dll : Nat, env.loadDLL pd.pluginFile ≠ 0 →
      (if env.loadDLL pd.pluginFile = dll then 1 else 0 : Nat) =
        if dll = env.loadDLL pd.pluginFile ∧ dll ≠ 0 then 1 else 0 := by
    intro dll hne
    by_cases hd : env.loadDLL pd.pluginFile = dll
    · subst hd; simp [hne]
    · have hd' : ¬(dll = env.loadDLL pd.pluginFile) := fun h => hd h.symm
      simp [hd, hd']
  simp only [loadPlugin, if_neg hpre]
  by_cases hdll : env.loadDLL pd.pluginFile = 0
  · simp only [hdll, if_true]
    refine ⟨_, rfl, rfl, rfl, ?_, by simp⟩
    intro _
    refine ⟨rfl, rfl, h3, ?_⟩
    intro dll
    by_cases hd : dll = 0 <;> simp [List.count_cons, hd]
  · by_cases hver : env.resolveSym (env.loadDLL pd.pluginFile)
        (pd.pluginName ++ "_getPluginAPIVersion") = 0
    · simp only [hdll, hver, if_false, ne_eq, not_true_eq_false, loadPluginFailed]
      refine ⟨_, rfl, rfl, rfl, ?_, by simp⟩
      intro _
      refine ⟨rfl, rfl, h3, ?_⟩
      intro dll
      rw [← hcount dll hdll]
      simp [List.count_cons, List.count_append]
    · by_cases hgot : env.callGetPluginAPIVersion (env.resolveSym (env.loadDLL pd.pluginFile)
          (pd.pluginName ++ "_getPluginAPIVersion")) = apiVersion
      · by_cases hsym : env.resolveSym (env.loadDLL pd.pluginFile)
            (pd.pluginName ++ "_getPlugin") = 0
        · simp only [hdll, hver, hgot, hsym, if_false, if_true, ne_eq, not_true_eq_false,
            not_false_eq_true, loadPluginFailed]
          refine ⟨_, rfl, rfl, rfl, ?_, by simp⟩
          intro _
          refine ⟨rfl, rfl, h3, ?_⟩
          intro dll
          rw [← hcount dll hdll]
          simp [List.count_cons, List.count_append]
        · by_cases hplug : env.callGetPlugin (env.resolveSym (env.loadDLL pd.pluginFile)
              (pd.pluginName ++ "_getPlugin")) = 0
          · simp only [hdll, hver, hgot, hsym, hplug, if_false, if_true, ne_eq,
              not_true_eq_false, not_false_eq_true, loadPluginFailed]
            refine ⟨_, rfl, rfl, rfl, ?_, by simp⟩
            intro _
            refine ⟨rfl, rfl, h3, ?_⟩
            intro dll
            rw [← hcount dll hdll]
            simp [List.count_cons, List.count_append]
          · simp only [hdll, hver, hgot, hsym, hplug, if_false, if_true, ne_eq,
              not_true_eq_false, not_false_eq_true]
            refine ⟨_, rfl, rfl, rfl, by simp, ?_⟩
            intro _
            refine ⟨hplug, hdll, rfl, ?_⟩
            intro dll
            simp [List.count_cons, List.count_append]
      · simp only [hdll, hver, hgot, if_false, if_true, ne_eq, not_true_eq_false,
          not_false_eq_true, loadPluginFailed]
        refine ⟨_, rfl, rfl, rfl, ?_, by simp⟩
        intro _
        refine ⟨rfl, rfl, h3, ?_⟩
        intro dll
        rw [← hcount dll hdll]
        simp [List.count_cons, List.count_append]

/-- Witness for C6: a library that reports version `2` where `3` is expected,
and is unloaded again. -/
theorem loadPlugin_no_half_loaded_state_witness :
    (0 : Nat) = 0 ∧ (0 : Nat) = 0 ∧ false = false ∧
      ∃ r, loadPlugin
          ⟨fun _ => 7, fun _ s => if s = "x_getPluginAPIVersion" then 11 else 12,
            fun _ => 2, fun _ => 99⟩ 3
          ⟨"/p/libx.so", "x", 0, 0, false, true⟩ = some r ∧
        r.pluginData.pluginName = "x" ∧ r.pluginData.pluginFile = "/p/libx.so" ∧
        (r.returned = false →
          r.pluginData.plugin = 0 ∧ r.pluginData.pluginDLL = 0 ∧
          r.pluginData.enabled = false ∧
          ∀ dll, r.trace.count (LoaderEvent.unloadDLL dll) =
            if dll = 7 ∧ dll ≠ 0 then 1 else 0) ∧
        (r.returned = true →
          r.pluginData.plugin ≠ 0 ∧ r.pluginData.pluginDLL ≠ 0 ∧
          r.pluginData.pluginDLL = 7 ∧
          ∀ dll, r.trace.count (LoaderEvent.unloadDLL dll) = 0) :=
  ⟨rfl, rfl, rfl,
    loadPlugin_no_half_loaded_state
      ⟨fun _ => 7, fun _ s => if s = "x_getPluginAPIVersion" then 11 else 12,
        fun _ => 2, fun _ => 99⟩ 3
      ⟨"/p/libx.so", "x", 0, 0, false, true⟩ rfl rfl rfl⟩

end PluginManager
/-! ## Theorems: `PluginManager::getPluginName` -/

namespace PluginManager

theorem takeWhile_append_stop {p : Char → Bool} (l₁ l₂ : List Char) (a : Char)
    (h₁ : ∀ x ∈ l₁, p x = true) (ha : p a = false) :
    (l₁ ++ a :: l₂).takeWhile p = l₁ := by
  induction l₁ with
  | nil => simp [List.takeWhile, ha]
  | cons x xs ih =>
      have hx : p x = true := h₁ x (List.mem_cons_self _ _)
      simp only [List.cons_append, List.takeWhile_cons, hx, if_true]
      rw [ih (fun y hy => h₁ y (List.mem_cons_of_mem _ hy))]

theorem fileName_of_path (dir file : List Char) (hfile : ∀ c ∈ file, c ≠ '/') :
    QFileInfo.fileName (dir ++ '/' :: file) = file := by
  unfold QFileInfo.fileName
  have hrev : (dir ++ '/' :: file).reverse = file.reverse ++ '/' :: dir.reverse := by simp
  rw [hrev, takeWhile_append_stop file.reverse dir.reverse '/' _ (by simp)]
  · simp
  · intro x hx
    simpa using hfile x (List.mem_reverse.1 hx)

theorem baseName_of_path (dir name ext : List Char) (hname : ∀ c ∈ name, c ≠ '/' ∧ c ≠ '.')
    (hext : ∀ c ∈ ext, c ≠ '/') :
    QFileInfo.baseName (dir ++ '/' :: (name ++ '.' :: ext)) = name := by
  unfold QFileInfo.baseName
  rw [fileName_of_path]
  · apply takeWhile_append_stop
    · intro x hx; simpa using (hname x hx).2
    · simp
  · intro c hc
    rcases List.mem_append.1 hc with h | h
    · exact (hname c h).1
    · rcases List.mem_cons.1 h with h | h
      · rw [h]; decide
      · exact hext c h

theorem platformDllExtension_chars (platform : Platform) :
    ∀ c ∈ (platformDllExtension platform).data, c ≠ '/' := by
  cases platform <;> decide

theorem isAlphanum_ascii (c : Char) (h : c.isAlphanum = true) :
    c.toNat < 128 ∧ c ≠ '/' ∧ c ≠ '.' := by
  simp only [Char.isAlphanum, Char.isAlpha, Char.isUpper, Char.isLower, Char.isDigit,
    Bool.or_eq_true, Bool.and_eq_true, decide_eq_true_eq] at h
  refine ⟨?_, ?_, ?_⟩
  · show c.val.toNat < 128
    rcases h with (⟨_, h2⟩ | ⟨_, h2⟩) | ⟨_, h2⟩
    · have h2' : c.val.toNat ≤ 90 := h2
      omega
    · have h2' : c.val.toNat ≤ 122 := h2
      omega
    · have h2' : c.val.toNat ≤ 57 := h2
      omega
  all_goals
    rintro rfl
    revert h
    decide

theorem checkName_iff (unicodeLetterOrNumber : Char → Bool) (l : List Char) :
    checkName unicodeLetterOrNumber l = true ↔
      ∀ c ∈ l, isLetterOrNumber unicodeLetterOrNumber c = true ∨ c = '_' := by
  induction l with
  | nil => simp [checkName]
  | cons x xs ih =>
      simp only [checkName, List.mem_cons, forall_eq_or_imp]
      by_cases hx : isLetterOrNumber unicodeLetterOrNumber x = true
      · simp [hx, ih]
      · by_cases hu : x = '_'
        · simp [hu, ih]
        · simp [hx, hu]

theorem name_chars (N : String) (hN : ∀ c ∈ N.data, c.isAlphanum = true ∨ c = '_') :
    (∀ c ∈ N.data, c ≠ '/' ∧ c ≠ '.') ∧ (∀ c ∈ N.data, c.toNat < 128) ∧
      ∀ (u : Char → Bool), checkName u N.data = true := by
  refine ⟨?_, ?_, ?_⟩
  · intro c hc
    rcases hN c hc with h | h
    · exact (isAlphanum_ascii c h).2
    · rw [h]; decide
  · intro c hc
    rcases hN c hc with h | h
    · exact (isAlphanum_ascii c h).1
    · rw [h]; decide
  · intro u
    rw [checkName_iff]
    intro c hc
    rcases hN c hc with h | h
    · left
      simp [isLetterOrNumber, (isAlphanum_ascii c h).1, h]
    · exact Or.inr h

theorem toLatin1_ascii (convert : String → String) (N : String)
    (h : ∀ c ∈ N.data, c.toNat < 128) : toLatin1 convert (String.mk N.data) = N := by
  unfold toLatin1
  have : (N.data.all fun c => decide (c.toNat < 128)) = true := by
    rw [List.all_eq_true]
    intro c hc; simpa using h c hc
  simp [this]

/-- C7, as stated, fails. The name `libx` is made of letters only, yet for the
file `libx.so` of a directory `getPluginName` gives `x`: a leading `lib` is
always taken as the prefix. And the one-letter name `λ` is a letter, yet the
result for `λ.so` is what the conversion to Latin-1 makes of it, `?`. -/
theorem getPluginName_counterexample :
    ((∀ c ∈ "libx".data, isLetterOrNumber (fun _ => false) c = true ∨ c = '_') ∧
        getPluginName Platform.unix (fun _ => false) id
            ("/usr/lib/scribus/plugins" ++ "/" ++ "libx" ++ "." ++
              platformDllExtension Platform.unix) = some "x" ∧
        some "x" ≠ some "libx") ∧
      ((∀ c ∈ "λ".data, isLetterOrNumber (fun c => decide (c = 'λ')) c = true ∨ c = '_') ∧
        getPluginName Platform.unix (fun c => decide (c = 'λ')) (fun _ => "?")
            ("/usr/lib/scribus/plugins" ++ "/" ++ "λ" ++ "." ++
              platformDllExtension Platform.unix) = some "?" ∧
        some "?" ≠ some "λ") := by
  decide

/-- C7, amended: for every plugin name `N` made only of ASCII letters, digits
and underscores that does not end with `platformDllExtension()`, and every
directory path, `getPluginName` returns `N` for the file `lib` + `N` + `.` +
extension, and, when `N` does not start with `lib`, also for the file `N` + `.`
+ extension. -/
theorem getPluginName_handles_lib_and_extension (platform : Platform) (u : Char → Bool)
    (convert : String → String) (dir N : String)
    (hN : ∀ c ∈ N.data, c.isAlphanum = true ∨ c = '_')
    (hext : (platformDllExtension platform).data.isSuffixOf N.data = false) :
    getPluginName platform u convert
        (dir ++ "/" ++ "lib" ++ N ++ "." ++ platformDllExtension platform) = some N ∧
      ("lib".data.isPrefixOf N.data = false →
        getPluginName platform u convert
          (dir ++ "/" ++ N ++ "." ++ platformDllExtension platform) = some N) := by
  obtain ⟨hchars, hascii, hcheck⟩ := name_chars N hN
  have hslash : ("/" : String).data = ['/'] := rfl
  have hdot : ("." : String).data = ['.'] := rfl
  have hlib : ("lib" : String).data = ['l', 'i', 'b'] := rfl
  constructor
  · have hbase : QFileInfo.baseName
        (dir ++ "/" ++ "lib" ++ N ++ "." ++ platformDllExtension platform).data =
        'l' :: 'i' :: 'b' :: N.data := by
      have := baseName_of_path dir.data ('l' :: 'i' :: 'b' :: N.data)
        (platformDllExtension platform).data
        (by
          intro c hc
          simp only [List.mem_cons] at hc
          rcases hc with h | h | h | h
          · rw [h]; decide
          · rw [h]; decide
          · rw [h]; decide
          · exact hchars c h)
        (platformDllExtension_chars platform)
      simpa [String.data_append, hslash, hdot, hlib] using this
    simp only [getPluginName, strippedBaseName, hbase, hlib]
    have hp : ['l', 'i', 'b'].isPrefixOf ('l' :: 'i' :: 'b' :: N.data) = true := by
      simp [List.isPrefixOf]
    simp only [hp, if_true, List.drop_succ_cons, List.drop_zero, hext, Bool.false_eq_true,
      if_false, hcheck u, toLatin1_ascii convert N hascii]
  · intro hnolib
    have hbase : QFileInfo.baseName
        (dir ++ "/" ++ N ++ "." ++ platformDllExtension platform).data = N.data := by
      have := baseName_of_path dir.data N.data (platformDllExtension platform).data hchars
        (platformDllExtension_chars platform)
      simpa [String.data_append, hslash, hdot] using this
    simp only [getPluginName, strippedBaseName, hbase, hnolib, Bool.false_eq_true, if_false,
      hext, hcheck u, if_true, toLatin1_ascii convert N hascii]

/-- Witness for C7, amended: the scripter plugin on Linux. -/
theorem getPluginName_handles_lib_and_extension_witness :
    (∀ c ∈ "scriptplugin".data, c.isAlphanum = true ∨ c = '_') ∧
      (platformDllExtension Platform.unix).data.isSuffixOf "scriptplugin".data = false ∧
      (getPluginName Platform.unix (fun _ => false) id
          ("/usr/lib/scribus/plugins" ++ "/" ++ "lib" ++ "scriptplugin" ++ "." ++
            platformDllExtension Platform.unix) = some "scriptplugin" ∧
        ("lib".data.isPrefixOf "scriptplugin".data = false →
          getPluginName Platform.unix (fun _ => false) id
            ("/usr/lib/scribus/plugins" ++ "/" ++ "scriptplugin" ++ "." ++
              platformDllExtension Platform.unix) = some "scriptplugin")) :=
  ⟨by decide, by decide,
    getPluginName_handles_lib_and_extension Platform.unix (fun _ => false) id
      "/usr/lib/scribus/plugins" "scriptplugin" (by decide) (by decide)⟩

/-- C8: `PluginManager::getPluginName` rejects bad names. The result is the
null string exactly when the base name left after stripping the `lib` prefix
and the extension contains a character that is neither a letter, a digit nor
`_`; and when that base name is non-empty and contains no such character the
result is not null (it is the base name converted through Latin-1). -/
theorem getPluginName_rejects_bad_names (platform : Platform) (u : Char → Bool)
    (convert : String → String) (fileName : String) :
    (getPluginName platform u convert fileName = none ↔
        ∃ c ∈ strippedBaseName platform fileName,
          isLetterOrNumber u c = false ∧ c ≠ '_') ∧
      ((strippedBaseName platform fileName ≠ [] ∧
          ∀ c ∈ strippedBaseName platform fileName, isLetterOrNumber u c = true ∨ c = '_') →
        getPluginName platform u convert fileName =
          some (toLatin1 convert (String.mk (strippedBaseName platform fileName)))) := by
  have hiff := checkName_iff u (strippedBaseName platform fileName)
  constructor
  · simp only [getPluginName]
    by_cases hc : checkName u (strippedBaseName platform fileName) = true
    · simp only [hc, if_true]
      constructor
      · intro h; exact absurd h (by simp)
      · rintro ⟨c, hcm, hbad, hne⟩
        rcases (hiff.1 hc) c hcm with h | h
        · rw [h] at hbad; exact Bool.noConfusion hbad
        · exact absurd h hne
    · have hc' : checkName u (strippedBaseName platform fileName) = false := by
        simpa using hc
      simp only [hc', Bool.false_eq_true, if_false, true_iff]
      by_contra hno
      have hall : ∀ c ∈ strippedBaseName platform fileName,
          isLetterOrNumber u c = true ∨ c = '_' := by
        intro c hcm
        by_cases hl : isLetterOrNumber u c = true
        · exact Or.inl hl
        · by_cases hu : c = '_'
          · exact Or.inr hu
          · exact absurd ⟨c, hcm, by simpa using hl, hu⟩ hno
      exact hc (hiff.2 hall)
  · rintro ⟨_, hall⟩
    simp only [getPluginName, hiff.2 hall, if_true]

end PluginManager
/-! ## Theorems: queries on the plugin map -/

namespace QString

theorem lessChars_irrefl (l : List Char) : lessChars l l = false := by
  induction l with
  | nil => rfl
  | cons x xs ih => simp [lessChars, ih]

end QString

namespace QMap

theorem Sorted.nodup_keys {α : Type} {m : List (String × α)} (h : Sorted m) :
    (m.map Prod.fst).Nodup := by
  unfold Sorted at h
  refine List.Pairwise.imp ?_ h
  intro a b hab heq
  subst heq
  simp [QString.lessThan, QString.lessChars_irrefl] at hab

theorem find?_of_mem {α : Type} (m : List (String × α)) (hnd : (m.map Prod.fst).Nodup)
    (key : String) (v : α) (hmem : (key, v) ∈ m) :
    m.find? (fun e => e.1 == key) = some (key, v) := by
  induction m with
  | nil => exact absurd hmem (List.not_mem_nil _)
  | cons x rest ih =>
      simp only [List.map_cons, List.nodup_cons] at hnd
      rcases List.mem_cons.1 hmem with h | h
      · subst h; simp
      · have hne : x.1 ≠ key := by
          intro heq
          apply hnd.1
          rw [heq]
          exact List.mem_map.2 ⟨(key, v), h, rfl⟩
        have hb : (x.1 == key) = false := by simpa using hne
        simp only [List.find?_cons, hb]
        exact ih hnd.2 h

theorem find?_none_of_not_mem {α : Type} (m : List (String × α)) (key : String)
    (hno : ∀ v, (key, v) ∉ m) : m.find? (fun e => e.1 == key) = none := by
  rw [List.find?_eq_none]
  intro e he heq
  simp only [beq_iff_eq] at heq
  apply hno e.2
  rw [← heq]
  exact he

theorem contains_iff {α : Type} (m : List (String × α)) (key : String) :
    contains m key = true ↔ ∃ v, (key, v) ∈ m := by
  unfold contains
  rw [List.any_eq_true]
  constructor
  · rintro ⟨e, he, heq⟩
    simp only [beq_iff_eq] at heq
    exact ⟨e.2, by rw [← heq]; exact he⟩
  · rintro ⟨v, hv⟩
    exact ⟨(key, v), hv, by simp⟩

theorem value_of_mem {α : Type} [Inhabited α] (m : List (String × α))
    (hnd : (m.map Prod.fst).Nodup) (key : String) (v : α) (hmem : (key, v) ∈ m) :
    value m key = v := by
  unfold value
  rw [find?_of_mem m hnd key v hmem]

end QMap

namespace PluginManager

theorem DLLexists_eq (pluginMap : List (String × PluginData)) (hs : QMap.Sorted pluginMap)
    (name : String) (includeDisabled : Bool) :
    (∀ pd, (name, pd) ∈ pluginMap →
      DLLexists pluginMap name includeDisabled =
        (decide (pd.plugin ≠ 0) && (pd.enabled || includeDisabled), pluginMap)) ∧
    ((∀ pd, (name, pd) ∉ pluginMap) →
      DLLexists pluginMap name includeDisabled = (false, pluginMap)) := by
  constructor
  · intro pd hpd
    have hc : QMap.contains pluginMap name = true :=
      (QMap.contains_iff pluginMap name).2 ⟨pd, hpd⟩
    have hv := QMap.value_of_mem pluginMap hs.nodup_keys name pd hpd
    simp only [DLLexists, hc, hv, if_true]
    by_cases hp : pd.plugin = 0
    · simp [hp]
    · cases he : pd.enabled <;> simp [hp]
  · intro hno
    have hc : QMap.contains pluginMap name = false := by
      cases h : QMap.contains pluginMap name with
      | false => rfl
      | true =>
          obtain ⟨v, hv⟩ := (QMap.contains_iff pluginMap name).1 h
          exact absurd hv (hno v)
    simp [DLLexists, hc]

/-- C9: for a plugin map in key order, `DLLexists(name, includeDisabled)` is
true if and only if `name` is a key of `pluginMap`, the entry's plugin pointer
is non-null, and the entry is enabled or `includeDisabled` is true;
`getPlugin(name, includeDisabled)` returns that entry's plugin in exactly those
cases and null in all others; neither call changes `pluginMap`. -/
theorem DLLexists_getPlugin_spec (pluginMap : List (String × PluginData))
    (hs : QMap.Sorted pluginMap) (name : String) (includeDisabled : Bool) :
    ((DLLexists pluginMap name includeDisabled).1 = true ↔
        ∃ pd, (name, pd) ∈ pluginMap ∧ pd.plugin ≠ 0 ∧
          (pd.enabled = true ∨ includeDisabled = true)) ∧
      (∀ pd, (name, pd) ∈ pluginMap → pd.plugin ≠ 0 →
        (pd.enabled = true ∨ includeDisabled = true) →
        (getPlugin pluginMap name includeDisabled).1 = pd.plugin) ∧
      ((¬∃ pd, (name, pd) ∈ pluginMap ∧ pd.plugin ≠ 0 ∧
            (pd.enabled = true ∨ includeDisabled = true)) →
        (getPlugin pluginMap name includeDisabled).1 = 0) ∧
      (DLLexists pluginMap name includeDisabled).2 = pluginMap ∧
      (getPlugin pluginMap name includeDisabled).2 = pluginMap := by
  obtain ⟨hin, hout⟩ := DLLexists_eq pluginMap hs name includeDisabled
  have hnd := hs.nodup_keys
  by_cases hex : ∃ pd, (name, pd) ∈ pluginMap
  · obtain ⟨pd, hpd⟩ := hex
    have hD := hin pd hpd
    have huniq : ∀ pd', (name, pd') ∈ pluginMap → pd' = pd := by
      intro pd' hpd'
      have h1 := QMap.find?_of_mem pluginMap hnd name pd hpd
      have h2 := QMap.find?_of_mem pluginMap hnd name pd' hpd'
      rw [h1] at h2
      simp only [Option.some.injEq, Prod.mk.injEq, true_and] at h2
      exact h2.symm
    have hv := QMap.value_of_mem pluginMap hnd name pd hpd
    refine ⟨?_, ?_, ?_, by rw [hD], by simp only [getPlugin, hD]; split <;> rfl⟩
    · rw [hD]
      simp only [Bool.and_eq_true, decide_eq_true_eq, Bool.or_eq_true]
      constructor
      · rintro ⟨h1, h2⟩; exact ⟨pd, hpd, h1, h2⟩
      · rintro ⟨pd', hpd', h1, h2⟩
        rw [huniq pd' hpd'] at h1 h2
        exact ⟨h1, h2⟩
    · intro pd' hpd' h1 h2
      rw [huniq pd' hpd'] at h1 h2 ⊢
      have : (decide (pd.plugin ≠ 0) && (pd.enabled || includeDisabled)) = true := by
        simp only [Bool.and_eq_true, decide_eq_true_eq, Bool.or_eq_true]
        exact ⟨h1, h2⟩
      simp only [getPlugin, hD, this, if_true, hv]
    · intro hno
      have : (decide (pd.plugin ≠ 0) && (pd.enabled || includeDisabled)) = false := by
        cases hb : (decide (pd.plugin ≠ 0) && (pd.enabled || includeDisabled)) with
        | false => rfl
        | true =>
            simp only [Bool.and_eq_true, decide_eq_true_eq, Bool.or_eq_true] at hb
            exact absurd ⟨pd, hpd, hb.1, hb.2⟩ hno
      simp only [getPlugin, hD, this, Bool.false_eq_true, if_false]
  · have hno : ∀ pd, (name, pd) ∉ pluginMap := fun pd hpd => hex ⟨pd, hpd⟩
    have hD := hout hno
    refine ⟨?_, ?_, ?_, by rw [hD], by simp only [getPlugin, hD]; rfl⟩
    · rw [hD]
      constructor
      · intro h; exact Bool.noConfusion h
      · rintro ⟨pd, hpd, _⟩; exact absurd hpd (hno pd)
    · intro pd hpd; exact absurd hpd (hno pd)
    · intro _
      simp only [getPlugin, hD, Bool.false_eq_true, if_false]

/-- Witness for C9: a map of two plugins, the second one disabled and asked
for with `includeDisabled`. -/
theorem DLLexists_getPlugin_spec_witness :
    QMap.Sorted
        [("a", (⟨"/a", "a", 1, 5, true, true⟩ : PluginData)),
          ("b", (⟨"/b", "b", 2, 6, false, true⟩ : PluginData))] ∧
      (((DLLexists
          [("a", (⟨"/a", "a", 1, 5, true, true⟩ : PluginData)),
          ("b", (⟨"/b", "b", 2, 6, false, true⟩ : PluginData))] "b" true).1 = true ↔
          ∃ pd, ("b", pd) ∈
            ([("a", (⟨"/a", "a", 1, 5, true, true⟩ : PluginData)),
          ("b", (⟨"/b", "b", 2, 6, false, true⟩ : PluginData))] :
              List (String × PluginData)) ∧
            pd.plugin ≠ 0 ∧ (pd.enabled = true ∨ true = true)) ∧
        (∀ pd, ("b", pd) ∈
            ([("a", (⟨"/a", "a", 1, 5, true, true⟩ : PluginData)),
          ("b", (⟨"/b", "b", 2, 6, false, true⟩ : PluginData))] :
              List (String × PluginData)) →
          pd.plugin ≠ 0 → (pd.enabled = true ∨ true = true) →
          (getPlugin
            [("a", (⟨"/a", "a", 1, 5, true, true⟩ : PluginData)),
          ("b", (⟨"/b", "b", 2, 6, false, true⟩ : PluginData))] "b" true).1 = pd.plugin) ∧
        ((¬∃ pd, ("b", pd) ∈
              ([("a", (⟨"/a", "a", 1, 5, true, true⟩ : PluginData)),
          ("b", (⟨"/b", "b", 2, 6, false, true⟩ : PluginData))] :
                List (String × PluginData)) ∧
              pd.plugin ≠ 0 ∧ (pd.enabled = true ∨ true = true)) →
          (getPlugin
            [("a", (⟨"/a", "a", 1, 5, true, true⟩ : PluginData)),
          ("b", (⟨"/b", "b", 2, 6, false, true⟩ : PluginData))] "b" true).1 = 0) ∧
        (DLLexists
          [("a", (⟨"/a", "a", 1, 5, true, true⟩ : PluginData)),
          ("b", (⟨"/b", "b", 2, 6, false, true⟩ : PluginData))] "b" true).2 =
          [("a", (⟨"/a", "a", 1, 5, true, true⟩ : PluginData)),
          ("b", (⟨"/b", "b", 2, 6, false, true⟩ : PluginData))] ∧
        (getPlugin
          [("a", (⟨"/a", "a", 1, 5, true, true⟩ : PluginData)),
          ("b", (⟨"/b", "b", 2, 6, false, true⟩ : PluginData))] "b" true).2 =
          [("a", (⟨"/a", "a", 1, 5, true, true⟩ : PluginData)),
          ("b", (⟨"/b", "b", 2, 6, false, true⟩ : PluginData))]) :=
  ⟨by decide,
    DLLexists_getPlugin_spec
      [("a", (⟨"/a", "a", 1, 5, true, true⟩ : PluginData)),
          ("b", (⟨"/b", "b", 2, 6, false, true⟩ : PluginData))]
      (by decide) "b" true⟩

end PluginManager
namespace PluginManager

theorem pluginNamesLoop_eq (inheritsClass : Nat → String → Bool) (includeDisabled : Bool)
    (inherits : Option String) :
    ∀ (entries : List (String × PluginData)) (names : List String),
      (inherits ≠ none → ∀ e ∈ entries, e.2.plugin ≠ 0) →
      pluginNamesLoop inheritsClass includeDisabled inherits entries names =
        some (names ++ (entries.filter (fun e =>
          (includeDisabled || e.2.enabled) &&
            (match inherits with
             | none => true
             | some className => inheritsClass e.2.plugin className))).map
          (fun e => e.2.pluginName)) := by
  intro entries
  induction entries with
  | nil => intro names _; simp [pluginNamesLoop]
  | cons x rest ih =>
      intro names hplug
      obtain ⟨key, value⟩ := x
      have hrest : inherits ≠ none → ∀ e ∈ rest, e.2.plugin ≠ 0 :=
        fun hi e he => hplug hi e (List.mem_cons_of_mem _ he)
      simp only [pluginNamesLoop, List.filter_cons]
      cases hskip : (!includeDisabled && !value.enabled)
      · have hadm : (includeDisabled || value.enabled) = true := by
          cases includeDisabled <;> cases hen : value.enabled <;> simp_all
        simp only [Bool.false_eq_true, if_false, hadm, Bool.true_and]
        cases inherits with
        | none => simp [ih _ hrest]
        | some className =>
            have hv : value.plugin ≠ 0 :=
              hplug (by simp) (key, value) (List.mem_cons_self _ _)
            simp only [hv, if_false]
            cases hin : inheritsClass value.plugin className
            · simp [ih _ hrest]
            · simp [ih _ hrest]
      · have hadm : (includeDisabled || value.enabled) = false := by
          cases includeDisabled <;> cases hen : value.enabled <;> simp_all
        simp [hadm, ih _ hrest]

/-- C10: for a plugin map in key order whose entries are stored under their
plugin name and, when `inherits` is non-null, hold a plugin,
`pluginNames(includeDisabled, inherits)` returns exactly the plugin names of the entries that are enabled or admitted
by `includeDisabled` and that, when `inherits` is non-null, inherit the named
class; the names are picked from the keys in their order, so they ascend and
none is repeated; and `pluginNames(false, c)` is a sublist of
`pluginNames(true, c)`. -/
theorem pluginNames_spec (inheritsClass : Nat → String → Bool)
    (pluginMap : List (String × PluginData)) (hs : QMap.Sorted pluginMap)
    (hkey : ∀ e ∈ pluginMap, e.2.pluginName = e.1) (includeDisabled : Bool)
    (inherits : Option String)
    (hplug : inherits ≠ none → ∀ e ∈ pluginMap, e.2.plugin ≠ 0) :
    ∃ names, pluginNames inheritsClass pluginMap includeDisabled inherits = some names ∧
      (∀ n, n ∈ names ↔
        ∃ e ∈ pluginMap, e.2.pluginName = n ∧
          (e.2.enabled = true ∨ includeDisabled = true) ∧
          ∀ className, inherits = some className →
            inheritsClass e.2.plugin className = true) ∧
      names.Sublist (pluginMap.map Prod.fst) ∧
      names.Pairwise (fun a b => QString.lessThan a b = true) ∧
      names.Nodup ∧
      ∃ enabledNames allNames,
        pluginNames inheritsClass pluginMap false inherits = some enabledNames ∧
        pluginNames inheritsClass pluginMap true inherits = some allNames ∧
        enabledNames.Sublist allNames := by
  have hloop := fun inc =>
    pluginNamesLoop_eq inheritsClass inc inherits pluginMap [] hplug
  simp only [List.nil_append] at hloop
  have hnames : ∀ (p : String × PluginData → Bool),
      (pluginMap.filter p).map (fun e => e.2.pluginName) =
        (pluginMap.filter p).map Prod.fst := by
    intro p
    apply List.map_congr_left
    intro e he
    exact hkey e (List.mem_filter.1 he).1
  have hsub : ∀ (p : String × PluginData → Bool),
      ((pluginMap.filter p).map (fun e => e.2.pluginName)).Sublist (pluginMap.map Prod.fst) := by
    intro p
    rw [hnames p]
    exact (List.filter_sublist pluginMap).map Prod.fst
  refine ⟨_, hloop includeDisabled, ?_, hsub _, List.Pairwise.sublist (hsub _) hs,
    hs.nodup_keys.sublist (hsub _), _, _, hloop false, hloop true, ?_⟩
  · intro n
    simp only [List.mem_map, List.mem_filter, Bool.and_eq_true, Bool.or_eq_true]
    constructor
    · rintro ⟨e, ⟨he, hadm, hin⟩, rfl⟩
      refine ⟨e, he, rfl, hadm.symm, ?_⟩
      intro className hc
      subst hc
      exact hin
    · rintro ⟨e, he, rfl, hadm, hin⟩
      refine ⟨e, ⟨he, hadm.symm, ?_⟩, rfl⟩
      cases inherits with
      | none => rfl
      | some className => exact hin className rfl
  · apply List.Sublist.map
    apply List.monotone_filter_right
    intro e he
    simp only [Bool.false_or, Bool.true_or, Bool.and_eq_true, Bool.true_and] at he ⊢
    exact he.2

/-- Witness for C10: three plugins, one enabled, asked for the enabled ones
that inherit `ScActionPlugin`. -/
theorem pluginNames_spec_witness :
    QMap.Sorted
        [("a", (⟨"/a", "a", 1, 5, true, true⟩ : PluginData)),
          ("b", (⟨"/b", "b", 2, 6, false, true⟩ : PluginData)),
          ("c", (⟨"/c", "c", 1, 7, false, false⟩ : PluginData))] ∧
      (∀ e ∈
          ([("a", (⟨"/a", "a", 1, 5, true, true⟩ : PluginData)),
          ("b", (⟨"/b", "b", 2, 6, false, true⟩ : PluginData)),
          ("c", (⟨"/c", "c", 1, 7, false, false⟩ : PluginData))] :
            List (String × PluginData)), e.2.pluginName = e.1) ∧
      ((some "ScActionPlugin" : Option String) ≠ none →
        ∀ e ∈
          ([("a", (⟨"/a", "a", 1, 5, true, true⟩ : PluginData)),
          ("b", (⟨"/b", "b", 2, 6, false, true⟩ : PluginData)),
          ("c", (⟨"/c", "c", 1, 7, false, false⟩ : PluginData))] :
            List (String × PluginData)), e.2.plugin ≠ 0) ∧
      ∃ names, pluginNames (fun p c => decide (p = 1) && decide (c = "ScActionPlugin"))
          [("a", (⟨"/a", "a", 1, 5, true, true⟩ : PluginData)),
          ("b", (⟨"/b", "b", 2, 6, false, true⟩ : PluginData)),
          ("c", (⟨"/c", "c", 1, 7, false, false⟩ : PluginData))] false (some "ScActionPlugin") = some names ∧
        (∀ n, n ∈ names ↔
          ∃ e ∈
            ([("a", (⟨"/a", "a", 1, 5, true, true⟩ : PluginData)),
          ("b", (⟨"/b", "b", 2, 6, false, true⟩ : PluginData)),
          ("c", (⟨"/c", "c", 1, 7, false, false⟩ : PluginData))] :
              List (String × PluginData)), e.2.pluginName = n ∧
            (e.2.enabled = true ∨ false = true) ∧
            ∀ className, some "ScActionPlugin" = some className →
              (fun p c => decide (p = 1) && decide (c = "ScActionPlugin")) e.2.plugin className = true) ∧
        names.Sublist
          (List.map Prod.fst
            ([("a", (⟨"/a", "a", 1, 5, true, true⟩ : PluginData)),
          ("b", (⟨"/b", "b", 2, 6, false, true⟩ : PluginData)),
          ("c", (⟨"/c", "c", 1, 7, false, false⟩ : PluginData))] :
              List (String × PluginData))) ∧
        names.Pairwise (fun a b => QString.lessThan a b = true) ∧
        names.Nodup ∧
        ∃ enabledNames allNames,
          pluginNames (fun p c => decide (p = 1) && decide (c = "ScActionPlugin"))
            [("a", (⟨"/a", "a", 1, 5, true, true⟩ : PluginData)),
          ("b", (⟨"/b", "b", 2, 6, false, true⟩ : PluginData)),
          ("c", (⟨"/c", "c", 1, 7, false, false⟩ : PluginData))] false (some "ScActionPlugin") = some enabledNames ∧
          pluginNames (fun p c => decide (p = 1) && decide (c = "ScActionPlugin"))
            [("a", (⟨"/a", "a", 1, 5, true, true⟩ : PluginData)),
          ("b", (⟨"/b", "b", 2, 6, false, true⟩ : PluginData)),
          ("c", (⟨"/c", "c", 1, 7, false, false⟩ : PluginData))] true (some "ScActionPlugin") = some allNames ∧
          enabledNames.Sublist allNames :=
  ⟨by decide, by decide, fun _ => by decide,
    pluginNames_spec (fun p c => decide (p = 1) && decide (c = "ScActionPlugin"))
      [("a", (⟨"/a", "a", 1, 5, true, true⟩ : PluginData)),
          ("b", (⟨"/b", "b", 2, 6, false, true⟩ : PluginData)),
          ("c", (⟨"/c", "c", 1, 7, false, false⟩ : PluginData))]
      (by decide) (by decide) false (some "ScActionPlugin")
      (fun _ => by decide)⟩

end PluginManager
/-! ## Theorems: `PluginManager::initPlugin` -/

namespace QMap

theorem find?_insert {α : Type} (key : String) (value : α) (m : List (String × α)) :
    (insert key value m).find? (fun e => e.1 == key) = some (key, value) := by
  induction m with
  | nil => simp [insert]
  | cons x rest ih =>
      obtain ⟨k, v⟩ := x
      simp only [insert]
      split
      · simp
      · rename_i hlt
        split
        · simp
        · rename_i hne
          have hb : (k == key) = false := by
            simp only [beq_eq_false_iff_ne, ne_eq]
            exact fun h => hne h.symm
          simp only [List.find?_cons, hb]
          exact ih

theorem contains_insert {α : Type} (key : String) (value : α) (m : List (String × α)) :
    contains (insert key value m) key = true := by
  unfold contains
  rw [List.any_eq_true]
  have h := find?_insert key value m
  exact ⟨(key, value), List.mem_of_find?_eq_some h, by simp⟩

theorem value_insert {α : Type} [Inhabited α] (key : String) (value : α)
    (m : List (String × α)) : QMap.value (insert key value m) key = value := by
  unfold QMap.value
  rw [find?_insert]

end QMap

namespace PluginManager

theorem loadPlugin_fields (env : Loader) (apiVersion : Int) (pd : PluginData)
    (h1 : pd.plugin = 0) (h2 : pd.pluginDLL = 0) (h3 : pd.enabled = false) :
    ∃ r, loadPlugin env apiVersion pd = some r ∧
      r.pluginData.pluginName = pd.pluginName ∧ r.pluginData.pluginFile = pd.pluginFile ∧
      r.pluginData.enabled = false ∧ r.pluginData.enableOnStartup = pd.enableOnStartup ∧
      (r.returned = true → r.pluginData.plugin ≠ 0) := by
  have hpre : ¬(pd.plugin ≠ 0 ∨ pd.pluginDLL ≠ 0 ∨ pd.enabled = true) := by
    simp [h1, h2, h3]
  simp only [loadPlugin, if_neg hpre]
  by_cases hdll : env.loadDLL pd.pluginFile = 0
  · simp [hdll, h3]
  · by_cases hver : env.resolveSym (env.loadDLL pd.pluginFile)
        (pd.pluginName ++ "_getPluginAPIVersion") = 0
    · simp [hdll, hver, loadPluginFailed, h3]
    · by_cases hgot : env.callGetPluginAPIVersion (env.resolveSym (env.loadDLL pd.pluginFile)
          (pd.pluginName ++ "_getPluginAPIVersion")) = apiVersion
      · by_cases hsym : env.resolveSym (env.loadDLL pd.pluginFile)
            (pd.pluginName ++ "_getPlugin") = 0
        · simp [hdll, hver, hgot, hsym, loadPluginFailed, h3]
        · by_cases hplug : env.callGetPlugin (env.resolveSym (env.loadDLL pd.pluginFile)
              (pd.pluginName ++ "_getPlugin")) = 0
          · simp [hdll, hver, hgot, hsym, hplug, loadPluginFailed, h3]
          · simp [hdll, hver, hgot, hsym, hplug, h3]
      · simp [hdll, hver, hgot, loadPluginFailed, h3]

theorem enablePlugin_fields (env : PluginEnv) (pda : PluginData) (he : pda.enabled = false)
    (hp : pda.plugin ≠ 0) :
    ∃ pda', enablePlugin env pda = some pda' ∧ pda'.plugin = pda.plugin ∧
      pda'.pluginName = pda.pluginName ∧ pda'.enableOnStartup = pda.enableOnStartup := by
  unfold enablePlugin
  simp only [he, Bool.false_eq_true, if_false, hp]
  split
  · exact ⟨_, rfl, rfl, rfl, rfl⟩
  · split
    · exact ⟨_, rfl, rfl, rfl, rfl⟩
    · split
      · exact ⟨_, rfl, rfl, rfl, rfl⟩
      · exact ⟨_, rfl, rfl, rfl, rfl⟩

/-- What `initPlugin` does once the plugin name is known, in terms of the
result `lr` of `loadPlugin`. -/
theorem initPlugin_of_name (env : PluginEnv) (pluginMap : List (String × PluginData))
    (fileName pluginName : String)
    (hname : getPluginName env.platform env.unicodeLetterOrNumber env.convert
      (env.pluginDir ++ "/" ++ fileName) = some pluginName) :
    ∃ lr r, loadPlugin env.loader env.apiVersion (initPluginData env fileName pluginName) =
        some lr ∧
      initPlugin env pluginMap fileName = some r ∧
      (lr.returned = false →
        r.returned = 0 ∧ r.pluginMap = pluginMap ∧ r.enablePluginCalls = []) ∧
      (lr.returned = true →
        lr.pluginData.plugin ≠ 0 ∧ r.returned = 1 ∧
        QMap.contains r.pluginMap pluginName = true ∧
        (QMap.value r.pluginMap pluginName).plugin = lr.pluginData.plugin ∧
        (QMap.value r.pluginMap pluginName).pluginName = pluginName ∧
        (QMap.value r.pluginMap pluginName).enableOnStartup =
          (env.inheritsClass lr.pluginData.plugin "ScPersistentPlugin" ||
            env.getBool pluginName false) ∧
        r.enablePluginCalls.length =
          (if (env.inheritsClass lr.pluginData.plugin "ScPersistentPlugin" ||
            env.getBool pluginName false) = true then 1 else 0) ∧
        ∀ pda ∈ r.enablePluginCalls,
          pda.plugin = lr.pluginData.plugin ∧ pda.pluginName = pluginName) := by
  obtain ⟨lr, hlr, hn, _, hen, hst, hpl⟩ :=
    loadPlugin_fields env.loader env.apiVersion (initPluginData env fileName pluginName)
      rfl rfl rfl
  have hn' : lr.pluginData.pluginName = pluginName := hn
  have hst' : lr.pluginData.enableOnStartup = env.getBool pluginName false := hst
  cases hret : lr.returned with
  | false =>
      refine ⟨lr, (⟨0, pluginMap, [], lr.trace⟩ : InitPluginResult), hlr, ?_,
        fun _ => ⟨rfl, rfl, rfl⟩, fun h => by rw [hret] at h; exact Bool.noConfusion h⟩
      simp only [initPlugin, hname, hlr, hret, Bool.false_eq_true, if_false]
  | true =>
      have hplug : lr.pluginData.plugin ≠ 0 := hpl hret
      cases hin : env.inheritsClass lr.pluginData.plugin "ScPersistentPlugin" with
      | true =>
          obtain ⟨pda', hpda', e1, e2, e3⟩ := enablePlugin_fields env
            { lr.pluginData with enableOnStartup := true } hen hplug
          have e2' : pda'.pluginName = pluginName := e2.trans hn'
          have e3' : pda'.enableOnStartup = true := e3
          refine ⟨lr, (⟨1, QMap.insert pda'.pluginName pda' pluginMap,
            [{ lr.pluginData with enableOnStartup := true }], lr.trace⟩ : InitPluginResult),
            hlr, ?_, fun h => by rw [hret] at h; exact Bool.noConfusion h, fun _ => ?_⟩
          · simp only [initPlugin, hname, hlr, hret, hin, if_true, hpda']
          · dsimp only
            rw [e2', QMap.contains_insert, QMap.value_insert, hin]
            refine ⟨hplug, rfl, rfl, e1, e2', by rw [e3']; rfl, rfl, ?_⟩
            intro pda hpda
            rw [List.mem_singleton.1 hpda]
            exact ⟨rfl, hn'⟩
      | false =>
          cases hpref : env.getBool pluginName false with
          | true =>
              obtain ⟨pda', hpda', e1, e2, e3⟩ := enablePlugin_fields env lr.pluginData hen hplug
              have e2' : pda'.pluginName = pluginName := e2.trans hn'
              have e3' : pda'.enableOnStartup = true := e3.trans (hst'.trans hpref)
              refine ⟨lr, (⟨1, QMap.insert pda'.pluginName pda' pluginMap,
                [lr.pluginData], lr.trace⟩ : InitPluginResult), hlr, ?_,
                fun h => by rw [hret] at h; exact Bool.noConfusion h, fun _ => ?_⟩
              · simp only [initPlugin, hname, hlr, hret, hin, if_true, Bool.false_eq_true,
                  if_false, hst', hpref, hpda']
              · dsimp only
                rw [e2', QMap.contains_insert, QMap.value_insert, hin]
                refine ⟨hplug, rfl, rfl, e1, e2', by rw [e3']; rfl, rfl, ?_⟩
                intro pda hpda
                rw [List.mem_singleton.1 hpda]
                exact ⟨rfl, hn'⟩
          | false =>
              have e3' : lr.pluginData.enableOnStartup = false := hst'.trans hpref
              refine ⟨lr, (⟨1, QMap.insert lr.pluginData.pluginName lr.pluginData pluginMap,
                [], lr.trace⟩ : InitPluginResult), hlr, ?_,
                fun h => by rw [hret] at h; exact Bool.noConfusion h, fun _ => ?_⟩
              · simp only [initPlugin, hname, hlr, hret, hin, if_true, Bool.false_eq_true,
                  if_false, hst', hpref]
              · dsimp only
                rw [hn', QMap.contains_insert, QMap.value_insert, hin]
                exact ⟨hplug, rfl, rfl, rfl, hn', by rw [e3']; rfl, rfl,
                  fun pda hpda => absurd hpda (List.not_mem_nil _)⟩

/-- C11: `PluginManager::initPlugin` returns, and only `0` or `1`. It returns
`0` and leaves `pluginMap` unchanged when the plugin name cannot be determined
from the file name or when `loadPlugin` fails; it returns `1` exactly when the
name is determined and `loadPlugin` succeeds, and then `pluginMap` has the
plugin name as a key whose entry holds the non-null plugin that was loaded,
whatever `enablePlugin` did. -/
theorem initPlugin_returns_zero_or_one (env : PluginEnv)
    (pluginMap : List (String × PluginData)) (fileName : String) :
    ∃ r, initPlugin env pluginMap fileName = some r ∧
      (r.returned = 0 ∨ r.returned = 1) ∧
      (getPluginName env.platform env.unicodeLetterOrNumber env.convert
          (env.pluginDir ++ "/" ++ fileName) = none →
        r.returned = 0 ∧ r.pluginMap = pluginMap) ∧
      (∀ pluginName,
        getPluginName env.platform env.unicodeLetterOrNumber env.convert
          (env.pluginDir ++ "/" ++ fileName) = some pluginName →
        ∃ lr, loadPlugin env.loader env.apiVersion (initPluginData env fileName pluginName) =
            some lr ∧
          (lr.returned = false → r.returned = 0 ∧ r.pluginMap = pluginMap) ∧
          (lr.returned = true →
            r.returned = 1 ∧ QMap.contains r.pluginMap pluginName = true ∧
            (QMap.value r.pluginMap pluginName).plugin ≠ 0 ∧
            (QMap.value r.pluginMap pluginName).plugin = lr.pluginData.plugin)) ∧
      (r.returned = 1 ↔
        ∃ pluginName lr,
          getPluginName env.platform env.unicodeLetterOrNumber env.convert
            (env.pluginDir ++ "/" ++ fileName) = some pluginName ∧
          loadPlugin env.loader env.apiVersion (initPluginData env fileName pluginName) =
            some lr ∧
          lr.returned = true) := by
  cases hname : getPluginName env.platform env.unicodeLetterOrNumber env.convert
      (env.pluginDir ++ "/" ++ fileName) with
  | none =>
      refine ⟨(⟨0, pluginMap, [], []⟩ : InitPluginResult), ?_, Or.inl rfl,
        fun _ => ⟨rfl, rfl⟩, fun n hn => Option.noConfusion hn, ?_⟩
      · simp only [initPlugin, hname]
      · constructor
        · intro h; exact absurd h (show ¬((0 : Int) = 1) by decide)
        · rintro ⟨n, _, hn, _⟩; exact Option.noConfusion hn
  | some pluginName =>
      obtain ⟨lr, r, hlr, hr, hfalse, htrue⟩ :=
        initPlugin_of_name env pluginMap fileName pluginName hname
      refine ⟨r, hr, ?_, fun hn => Option.noConfusion hn, ?_, ?_⟩
      · cases hret : lr.returned with
        | false => exact Or.inl (hfalse hret).1
        | true => exact Or.inr (htrue hret).2.1
      · intro n hn
        have hnn : pluginName = n := Option.some.inj hn
        subst hnn
        refine ⟨lr, hlr, fun h => ⟨(hfalse h).1, (hfalse h).2.1⟩, fun h => ?_⟩
        obtain ⟨h1, h2, h3, h4, _⟩ := htrue h
        exact ⟨h2, h3, by rw [h4]; exact h1, h4⟩
      · constructor
        · intro h1
          refine ⟨pluginName, lr, rfl, hlr, ?_⟩
          cases hret : lr.returned with
          | false =>
              have h0 := (hfalse hret).1
              rw [h0] at h1
              exact absurd h1 (show ¬((0 : Int) = 1) by decide)
          | true => rfl
        · rintro ⟨n, lr', hn, hlr', hret'⟩
          have hnn : pluginName = n := Option.some.inj hn
          subst hnn
          rw [hlr] at hlr'
          have hll : lr = lr' := Option.some.inj hlr'
          subst hll
          exact (htrue hret').2.1

end PluginManager
/-! ## Theorems: the load-failure warning of `PluginManager::initPlugs` -/

namespace PluginManager

theorem mem_removeAll (list : List String) (key f : String) :
    f ∈ removeAll list key ↔ f ∈ list ∧ f ≠ key := by
  simp [removeAll]

theorem nodup_removeAll (list : List String) (key : String) (h : list.Nodup) :
    (removeAll list key).Nodup :=
  h.sublist (List.filter_sublist list)

theorem initPlugsFirstLoop_failed {σ : Type} (initPlugin : σ → String → σ × Int) :
    ∀ (dirList : List String) (s : InitPlugs σ), dirList.Nodup →
      (∀ f ∈ dirList, f ∉ s.allPlugs.map Prod.fst) →
      s.failedPlugs.Nodup → (∀ f, f ∈ s.failedPlugs ↔ (f, (0 : Int)) ∈ s.allPlugs) →
      (initPlugsFirstLoop initPlugin dirList s).failedPlugs.Nodup ∧
        ∀ f, f ∈ (initPlugsFirstLoop initPlugin dirList s).failedPlugs ↔
          (f, (0 : Int)) ∈ (initPlugsFirstLoop initPlugin dirList s).allPlugs := by
  intro dirList
  induction dirList with
  | nil => intro s _ _ h1 h2; exact ⟨h1, h2⟩
  | cons f fs ih =>
      intro s hnd hfresh h1 h2
      have hf : f ∉ s.allPlugs.map Prod.fst := hfresh f (List.mem_cons_self _ _)
      have hperm := QMap.insert_perm f (initPlugin s.world f).2 s.allPlugs hf
      have hkeys : ((QMap.insert f (initPlugin s.world f).2 s.allPlugs).map Prod.fst).Perm
          (f :: s.allPlugs.map Prod.fst) := by
        simpa using hperm.map Prod.fst
      have hnotfailed : f ∉ s.failedPlugs := by
        intro hmem
        exact hf (List.mem_map.2 ⟨(f, 0), (h2 f).1 hmem, rfl⟩)
      simp only [initPlugsFirstLoop]
      apply ih _ (List.nodup_cons.1 hnd).2
      · intro g hg hmem
        rcases List.mem_cons.1 (hkeys.subset hmem) with h | h
        · subst h; exact (List.nodup_cons.1 hnd).1 hg
        · exact hfresh g (List.mem_cons_of_mem _ hg) h
      · dsimp only
        by_cases hr : (initPlugin s.world f).2 = 0
        · simp only [hr, ne_eq, not_true_eq_false, if_false]
          exact List.Nodup.append h1 (List.nodup_singleton f)
            (by
              intro a ha hb
              rw [List.mem_singleton] at hb
              subst hb
              exact hnotfailed ha)
        · simp only [hr, ne_eq, not_false_eq_true, if_true]
          exact h1
      · intro g
        dsimp only
        rw [hperm.mem_iff, List.mem_cons]
        by_cases hr : (initPlugin s.world f).2 = 0
        · simp only [hr, ne_eq, not_true_eq_false, if_false, List.mem_append,
            List.mem_singleton, Prod.mk.injEq, and_true, h2 g]
          tauto
        · simp only [hr, ne_eq, not_false_eq_true, if_true, Prod.mk.injEq, h2 g]
          constructor
          · intro h; exact Or.inr h
          · rintro (⟨_, h⟩ | h)
            · exact absurd h.symm hr
            · exact h

theorem initPlugsRetryPass_failed {σ : Type} (initPlugin : σ → String → σ × Int)
    (h01 : ∀ w f, (initPlugin w f).2 = 0 ∨ (initPlugin w f).2 = 1) :
    ∀ (entries before : List (String × Int)) (s : InitPlugs σ),
      ((before ++ entries).map Prod.fst).Nodup → s.failedPlugs.Nodup →
      (∀ f, f ∈ s.failedPlugs ↔ (f, (0 : Int)) ∈ before ++ entries) →
      (initPlugsRetryPass initPlugin entries s).2.failedPlugs.Nodup ∧
        (∀ f, f ∈ (initPlugsRetryPass initPlugin entries s).2.failedPlugs ↔
          (f, (0 : Int)) ∈ before ++ (initPlugsRetryPass initPlugin entries s).1) ∧
        loadedEntries entries + (initPlugsRetryPass initPlugin entries s).2.loaded =
          loadedEntries (initPlugsRetryPass initPlugin entries s).1 + s.loaded := by
  intro entries
  induction entries with
  | nil => intro before s _ h1 h2; exact ⟨h1, h2, by simp [initPlugsRetryPass]⟩
  | cons e rest ih =>
      intro before s hk h1 h2
      obtain ⟨key, value⟩ := e
      simp only [initPlugsRetryPass]
      by_cases hv : value = 0
      · subst hv
        simp only [ne_eq, not_true_eq_false, if_false]
        rcases h01 s.world key with hr | hr
        · simp only [hr, if_neg (show ¬((0 : Int) = 1) by decide)]
          obtain ⟨i1, i2, i3⟩ := ih (before ++ [(key, 0)])
            { s with world := (initPlugin s.world key).1, attempts := s.attempts ++ [(key, 0)] }
            (by simpa using hk) h1 (by simpa using h2)
          dsimp only at i3
          refine ⟨i1, ?_, ?_⟩
          · intro f; simpa using i2 f
          · rw [loadedEntries_cons, loadedEntries_cons]; omega
        · simp only [hr, if_true]
          have hkey : ∀ f, (f, (0 : Int)) ∈ before ++ (key, (1 : Int)) :: rest ↔
              (f, (0 : Int)) ∈ before ++ (key, (0 : Int)) :: rest ∧ f ≠ key := by
            intro f
            simp only [List.mem_append, List.mem_cons, Prod.mk.injEq]
            have hk' : ∀ v, (key, v) ∈ before ∨ (key, v) ∈ rest → False := by
              intro v hmem
              simp only [List.map_append, List.map_cons] at hk
              have := List.nodup_middle.1 hk
              rw [List.nodup_cons] at this
              apply this.1
              rcases hmem with h | h
              · exact List.mem_append_left _ (List.mem_map.2 ⟨(key, v), h, rfl⟩)
              · exact List.mem_append_right _ (List.mem_map.2 ⟨(key, v), h, rfl⟩)
            constructor
            · rintro (h | ⟨_, h⟩ | h)
              · exact ⟨Or.inl h, fun hf => hk' 0 (Or.inl (hf ▸ h))⟩
              · exact absurd h (by decide)
              · exact ⟨Or.inr (Or.inr h), fun hf => hk' 0 (Or.inr (hf ▸ h))⟩
            · rintro ⟨h | ⟨h, _⟩ | h, hne⟩
              · exact Or.inl h
              · exact absurd h hne
              · exact Or.inr (Or.inr h)
          obtain ⟨i1, i2, i3⟩ := ih (before ++ [(key, 1)])
            { s with
              world := (initPlugin s.world key).1
              loaded := s.loaded + 1
              changes := s.changes + 1
              failedPlugs := removeAll s.failedPlugs key
              attempts := s.attempts ++ [(key, 1)] }
            (by simpa using hk) (nodup_removeAll _ _ h1)
            (by
              intro f
              dsimp only
              rw [mem_removeAll, h2 f]
              simpa using (hkey f).symm)
          dsimp only at i3
          refine ⟨i1, ?_, ?_⟩
          · intro f; simpa using i2 f
          · rw [loadedEntries_cons, loadedEntries_cons]
            simp only [ne_eq, not_true_eq_false, if_false, one_ne_zero, not_false_eq_true,
              if_true]
            omega
      · simp only [hv, ne_eq, not_false_eq_true, if_true]
        obtain ⟨i1, i2, i3⟩ := ih (before ++ [(key, value)]) s (by simpa using hk) h1
          (by simpa using h2)
        refine ⟨i1, ?_, ?_⟩
        · intro f; simpa using i2 f
        · rw [loadedEntries_cons, loadedEntries_cons]
          simp only [ne_eq, hv, not_false_eq_true, if_true]
          omega

theorem initPlugsRetryTurn_failed {σ : Type} (initPlugin : σ → String → σ × Int)
    (h01 : ∀ w f, (initPlugin w f).2 = 0 ∨ (initPlugin w f).2 = 1) (s : InitPlugs σ)
    (hinv : FailedInvariant s) : FailedInvariant (initPlugsRetryTurn initPlugin s) := by
  obtain ⟨hk, h1, h2, h3⟩ := hinv
  obtain ⟨i1, i2, i3⟩ := initPlugsRetryPass_failed initPlugin h01 s.allPlugs []
    { s with changes := 0, attempts := [] } (by simpa using hk) h1 (by simpa using h2)
  obtain ⟨_, _, _, _, _, _, hkeys, _⟩ :=
    initPlugsRetryPass_attempts initPlugin s.allPlugs { s with changes := 0, attempts := [] }
  dsimp only at i3
  refine ⟨?_, i1, ?_, ?_⟩
  · show ((initPlugsRetryPass initPlugin s.allPlugs
        { s with changes := 0, attempts := [] }).1.map Prod.fst).Nodup
    rw [hkeys]; exact hk
  · intro f; simpa using i2 f
  · show (initPlugsRetryPass initPlugin s.allPlugs
        { s with changes := 0, attempts := [] }).2.loaded =
      loadedEntries (initPlugsRetryPass initPlugin s.allPlugs
        { s with changes := 0, attempts := [] }).1
    omega

theorem initPlugsRetryLoop_failed {σ : Type} (initPlugin : σ → String → σ × Int)
    (h01 : ∀ w f, (initPlugin w f).2 = 0 ∨ (initPlugin w f).2 = 1) :
    ∀ (fuel : Nat) (s s' : InitPlugs σ), initPlugsRetryLoop initPlugin fuel s = some s' →
      FailedInvariant s → s.warning = none → FailedInvariant s' ∧ s'.warning = none := by
  intro fuel
  induction fuel with
  | zero =>
      intro s s' h hinv hw
      cases hc : retryCondition s with
      | true => simp [initPlugsRetryLoop, hc] at h
      | false =>
          simp only [initPlugsRetryLoop, hc, Bool.false_eq_true, if_false,
            Option.some.injEq] at h
          subst h; exact ⟨hinv, hw⟩
  | succ fuel ih =>
      intro s s' h hinv hw
      cases hc : retryCondition s with
      | true =>
          simp only [initPlugsRetryLoop, hc, if_true] at h
          have hw' : (initPlugsRetryTurn initPlugin s).warning = none := by
            have := (initPlugsRetryPass_counts initPlugin s.allPlugs
              { s with changes := 0, attempts := [] }).2.2.2.2
            exact this.trans hw
          exact ih _ s' h (initPlugsRetryTurn_failed initPlugin h01 s hinv) hw'
      | false =>
          simp only [initPlugsRetryLoop, hc, Bool.false_eq_true, if_false,
            Option.some.injEq] at h
          subst h; exact ⟨hinv, hw⟩

theorem initPlugsFirstLoop_warning {σ : Type} (initPlugin : σ → String → σ × Int) :
    ∀ (dirList : List String) (s : InitPlugs σ),
      (initPlugsFirstLoop initPlugin dirList s).warning = s.warning := by
  intro dirList
  induction dirList with
  | nil => intro s; rfl
  | cons f fs ih => intro s; simp only [initPlugsFirstLoop]; rw [ih]

theorem failed_length {σ : Type} (s : InitPlugs σ) (hinv : FailedInvariant s) :
    s.loaded + s.failedPlugs.length = s.allPlugs.length := by
  obtain ⟨hk, h1, h2, h3⟩ := hinv
  have hz : ((s.allPlugs.filter (fun e => !decide (e.2 ≠ 0))).map Prod.fst).Nodup :=
    hk.sublist ((List.filter_sublist s.allPlugs).map Prod.fst)
  have hperm : s.failedPlugs.Perm
      ((s.allPlugs.filter (fun e => !decide (e.2 ≠ 0))).map Prod.fst) := by
    rw [List.perm_ext_iff_of_nodup h1 hz]
    intro f
    rw [h2 f]
    simp only [List.mem_map, List.mem_filter, ne_eq, decide_not, Bool.not_not,
      decide_eq_true_eq]
    constructor
    · intro h; exact ⟨(f, 0), ⟨h, rfl⟩, rfl⟩
    · rintro ⟨⟨g, v⟩, ⟨hm, hv⟩, hg⟩
      simp only at hv hg
      subst hv; subst hg; exact hm
  have hlen := List.length_eq_length_filter_add (l := s.allPlugs) (fun e => decide (e.2 ≠ 0))
  rw [hperm.length_eq, List.length_map, h3]
  unfold loadedEntries
  omega

/-- C13: the load-failure warning of `PluginManager::initPlugs` reports the
right plugins. When `initPlugin` returns only `0` or `1` and the listing has no
repeated file name, `initPlugs` returns with `loaded` equal to the number of
files whose status in `allPlugs` is non-zero and with `failedPlugs` holding
exactly the files whose status is `0`, each once, so that
`allPlugs.count() - loaded`, the number reported for `%1`, is the length of
`failedPlugs`; the warning is raised if and only if a file is still failed and
the GUI is in use, and it reports that number, `allPlugs.count()` and the
files of `failedPlugs`. -/
theorem initPlugs_warning_reports_failed {σ : Type} (initPlugin : σ → String → σ × Int)
    (h01 : ∀ w f, (initPlugin w f).2 = 0 ∨ (initPlugin w f).2 = 1)
    (usingGUI dirExists : Bool) (dirList : List String) (hnd : dirList.Nodup) (world : σ) :
    ∃ s, initPlugs initPlugin usingGUI dirExists dirList world = some s ∧
      s.loaded = loadedEntries s.allPlugs ∧
      s.failedPlugs.Nodup ∧
      (∀ f, f ∈ s.failedPlugs ↔ (f, (0 : Int)) ∈ s.allPlugs) ∧
      s.allPlugs.length - s.loaded = s.failedPlugs.length ∧
      (s.warning ≠ none ↔ (∃ f, (f, (0 : Int)) ∈ s.allPlugs) ∧ usingGUI = true) ∧
      (∀ w, s.warning = some w →
        w = (s.failedPlugs.length, s.allPlugs.length, s.failedPlugs)) := by
  have hfinish : ∀ s : InitPlugs σ, FailedInvariant s → s.warning = none →
      (initPlugsWarn usingGUI s).loaded = loadedEntries (initPlugsWarn usingGUI s).allPlugs ∧
      (initPlugsWarn usingGUI s).failedPlugs.Nodup ∧
      (∀ f, f ∈ (initPlugsWarn usingGUI s).failedPlugs ↔
        (f, (0 : Int)) ∈ (initPlugsWarn usingGUI s).allPlugs) ∧
      (initPlugsWarn usingGUI s).allPlugs.length - (initPlugsWarn usingGUI s).loaded =
        (initPlugsWarn usingGUI s).failedPlugs.length ∧
      ((initPlugsWarn usingGUI s).warning ≠ none ↔
        (∃ f, (f, (0 : Int)) ∈ (initPlugsWarn usingGUI s).allPlugs) ∧ usingGUI = true) ∧
      (∀ w, (initPlugsWarn usingGUI s).warning = some w →
        w = ((initPlugsWarn usingGUI s).failedPlugs.length,
          (initPlugsWarn usingGUI s).allPlugs.length,
          (initPlugsWarn usingGUI s).failedPlugs)) := by
    intro s hinv hw
    have hlen := failed_length s hinv
    obtain ⟨_, h1, h2, h3⟩ := hinv
    obtain ⟨_, ha, hl, _, hf, _, _⟩ := initPlugsWarn_fields usingGUI s
    rw [ha, hl, hf]
    have hex : (∃ f, (f, (0 : Int)) ∈ s.allPlugs) ↔ s.loaded ≠ s.allPlugs.length := by
      constructor
      · rintro ⟨f, hf0⟩
        have : f ∈ s.failedPlugs := (h2 f).2 hf0
        have hpos : 0 < s.failedPlugs.length := List.length_pos_of_mem this
        omega
      · intro hne
        have hpos : 0 < s.failedPlugs.length := by omega
        obtain ⟨f, hfm⟩ := List.exists_mem_of_length_pos hpos
        exact ⟨f, (h2 f).1 hfm⟩
    refine ⟨h3, h1, h2, by omega, ?_, ?_⟩
    · rw [hex]
      unfold initPlugsWarn
      by_cases hne : s.loaded ≠ s.allPlugs.length
      · cases usingGUI <;> simp [hne, hw]
      · simp [hne, hw]
    · intro w hwarn
      unfold initPlugsWarn at hwarn
      by_cases hne : s.loaded ≠ s.allPlugs.length
      · cases usingGUI
        · simp [hne, hw] at hwarn
        · rw [if_pos hne, if_pos rfl] at hwarn
          have := Option.some.inj hwarn
          rw [← this]
          have : s.allPlugs.length - s.loaded = s.failedPlugs.length := by omega
          rw [this]
      · simp [hne, hw] at hwarn
  unfold initPlugs
  split
  · refine ⟨initPlugsStart world, rfl, ?_⟩
    simp [initPlugsStart, loadedEntries]
  · obtain ⟨hkeys, hload⟩ := initPlugsFirstLoop_keys initPlugin dirList (initPlugsStart world)
      hnd (by intro f _; simp [initPlugsStart])
    obtain ⟨hf1, hf2⟩ := initPlugsFirstLoop_failed initPlugin dirList (initPlugsStart world)
      hnd (by intro f _; simp [initPlugsStart]) (by simp [initPlugsStart])
      (by intro f; simp [initPlugsStart])
    have hkeys' : ((initPlugsFirstLoop initPlugin dirList (initPlugsStart world)).allPlugs.map
        Prod.fst).Perm dirList := by
      simpa [initPlugsStart] using hkeys
    have hload' : (initPlugsFirstLoop initPlugin dirList (initPlugsStart world)).loaded =
        loadedEntries (initPlugsFirstLoop initPlugin dirList (initPlugsStart world)).allPlugs := by
      have hl0 : loadedEntries (initPlugsFirstLoop initPlugin dirList
          (initPlugsStart world)).allPlugs + 0 = 0 +
          (initPlugsFirstLoop initPlugin dirList (initPlugsStart world)).loaded := hload
      omega
    have hinv₀ : FailedInvariant (initPlugsFirstLoop initPlugin dirList (initPlugsStart world)) :=
      ⟨(hkeys'.nodup_iff).2 hnd, hf1, hf2, hload'⟩
    obtain ⟨h1, _, _, _⟩ := initPlugsFirstLoop_counts initPlugin dirList (initPlugsStart world)
    have h1' : (initPlugsFirstLoop initPlugin dirList (initPlugsStart world)).allPlugs.length ≤
        0 + dirList.length := h1
    obtain ⟨s', hs', _⟩ := initPlugsRetryLoop_terminates initPlugin dirList.length
      (initPlugsFirstLoop initPlugin dirList (initPlugsStart world)) (by omega)
    obtain ⟨hinv, hw⟩ := initPlugsRetryLoop_failed initPlugin h01 _ _ s' hs' hinv₀
      (by rw [initPlugsFirstLoop_warning]; rfl)
    rw [hs']
    exact ⟨initPlugsWarn usingGUI s', rfl, hfinish s' hinv hw⟩

/-- Witness for C13: four files of which `d` cannot be loaded, with the GUI in
use. -/
theorem initPlugs_warning_reports_failed_witness :
    (∀ (w : List String) (f : String),
        (dependencyInitPlugin
          (fun f =>
            if f = "a" then ["b"] else if f = "b" then ["c"] else if f = "d" then ["e"]
            else []) w f).2 = 0 ∨
        (dependencyInitPlugin
          (fun f =>
            if f = "a" then ["b"] else if f = "b" then ["c"] else if f = "d" then ["e"]
            else []) w f).2 = 1) ∧
      ["a", "b", "c", "d"].Nodup ∧
      ∃ s, initPlugs
          (dependencyInitPlugin fun f =>
            if f = "a" then ["b"] else if f = "b" then ["c"] else if f = "d" then ["e"] else [])
          true true ["a", "b", "c", "d"] [] = some s ∧
        s.loaded = loadedEntries s.allPlugs ∧
        s.failedPlugs.Nodup ∧
        (∀ f, f ∈ s.failedPlugs ↔ (f, (0 : Int)) ∈ s.allPlugs) ∧
        s.allPlugs.length - s.loaded = s.failedPlugs.length ∧
        (s.warning ≠ none ↔ (∃ f, (f, (0 : Int)) ∈ s.allPlugs) ∧ true = true) ∧
        (∀ w, s.warning = some w →
          w = (s.failedPlugs.length, s.allPlugs.length, s.failedPlugs)) :=
  ⟨fun w f => by
      rcases dependencyInitPlugin_world _ w f with h | h
      · exact Or.inr h.1
      · exact Or.inl h.1,
    by decide,
    initPlugs_warning_reports_failed
      (dependencyInitPlugin fun f =>
        if f = "a" then ["b"] else if f = "b" then ["c"] else if f = "d" then ["e"] else [])
      (fun w f => by
        rcases dependencyInitPlugin_world _ w f with h | h
        · exact Or.inr h.1
        · exact Or.inl h.1)
      true true ["a", "b", "c", "d"] (by decide) []⟩

end PluginManager
/-! ## Theorems: the `lastSuccess` cache of `findName` -/

namespace BulkAdder

theorem findName_eq (nameFromType : Nat → String) (st st' : NamerState) (u : Nat)
    (h : findName nameFromType st u = some st') :
    ∃ item k, (allItems st.items).find? (fun p => p.uid == u) = some item ∧
      findNameLoop (nameFromType item.itemType) st.names (st.names.length + 1)
        (st.lastSuccess item.itemType) = some k ∧
      st'.items = setSafeItemNameList u (nameFromType item.itemType ++ Nat.repr k) st.items ∧
      st'.names = setInsert st.names (nameFromType item.itemType ++ Nat.repr k) ∧
      st'.lastSuccess = Function.update st.lastSuccess item.itemType k := by
  unfold findName at h
  cases hfind : (allItems st.items).find? (fun p => p.uid == u) with
  | none => simp [hfind] at h
  | some item =>
      cases hk : findNameLoop (nameFromType item.itemType) st.names (st.names.length + 1)
          (st.lastSuccess item.itemType) with
      | none => simp [hfind, hk] at h
      | some k =>
          simp only [hfind, hk, Option.some.injEq] at h
          subst h
          exact ⟨item, k, rfl, hk, rfl, rfl, rfl⟩

theorem findName_least (nameFromType : Nat → String) (st st' : NamerState) (u : Nat)
    (hinv : CacheInvariant nameFromType st) (h : findName nameFromType st u = some st') :
    CacheInvariant nameFromType st' ∧
      ∃ item k, (allItems st.items).find? (fun p => p.uid == u) = some item ∧
        st'.items =
          setSafeItemNameList u (nameFromType item.itemType ++ Nat.repr k) st.items ∧
        st'.names = setInsert st.names (nameFromType item.itemType ++ Nat.repr k) ∧
        nameFromType item.itemType ++ Nat.repr k ∉ st.names ∧
        ∀ j, j < k → nameFromType item.itemType ++ Nat.repr j ∈ st.names := by
  obtain ⟨item, k, hfind, hk, hi, hn, hl⟩ := findName_eq nameFromType st st' u h
  obtain ⟨hfree, _, htaken⟩ := findNameLoop_free _ _ _ _ _ hk
  have hbelow : ∀ j, j < k → nameFromType item.itemType ++ Nat.repr j ∈ st.names := by
    intro j hj
    by_cases hjs : j < st.lastSuccess item.itemType
    · exact hinv item.itemType j hjs
    · exact htaken j (by omega) hj
  refine ⟨?_, item, k, hfind, hi, hn, hfree, hbelow⟩
  intro type j hj
  rw [hn, mem_setInsert]
  right
  rw [hl] at hj
  by_cases ht : type = item.itemType
  · subst ht
    rw [Function.update_same] at hj
    exact hbelow j hj
  · rw [Function.update_noteq ht] at hj
    exact hinv type j hj

theorem findNameLoop_least_unique (baseName : String) (names : List String)
    (fuel₁ fuel₂ n k₁ k₂ : Nat) (hbelow : ∀ j, j < n → baseName ++ Nat.repr j ∈ names)
    (h₁ : findNameLoop baseName names fuel₁ n = some k₁)
    (h₂ : findNameLoop baseName names fuel₂ 0 = some k₂) : k₁ = k₂ := by
  obtain ⟨f₁, _, t₁⟩ := findNameLoop_free _ _ _ _ _ h₁
  obtain ⟨f₂, _, t₂⟩ := findNameLoop_free _ _ _ _ _ h₂
  have hall₁ : ∀ j, j < k₁ → baseName ++ Nat.repr j ∈ names := by
    intro j hj
    by_cases hjn : j < n
    · exact hbelow j hjn
    · exact t₁ j (by omega) hj
  rcases Nat.lt_trichotomy k₁ k₂ with h | h | h
  · exact absurd (t₂ k₁ (Nat.zero_le _) h) f₁
  · exact h
  · exact absurd (hall₁ k₂ h) f₂

theorem findName_restart_agree (nameFromType : Nat → String) (st st₀ : NamerState) (u : Nat)
    (hi : st.items = st₀.items) (hn : st.names = st₀.names)
    (hinv : CacheInvariant nameFromType st) :
    (findName nameFromType st u = none ∧ findNameRestart nameFromType st₀ u = none) ∨
      ∃ st' st₀', findName nameFromType st u = some st' ∧
        findNameRestart nameFromType st₀ u = some st₀' ∧
        st'.items = st₀'.items ∧ st'.names = st₀'.names ∧ CacheInvariant nameFromType st' := by
  cases hfind : (allItems st.items).find? (fun p => p.uid == u) with
  | none =>
      left
      have hfind₀ : (allItems st₀.items).find? (fun p => p.uid == u) = none := by
        rw [← hi]; exact hfind
      constructor
      · simp only [findName, hfind]
      · simp only [findNameRestart, findName, hfind₀]
  | some item =>
      right
      have hfind₀ : (allItems st₀.items).find? (fun p => p.uid == u) = some item := by
        rw [← hi]; exact hfind
      obtain ⟨k, hk⟩ := findNameLoop_terminates (nameFromType item.itemType) st.names
        (st.lastSuccess item.itemType)
      obtain ⟨k₀, hk₀⟩ := findNameLoop_terminates (nameFromType item.itemType) st.names 0
      have hkk : k = k₀ :=
        findNameLoop_least_unique _ _ _ _ _ _ _ (hinv item.itemType) hk hk₀
      subst hkk
      have hst : findName nameFromType st u = some
          { items := setSafeItemNameList u (nameFromType item.itemType ++ Nat.repr k) st.items
            names := setInsert st.names (nameFromType item.itemType ++ Nat.repr k)
            lastSuccess := Function.update st.lastSuccess item.itemType k } := by
        simp only [findName, hfind, hk]
      have hst₀ : findNameRestart nameFromType st₀ u = some
          { items := setSafeItemNameList u (nameFromType item.itemType ++ Nat.repr k) st₀.items
            names := setInsert st₀.names (nameFromType item.itemType ++ Nat.repr k)
            lastSuccess := Function.update (fun _ => 0) item.itemType k } := by
        rw [hn] at hk₀
        simp only [findNameRestart, findName, hfind₀, hk₀]
      refine ⟨_, _, hst, hst₀, ?_, ?_, (findName_least nameFromType st _ u hinv hst).1⟩
      · simp only [hi]
      · simp only [hn]

theorem foldlM_findName_restart (nameFromType : Nat → String) :
    ∀ (pending : List Nat) (st st₀ : NamerState), st.items = st₀.items →
      st.names = st₀.names → CacheInvariant nameFromType st →
      (pending.foldlM (findName nameFromType) st = none ∧
          pending.foldlM (findNameRestart nameFromType) st₀ = none) ∨
        ∃ st' st₀', pending.foldlM (findName nameFromType) st = some st' ∧
          pending.foldlM (findNameRestart nameFromType) st₀ = some st₀' ∧
          st'.items = st₀'.items := by
  intro pending
  induction pending with
  | nil => intro st st₀ hi _ _; exact Or.inr ⟨st, st₀, rfl, rfl, hi⟩
  | cons u us ih =>
      intro st st₀ hi hn hinv
      rcases findName_restart_agree nameFromType st st₀ u hi hn hinv with
        ⟨h1, h2⟩ | ⟨st', st₀', h1, h2, hi', hn', hinv'⟩
      · left
        simp only [List.foldlM, h1, h2]
        exact ⟨rfl, rfl⟩
      · rcases ih st' st₀' hi' hn' hinv' with ⟨g1, g2⟩ | ⟨t, t₀, g1, g2, g3⟩
        · left
          simp only [List.foldlM, h1, h2]
          exact ⟨g1, g2⟩
        · right
          refine ⟨t, t₀, ?_, ?_, g3⟩
          · simp only [List.foldlM, h1]; exact g1
          · simp only [List.foldlM, h2]; exact g2

theorem foldlM_findName_cache (nameFromType : Nat → String) :
    ∀ (done : List Nat) (st st' : NamerState), CacheInvariant nameFromType st →
      done.foldlM (findName nameFromType) st = some st' → CacheInvariant nameFromType st' := by
  intro done
  induction done with
  | nil =>
      intro st st' hinv h
      simp only [List.foldlM, pure, Option.some.injEq] at h
      subst h; exact hinv
  | cons u us ih =>
      intro st st' hinv h
      cases h1 : findName nameFromType st u with
      | none => simp [List.foldlM, h1] at h
      | some st₁ =>
          simp only [List.foldlM, h1] at h
          exact ih st₁ st' (findName_least nameFromType st st₁ u hinv h1).1 h

theorem foldlM_split {α β : Type} (f : β → α → Option β) (u : α) (rest : List α) :
    ∀ (done : List α) (st₀ stEnd : β), (done ++ u :: rest).foldlM f st₀ = some stEnd →
      ∃ st st', done.foldlM f st₀ = some st ∧ f st u = some st' ∧
        rest.foldlM f st' = some stEnd := by
  intro done
  induction done with
  | nil =>
      intro st₀ stEnd h
      cases h1 : f st₀ u with
      | none => simp [List.foldlM, h1] at h
      | some st' =>
          simp only [List.nil_append, List.foldlM, h1] at h
          exact ⟨st₀, st', rfl, h1, h⟩
  | cons v vs ih =>
      intro st₀ stEnd h
      cases h1 : f st₀ v with
      | none => simp [List.foldlM, h1] at h
      | some st₁ =>
          simp only [List.cons_append, List.foldlM, h1] at h
          obtain ⟨st, st', g1, g2, g3⟩ := ih st₁ stEnd h
          refine ⟨st, st', ?_, g2, g3⟩
          simp only [List.foldlM, h1]
          exact g1

theorem findName_names_of_items (nameFromType : Nat → String) (st st' : NamerState)
    (u : Nat) (h : findName nameFromType st u = some st') :
    (allItems st'.items).map PageItem.uid = (allItems st.items).map PageItem.uid ∧
      ∀ (v : Nat) (t : String), v ≠ u →
        (∀ p ∈ allItems st.items, p.uid = v → p.itemName = t) →
        ∀ p ∈ allItems st'.items, p.uid = v → p.itemName = t := by
  obtain ⟨item, k, _, _, hi, _, _⟩ := findName_eq nameFromType st st' u h
  constructor
  · rw [hi, allItems_setSafeItemNameList, List.map_map]
    apply List.map_congr_left
    intro a _; exact setSafeItemName_uid _ _ a
  · intro v t hvu hall p hp hpv
    rw [hi, allItems_setSafeItemNameList, List.mem_map] at hp
    obtain ⟨p₁, hp₁, rfl⟩ := hp
    rw [setSafeItemName_uid] at hpv
    rw [setSafeItemName_itemName, if_neg (by rw [hpv]; exact hvu)]
    exact hall p₁ hp₁ hpv

theorem foldlM_findName_keeps (nameFromType : Nat → String) (v : Nat) (t : String) :
    ∀ (rest : List Nat) (st stEnd : NamerState),
      rest.foldlM (findName nameFromType) st = some stEnd → v ∉ rest →
      (allItems stEnd.items).map PageItem.uid = (allItems st.items).map PageItem.uid ∧
        ((∀ p ∈ allItems st.items, p.uid = v → p.itemName = t) →
          ∀ p ∈ allItems stEnd.items, p.uid = v → p.itemName = t) := by
  intro rest
  induction rest with
  | nil =>
      intro st stEnd h _
      simp only [List.foldlM, pure, Option.some.injEq] at h
      subst h; exact ⟨rfl, fun hall => hall⟩
  | cons u us ih =>
      intro st stEnd h hv
      cases h1 : findName nameFromType st u with
      | none => simp [List.foldlM, h1] at h
      | some st₁ =>
          simp only [List.foldlM, h1] at h
          obtain ⟨e1, e2⟩ := findName_names_of_items nameFromType st st₁ u h1
          obtain ⟨g1, g2⟩ := ih st₁ stEnd h (fun hc => hv (List.mem_cons_of_mem _ hc))
          refine ⟨g1.trans e1, fun hall => g2 (e2 v t ?_ hall)⟩
          intro hc; exact hv (hc ▸ List.mem_cons_self _ _)

theorem findName_named (nameFromType : Nat → String) (st st' : NamerState) (u : Nat)
    (item : PageItem) (k : Nat)
    (hi : st'.items =
      setSafeItemNameList u (nameFromType item.itemType ++ Nat.repr k) st.items) :
    ∀ p ∈ allItems st'.items, p.uid = u →
      p.itemName = nameFromType item.itemType ++ Nat.repr k := by
  intro p hp hpu
  rw [hi, allItems_setSafeItemNameList, List.mem_map] at hp
  obtain ⟨p₁, hp₁, rfl⟩ := hp
  rw [setSafeItemName_uid] at hpu
  rw [setSafeItemName_itemName, if_pos hpu]

theorem foldlM_findName_names (nameFromType : Nat → String) :
    ∀ (done : List Nat) (st₀ st : NamerState),
      done.foldlM (findName nameFromType) st₀ = some st → done.Nodup →
      ∀ s ∈ st.names, s ∈ st₀.names ∨
        ∃ p ∈ allItems st.items, p.uid ∈ done ∧ p.itemName = s := by
  intro done
  induction done with
  | nil =>
      intro st₀ st h _ s hs
      simp only [List.foldlM, pure, Option.some.injEq] at h
      subst h; exact Or.inl hs
  | cons u us ih =>
      intro st₀ st h hnd s hs
      cases h1 : findName nameFromType st₀ u with
      | none => simp [List.foldlM, h1] at h
      | some st₁ =>
          simp only [List.foldlM, h1] at h
          obtain ⟨hu, hnd'⟩ := List.nodup_cons.1 hnd
          rcases ih st₁ st h hnd' s hs with h2 | ⟨p, hp, hpu, hpn⟩
          · obtain ⟨item, k, hfind, _, hi, hn, _⟩ := findName_eq nameFromType st₀ st₁ u h1
            rw [hn, mem_setInsert] at h2
            rcases h2 with h2 | h2
            · right
              obtain ⟨g1, g2⟩ := foldlM_findName_keeps nameFromType u
                (nameFromType item.itemType ++ Nat.repr k) us st₁ st h hu
              have hnamed := g2 (findName_named nameFromType st₀ st₁ u item k hi)
              obtain ⟨e1, _⟩ := findName_names_of_items nameFromType st₀ st₁ u h1
              have hmem : u ∈ (allItems st.items).map PageItem.uid := by
                rw [g1, e1]
                have hitem := List.mem_of_find?_eq_some hfind
                have huid := List.find?_some hfind
                exact List.mem_map.2 ⟨item, hitem, by simpa using huid⟩
              obtain ⟨p, hp, hpu⟩ := List.mem_map.1 hmem
              exact ⟨p, hp, by rw [hpu]; exact List.mem_cons_self _ _,
                by rw [h2]; exact hnamed p hp hpu⟩
            · exact Or.inl h2
          · exact Or.inr ⟨p, hp, List.mem_cons_of_mem _ hpu, hpn⟩

theorem process_names_example :
    (process (fun t => if t = 0 then "Text" else "Group")
        ⟨[PageItem.mk 1 "Text1" 0 false [], PageItem.mk 2 "Group0" 1 true
          [PageItem.mk 3 "" 0 false [], PageItem.mk 4 "Text3" 0 false []],
          PageItem.mk 5 "" 0 false [], PageItem.mk 6 "" 1 true [],
          PageItem.mk 7 "" 0 false []], [3, 5, 6, 7]⟩).map
      (fun b => (allItems b.m_doc).map PageItem.itemName) =
      some ["Text1", "Group0", "Text0", "Text3", "Text2", "Group1", "Text4"] := by
  decide

/-- C15: the per-type `lastSuccess` cache of the bulk namer never skips a free
number. When every pending address is an object of the document, `process`
returns, and with the same document as `processRestart`, which restarts every
search from `0`. At every step of its loop (after the pending items `done`, in
the state `st` reached from the gathered names) `findName` returns and names
the pending item `u` with `nameFromType(type)` followed by `k`, where `k` is
the least number `j` such that `nameFromType(type)` followed by `j` is not in
`names` at that moment; the search restarted from `0` gives the same items and
the same `names`. The set `names` at that moment holds the names gathered from
the document (those of the document items) and the names of the items handled
before, and, when no address is pending twice, nothing else; the name found is
inserted into it, and the item still carries it when `process` returns unless
its address is pending again. -/
theorem process_cache_never_skips (nameFromType : Nat → String) (b : BulkAdder)
    (hp : ∀ u ∈ b.m_pending, ∃ p ∈ allItems b.m_doc, p.uid = u) :
    ∃ b', process nameFromType b = some b' ∧ processRestart nameFromType b = some b' ∧
      ∀ (done rest : List Nat) (u : Nat), b.m_pending = done ++ u :: rest →
        ∃ (names : List String) (st st' st₀' : NamerState) (item : PageItem) (k : Nat),
          gatherNames b.m_doc = some names ∧
          (∀ s, s ∈ names ↔ ∃ q ∈ docItems b.m_doc, q.itemName = s) ∧
          done.foldlM (findName nameFromType)
            { items := b.m_doc, names := names, lastSuccess := fun _ => 0 } = some st ∧
          (∀ s ∈ names, s ∈ st.names) ∧
          (∀ p ∈ allItems st.items, p.uid ∈ done → p.itemName ∈ st.names) ∧
          (done.Nodup → ∀ s ∈ st.names,
            s ∈ names ∨ ∃ p ∈ allItems st.items, p.uid ∈ done ∧ p.itemName = s) ∧
          findName nameFromType st u = some st' ∧
          findNameRestart nameFromType st u = some st₀' ∧
          st₀'.items = st'.items ∧ st₀'.names = st'.names ∧
          (allItems st.items).find? (fun p => p.uid == u) = some item ∧
          st'.items =
            setSafeItemNameList u (nameFromType item.itemType ++ Nat.repr k) st.items ∧
          st'.names = setInsert st.names (nameFromType item.itemType ++ Nat.repr k) ∧
          nameFromType item.itemType ++ Nat.repr k ∉ st.names ∧
          (∀ j, j < k → nameFromType item.itemType ++ Nat.repr j ∈ st.names) ∧
          (∀ p ∈ allItems st'.items, p.uid = u →
            p.itemName = nameFromType item.itemType ++ Nat.repr k) ∧
          (u ∉ rest → ∀ p ∈ allItems b'.m_doc, p.uid = u →
            p.itemName = nameFromType item.itemType ++ Nat.repr k) := by
  have hinit : ∀ names : List String, CacheInvariant nameFromType
      { items := b.m_doc, names := names, lastSuccess := fun _ => 0 } := by
    intro names type j hj
    exact absurd hj (Nat.not_lt_zero j)
  by_cases hemp : b.m_pending.isEmpty = true
  · refine ⟨b, by simp [process, hemp], by simp [processRestart, hemp], ?_⟩
    intro done rest u hsplit
    have : b.m_pending = [] := List.isEmpty_iff.1 hemp
    rw [this] at hsplit
    exact absurd hsplit (by simp)
  · obtain ⟨names, hg, hnames⟩ := gatherNames_spec b.m_doc
    have hapart : NamesApart names []
        { items := b.m_doc, names := names, lastSuccess := fun _ => 0 } := by
      refine ⟨fun s hs => hs, ?_, ?_, ?_⟩
      · intro q hq; exact (hnames _).2 ⟨q, hq, rfl⟩
      · intro p _ hd; exact absurd hd (List.not_mem_nil _)
      · intro p _ hd; exact absurd hd (List.not_mem_nil _)
    obtain ⟨stEnd, hst, _, _, _⟩ :=
      foldlM_findName nameFromType names b.m_pending []
        { items := b.m_doc, names := names, lastSuccess := fun _ => 0 } hp hapart
    have hrestart : ∃ t₀, b.m_pending.foldlM (findNameRestart nameFromType)
          { items := b.m_doc, names := names, lastSuccess := fun _ => 0 } = some t₀ ∧
        stEnd.items = t₀.items := by
      rcases foldlM_findName_restart nameFromType b.m_pending
          { items := b.m_doc, names := names, lastSuccess := fun _ => 0 }
          { items := b.m_doc, names := names, lastSuccess := fun _ => 0 } rfl rfl
          (hinit names) with ⟨h1, _⟩ | ⟨t, t₀, h1, h2, h3⟩
      · rw [hst] at h1; exact absurd h1 (by simp)
      · rw [hst, Option.some.injEq] at h1
        subst h1
        exact ⟨t₀, h2, h3⟩
    obtain ⟨t₀, ht₀, hitems⟩ := hrestart
    refine ⟨{ m_doc := stEnd.items, m_pending := [] }, ?_, ?_, ?_⟩
    · simp only [process, hemp, hg, hst]
      simp
    · simp only [processRestart, hemp, hg, ht₀, hitems]
      simp
    · intro done rest u hsplit
      rw [hsplit] at hst
      obtain ⟨st, st', g1, g2, g3⟩ :=
        foldlM_split (findName nameFromType) u rest done _ stEnd hst
      have hinv := foldlM_findName_cache nameFromType done _ st (hinit names) g1
      obtain ⟨_, item, k, hfind, hi, hn, hfree, hbelow⟩ :=
        findName_least nameFromType st st' u hinv g2
      have hpdone : ∀ v ∈ done, ∃ p ∈ allItems b.m_doc, p.uid = v := by
        intro v hv
        exact hp v (by rw [hsplit]; exact List.mem_append_left _ hv)
      obtain ⟨st₂, hst₂, ⟨a0, _, a2, _⟩, _, _⟩ :=
        foldlM_findName nameFromType names done []
          { items := b.m_doc, names := names, lastSuccess := fun _ => 0 } hpdone hapart
      rw [g1, Option.some.injEq] at hst₂
      subst hst₂
      have hagree : ∃ st₀', findNameRestart nameFromType st u = some st₀' ∧
          st₀'.items = st'.items ∧ st₀'.names = st'.names := by
        rcases findName_restart_agree nameFromType st st u rfl rfl hinv with
          ⟨h1, _⟩ | ⟨t, t', h1, h2, h3, h4, _⟩
        · rw [g2] at h1; exact absurd h1 (by simp)
        · rw [g2, Option.some.injEq] at h1
          subst h1
          exact ⟨t', h2, h3.symm, h4.symm⟩
      obtain ⟨st₀', r1, r2, r3⟩ := hagree
      have hnamed := findName_named nameFromType st st' u item k hi
      refine ⟨names, st, st', st₀', item, k, hg, hnames, g1, a0, ?_, ?_, g2, r1, r2, r3,
        hfind, hi, hn, hfree, hbelow, hnamed, ?_⟩
      · intro p hpm hpd
        exact (a2 p hpm (by simpa using hpd)).1
      · intro hnd s hs
        exact foldlM_findName_names nameFromType done _ st g1 hnd s hs
      · intro hrest
        exact (foldlM_findName_keeps nameFromType u _ rest st' stEnd g3 hrest).2 hnamed

/-- Witness for C15: a document with the frame `Text1` and the group `Group0`
holding `Text3`; the nested frame 3, the frames 5 and 7 and the group 6 are
pending and are named `Text0`, `Text2`, `Text4` and `Group1`. -/
theorem process_cache_never_skips_witness :
    (∀ u ∈ [3, 5, 6, 7], ∃ p ∈ allItems ([PageItem.mk 1 "Text1" 0 false [], PageItem.mk 2 "Group0" 1 true
          [PageItem.mk 3 "" 0 false [], PageItem.mk 4 "Text3" 0 false []],
          PageItem.mk 5 "" 0 false [], PageItem.mk 6 "" 1 true [],
          PageItem.mk 7 "" 0 false []]), p.uid = u) ∧
      ∃ b', process (fun t => if t = 0 then "Text" else "Group") ⟨[PageItem.mk 1 "Text1" 0 false [], PageItem.mk 2 "Group0" 1 true
          [PageItem.mk 3 "" 0 false [], PageItem.mk 4 "Text3" 0 false []],
          PageItem.mk 5 "" 0 false [], PageItem.mk 6 "" 1 true [],
          PageItem.mk 7 "" 0 false []], [3, 5, 6, 7]⟩ = some b' ∧ processRestart (fun t => if t = 0 then "Text" else "Group") ⟨[PageItem.mk 1 "Text1" 0 false [], PageItem.mk 2 "Group0" 1 true
          [PageItem.mk 3 "" 0 false [], PageItem.mk 4 "Text3" 0 false []],
          PageItem.mk 5 "" 0 false [], PageItem.mk 6 "" 1 true [],
          PageItem.mk 7 "" 0 false []], [3, 5, 6, 7]⟩ = some b' ∧
        ∀ (done rest : List Nat) (u : Nat), [3, 5, 6, 7] = done ++ u :: rest →
          ∃ (names : List String) (st st' st₀' : NamerState) (item : PageItem) (k : Nat),
            gatherNames ([PageItem.mk 1 "Text1" 0 false [], PageItem.mk 2 "Group0" 1 true
          [PageItem.mk 3 "" 0 false [], PageItem.mk 4 "Text3" 0 false []],
          PageItem.mk 5 "" 0 false [], PageItem.mk 6 "" 1 true [],
          PageItem.mk 7 "" 0 false []]) = some names ∧
            (∀ s, s ∈ names ↔ ∃ q ∈ docItems ([PageItem.mk 1 "Text1" 0 false [], PageItem.mk 2 "Group0" 1 true
          [PageItem.mk 3 "" 0 false [], PageItem.mk 4 "Text3" 0 false []],
          PageItem.mk 5 "" 0 false [], PageItem.mk 6 "" 1 true [],
          PageItem.mk 7 "" 0 false []]), q.itemName = s) ∧
            done.foldlM (findName (fun t => if t = 0 then "Text" else "Group"))
              { items := ([PageItem.mk 1 "Text1" 0 false [], PageItem.mk 2 "Group0" 1 true
          [PageItem.mk 3 "" 0 false [], PageItem.mk 4 "Text3" 0 false []],
          PageItem.mk 5 "" 0 false [], PageItem.mk 6 "" 1 true [],
          PageItem.mk 7 "" 0 false []]), names := names, lastSuccess := fun _ => 0 } = some st ∧
            (∀ s ∈ names, s ∈ st.names) ∧
            (∀ p ∈ allItems st.items, p.uid ∈ done → p.itemName ∈ st.names) ∧
            (done.Nodup → ∀ s ∈ st.names,
              s ∈ names ∨ ∃ p ∈ allItems st.items, p.uid ∈ done ∧ p.itemName = s) ∧
            findName (fun t => if t = 0 then "Text" else "Group") st u = some st' ∧
            findNameRestart (fun t => if t = 0 then "Text" else "Group") st u = some st₀' ∧
            st₀'.items = st'.items ∧ st₀'.names = st'.names ∧
            (allItems st.items).find? (fun p => p.uid == u) = some item ∧
            st'.items =
              setSafeItemNameList u ((fun t => if t = 0 then "Text" else "Group") item.itemType ++ Nat.repr k) st.items ∧
            st'.names = setInsert st.names ((fun t => if t = 0 then "Text" else "Group") item.itemType ++ Nat.repr k) ∧
            (fun t => if t = 0 then "Text" else "Group") item.itemType ++ Nat.repr k ∉ st.names ∧
            (∀ j, j < k → (fun t => if t = 0 then "Text" else "Group") item.itemType ++ Nat.repr j ∈ st.names) ∧
            (∀ p ∈ allItems st'.items, p.uid = u →
              p.itemName = (fun t => if t = 0 then "Text" else "Group") item.itemType ++ Nat.repr k) ∧
            (u ∉ rest → ∀ p ∈ allItems b'.m_doc, p.uid = u →
              p.itemName = (fun t => if t = 0 then "Text" else "Group") item.itemType ++ Nat.repr k) :=
  ⟨by decide, process_cache_never_skips (fun t => if t = 0 then "Text" else "Group") ⟨[PageItem.mk 1 "Text1" 0 false [], PageItem.mk 2 "Group0" 1 true
          [PageItem.mk 3 "" 0 false [], PageItem.mk 4 "Text3" 0 false []],
          PageItem.mk 5 "" 0 false [], PageItem.mk 6 "" 1 true [],
          PageItem.mk 7 "" 0 false []], [3, 5, 6, 7]⟩ (by decide)⟩

end BulkAdder
/-! ## Theorems: the docstring helper `tr` -/

namespace QString

theorem replaceFrom_skip (before after : List Char) :
    ∀ (l : List Char) (n : Nat),
      replaceFrom before after n l = replaceFrom before after 0 (l.drop n) := by
  intro l
  induction l with
  | nil => intro n; cases n <;> simp [replaceFrom]
  | cons c cs ih =>
      intro n
      cases n with
      | zero => simp
      | succ n => simp only [replaceFrom, List.drop_succ_cons]; exact ih n

end QString

namespace ScriptPlugin

theorem replace_pair (rest : List Char) :
    QString.replace ['\n', '\n'] ['<', 'P', '>'] ('\n' :: '\n' :: rest) =
      '<' :: 'P' :: '>' :: QString.replace ['\n', '\n'] ['<', 'P', '>'] rest := by
  simp only [QString.replace, QString.replaceFrom]
  rw [QString.replaceFrom_skip]
  simp [List.isPrefixOf]

theorem replace_pair_other (c : Char) (rest : List Char)
    (h : ¬(c = '\n' ∧ ∃ rest', rest = '\n' :: rest')) :
    QString.replace ['\n', '\n'] ['<', 'P', '>'] (c :: rest) =
      c :: QString.replace ['\n', '\n'] ['<', 'P', '>'] rest := by
  have hp : List.isPrefixOf ['\n', '\n'] (c :: rest) = false := by
    cases rest with
    | nil => simp [List.isPrefixOf]
    | cons d rest' =>
        simp only [List.isPrefixOf, Bool.and_true, Bool.and_eq_false_imp, beq_iff_eq,
          beq_eq_false_iff_ne, ne_eq]
        intro hc hd
        exact h ⟨hc.symm, rest', by rw [← hd]⟩
  simp only [QString.replace, QString.replaceFrom, hp, Bool.false_eq_true, if_false]

theorem replace_mark (rest : List Char) :
    QString.replace ['<', 'P', '>'] ['\n', '\n'] ('<' :: 'P' :: '>' :: rest) =
      '\n' :: '\n' :: QString.replace ['<', 'P', '>'] ['\n', '\n'] rest := by
  simp only [QString.replace, QString.replaceFrom]
  rw [QString.replaceFrom_skip]
  simp [List.isPrefixOf]

theorem replace_mark_other (c : Char) (rest : List Char)
    (h : List.isPrefixOf ['<', 'P', '>'] (c :: rest) = false) :
    QString.replace ['<', 'P', '>'] ['\n', '\n'] (c :: rest) =
      c :: QString.replace ['<', 'P', '>'] ['\n', '\n'] rest := by
  simp only [QString.replace, QString.replaceFrom, h, Bool.false_eq_true, if_false]

theorem replaceChar_cons (c : Char) (rest : List Char) :
    QString.replaceChar '\n' [' '] (c :: rest) =
      (if c = '\n' then ' ' else c) :: QString.replaceChar '\n' [' '] rest := by
  by_cases hc : c = '\n' <;> simp [QString.replaceChar, hc]

/-- The first character of the text after the first two replacements, when it
is neither `<` nor a space, is the first character of the original text. -/
theorem head_after_two (m : List Char) (x : Char) (Y : List Char)
    (h : QString.replaceChar '\n' [' ']
      (QString.replace ['\n', '\n'] ['<', 'P', '>'] m) = x :: Y)
    (hx₁ : x ≠ '<') (hx₂ : x ≠ ' ') :
    ∃ m', m = x :: m' ∧
      Y = QString.replaceChar '\n' [' '] (QString.replace ['\n', '\n'] ['<', 'P', '>'] m') := by
  cases m with
  | nil => simp [QString.replace, QString.replaceFrom, QString.replaceChar] at h
  | cons e m' =>
      by_cases hpair : e = '\n' ∧ ∃ rest', m' = '\n' :: rest'
      · obtain ⟨he, rest', hm'⟩ := hpair
        subst he; subst hm'
        rw [replace_pair, replaceChar_cons] at h
        simp only [List.cons.injEq] at h
        exact absurd h.1.symm (by simpa using hx₁)
      · rw [replace_pair_other e m' hpair, replaceChar_cons] at h
        simp only [List.cons.injEq] at h
        obtain ⟨h1, h2⟩ := h
        by_cases he : e = '\n'
        · rw [if_pos he] at h1
          exact absurd h1.symm hx₂
        · rw [if_neg he] at h1
          exact ⟨m', by rw [h1], h2.symm⟩

theorem no_mark_after_two (c : Char) (rest : List Char)
    (hno : ¬List.IsPrefix ['<', 'P', '>'] (c :: rest)) :
    List.isPrefixOf ['<', 'P', '>']
      ((if c = '\n' then ' ' else c) ::
        QString.replaceChar '\n' [' ']
          (QString.replace ['\n', '\n'] ['<', 'P', '>'] rest)) = false := by
  cases hp : List.isPrefixOf ['<', 'P', '>']
      ((if c = '\n' then ' ' else c) ::
        QString.replaceChar '\n' [' ']
          (QString.replace ['\n', '\n'] ['<', 'P', '>'] rest)) with
  | false => rfl
  | true =>
      exfalso
      rw [List.isPrefixOf_iff_prefix] at hp
      obtain ⟨t, ht⟩ := hp
      simp only [List.cons_append, List.nil_append, List.cons.injEq] at ht
      obtain ⟨hc, hrest⟩ := ht
      have hc' : c = '<' := by
        by_cases hn : c = '\n'
        · rw [if_pos hn] at hc; exact absurd hc (by decide)
        · rw [if_neg hn] at hc; exact hc.symm
      obtain ⟨m₁, hm₁, hY₁⟩ := head_after_two rest 'P' ('>' :: t) hrest.symm (by decide) (by decide)
      obtain ⟨m₂, hm₂, _⟩ := head_after_two m₁ '>' t hY₁.symm (by decide) (by decide)
      apply hno
      rw [hc', hm₁, hm₂]
      exact ⟨m₂, rfl⟩

theorem three_replacements_step (c : Char) (rest : List Char)
    (hpair : ¬(c = '\n' ∧ ∃ rest', rest = '\n' :: rest'))
    (hno : ¬List.IsInfix ['<', 'P', '>'] (c :: rest)) :
    QString.replace ['<', 'P', '>'] ['\n', '\n']
        (QString.replaceChar '\n' [' ']
          (QString.replace ['\n', '\n'] ['<', 'P', '>'] (c :: rest))) =
      (if c = '\n' then ' ' else c) ::
        QString.replace ['<', 'P', '>'] ['\n', '\n']
          (QString.replaceChar '\n' [' ']
            (QString.replace ['\n', '\n'] ['<', 'P', '>'] rest)) := by
  rw [replace_pair_other c rest hpair, replaceChar_cons]
  apply replace_mark_other
  apply no_mark_after_two
  intro hpre
  exact hno hpre.isInfix

theorem three_replacements_bounded :
    ∀ (n : Nat) (l : List Char), l.length ≤ n → ¬List.IsInfix ['<', 'P', '>'] l →
      QString.replace ['<', 'P', '>'] ['\n', '\n']
          (QString.replaceChar '\n' [' ']
            (QString.replace ['\n', '\n'] ['<', 'P', '>'] l)) = unwrapLines l := by
  intro n
  induction n with
  | zero =>
      intro l hl _
      have : l = [] := List.length_eq_zero.1 (Nat.le_zero.1 hl)
      subst this; rfl
  | succ n ih =>
      intro l hl hno
      cases l with
      | nil => rfl
      | cons c t =>
          cases t with
          | nil =>
              rw [three_replacements_step c [] (by simp) hno]
              by_cases hc : c = '\n' <;>
                simp [unwrapLines, hc, QString.replace, QString.replaceFrom,
                  QString.replaceChar]
          | cons d rest =>
              have hno₁ : ¬List.IsInfix ['<', 'P', '>'] (d :: rest) := by
                intro h; exact hno (List.infix_cons h)
              have hlen₁ : (d :: rest).length ≤ n := by
                simp only [List.length_cons] at hl ⊢; omega
              by_cases hc : c = '\n'
              · by_cases hd : d = '\n'
                · subst hc; subst hd
                  have hno₂ : ¬List.IsInfix ['<', 'P', '>'] rest := by
                    intro h; exact hno₁ (List.infix_cons h)
                  have hlen₂ : rest.length ≤ n := by
                    simp only [List.length_cons] at hl; omega
                  rw [replace_pair, replaceChar_cons, replaceChar_cons, replaceChar_cons]
                  simp only [show ¬('<' = '\n') by decide, show ¬('P' = '\n') by decide,
                    show ¬('>' = '\n') by decide, if_false]
                  rw [replace_mark, ih rest hlen₂ hno₂]
                  simp [unwrapLines]
                · rw [three_replacements_step c (d :: rest) (by
                    rintro ⟨_, rest', h⟩
                    simp only [List.cons.injEq] at h
                    exact hd h.1) hno, ih (d :: rest) hlen₁ hno₁]
                  simp [unwrapLines, hc, hd]
              · rw [three_replacements_step c (d :: rest) (by rintro ⟨h, _⟩; exact hc h) hno,
                  ih (d :: rest) hlen₁ hno₁]
                simp [unwrapLines, hc]

theorem three_replacements (l : List Char) (hno : ¬List.IsInfix ['<', 'P', '>'] l) :
    QString.replace ['<', 'P', '>'] ['\n', '\n']
        (QString.replaceChar '\n' [' ']
          (QString.replace ['\n', '\n'] ['<', 'P', '>'] l)) = unwrapLines l :=
  three_replacements_bounded l.length l (le_refl _) hno

end ScriptPlugin
namespace ScriptPlugin

theorem unwrapLines_bounded :
    ∀ (n : Nat) (l : List Char), l.length ≤ n →
      (unwrapLines l).length = l.length ∧
        ∀ (i : Nat) (c : Char), l[i]? = some c →
          (c ≠ '\n' → (unwrapLines l)[i]? = some c) ∧
          (c = '\n' → (unwrapLines l)[i]? = some '\n' ∨ (unwrapLines l)[i]? = some ' ') := by
  intro n
  induction n with
  | zero =>
      intro l hl
      have : l = [] := List.length_eq_zero.1 (Nat.le_zero.1 hl)
      subst this
      exact ⟨rfl, fun i c h => by simp at h⟩
  | succ n ih =>
      intro l hl
      cases l with
      | nil => exact ⟨rfl, fun i c h => by simp at h⟩
      | cons c t =>
          cases t with
          | nil =>
              by_cases hc : c = '\n'
              · subst hc
                refine ⟨by simp [unwrapLines], ?_⟩
                intro i x hx
                cases i with
                | zero =>
                    simp only [List.getElem?_cons_zero, Option.some.injEq] at hx
                    subst hx
                    exact ⟨fun h => absurd rfl h, fun _ => Or.inr (by simp [unwrapLines])⟩
                | succ j => simp at hx
              · refine ⟨by simp [unwrapLines, hc], ?_⟩
                intro i x hx
                cases i with
                | zero =>
                    simp only [List.getElem?_cons_zero, Option.some.injEq] at hx
                    subst hx
                    exact ⟨fun _ => by simp [unwrapLines, hc], fun h => absurd h hc⟩
                | succ j => simp at hx
          | cons d rest =>
              have hlen₁ : (d :: rest).length ≤ n := by
                simp only [List.length_cons] at hl ⊢; omega
              obtain ⟨l₁, g₁⟩ := ih (d :: rest) hlen₁
              by_cases hc : c = '\n'
              · by_cases hd : d = '\n'
                · subst hc; subst hd
                  have hlen₂ : rest.length ≤ n := by
                    simp only [List.length_cons] at hl; omega
                  obtain ⟨l₂, g₂⟩ := ih rest hlen₂
                  refine ⟨by simp [unwrapLines, l₂], ?_⟩
                  intro i x hx
                  cases i with
                  | zero =>
                      simp only [List.getElem?_cons_zero, Option.some.injEq] at hx
                      subst hx
                      exact ⟨fun h => absurd rfl h, fun _ => Or.inl (by simp [unwrapLines])⟩
                  | succ j =>
                      cases j with
                      | zero =>
                          simp only [List.getElem?_cons_succ, List.getElem?_cons_zero,
                            Option.some.injEq] at hx
                          subst hx
                          exact ⟨fun h => absurd rfl h,
                            fun _ => Or.inl (by simp [unwrapLines])⟩
                      | succ k =>
                          simp only [List.getElem?_cons_succ] at hx
                          simpa [unwrapLines] using g₂ k x hx
                · refine ⟨by simp [unwrapLines, hc, hd, l₁], ?_⟩
                  intro i x hx
                  cases i with
                  | zero =>
                      simp only [List.getElem?_cons_zero, Option.some.injEq] at hx
                      subst hx
                      exact ⟨fun h => absurd hc h,
                        fun _ => Or.inr (by simp [unwrapLines, hc, hd])⟩
                  | succ j =>
                      simp only [List.getElem?_cons_succ] at hx
                      simpa [unwrapLines, hc, hd] using g₁ j x hx
              · refine ⟨by simp [unwrapLines, hc, l₁], ?_⟩
                intro i x hx
                cases i with
                | zero =>
                    simp only [List.getElem?_cons_zero, Option.some.injEq] at hx
                    subst hx
                    exact ⟨fun _ => by simp [unwrapLines, hc], fun h => absurd h hc⟩
                | succ j =>
                    simp only [List.getElem?_cons_succ] at hx
                    simpa [unwrapLines, hc] using g₁ j x hx

theorem unwrapLines_no_nul (l : List Char) (hnul : ∀ c ∈ l, c ≠ Char.ofNat 0) :
    ∀ c ∈ unwrapLines l, c ≠ Char.ofNat 0 := by
  obtain ⟨hlen, hget⟩ := unwrapLines_bounded l.length l (le_refl _)
  intro c hc
  obtain ⟨i, hi, hic⟩ := List.getElem_of_mem hc
  have hi' : i < l.length := by rw [← hlen]; exact hi
  have hl : l[i]? = some l[i] := List.getElem?_eq_getElem hi'
  have hu : (unwrapLines l)[i]? = some c := by
    rw [List.getElem?_eq_getElem hi, hic]
  obtain ⟨g1, g2⟩ := hget i l[i] hl
  by_cases hn : l[i] = '\n'
  · rcases g2 hn with h | h
    · rw [hu] at h
      rw [Option.some.inj h]; decide
    · rw [hu] at h
      rw [Option.some.inj h]; decide
  · have h := g1 hn
    rw [hu] at h
    rw [Option.some.inj h]
    exact hnul _ (List.getElem_mem hi')

/-- C14: the docstring helper `tr()` removes line wrapping but keeps paragraph
breaks. For a docstring (a C string, so without NUL) that contains no literal
`<P>`, the translation step being the identity, the string returned (unless
`strdup` fails, when it is null) is `unwrapLines` of the docstring: it has the
length of the docstring, every character that is not a newline is unchanged
in place, each pair of newlines taken from the left without overlap is kept,
and every other newline is one space. -/
theorem tr_keeps_paragraph_breaks (strdupFails : Bool) (docstring : String)
    (hmark : ¬List.IsInfix "<P>".data docstring.data)
    (hnul : ∀ c ∈ docstring.data, c ≠ Char.ofNat 0) :
    tr (fun s => s) strdupFails docstring =
        (if strdupFails then none else some (String.mk (unwrapLines docstring.data))) ∧
      (unwrapLines docstring.data).length = docstring.data.length ∧
      ∀ (i : Nat) (c : Char), docstring.data[i]? = some c →
        (c ≠ '\n' → (unwrapLines docstring.data)[i]? = some c) ∧
        (c = '\n' →
          (unwrapLines docstring.data)[i]? = some '\n' ∨
            (unwrapLines docstring.data)[i]? = some ' ') := by
  obtain ⟨hlen, hget⟩ := unwrapLines_bounded docstring.data.length docstring.data (le_refl _)
  refine ⟨?_, hlen, hget⟩
  have h3 := three_replacements docstring.data hmark
  have htake : (unwrapLines docstring.data).takeWhile (fun c => decide (c ≠ Char.ofNat 0)) =
      unwrapLines docstring.data := by
    rw [List.takeWhile_eq_self_iff]
    intro c hc
    simpa using unwrapLines_no_nul docstring.data hnul c hc
  show (if strdupFails = true then none
    else some (String.mk ((QString.replace ['<', 'P', '>'] ['\n', '\n']
      (QString.replaceChar '\n' [' ']
        (QString.replace ['\n', '\n'] ['<', 'P', '>'] docstring.data))).takeWhile
          (fun c => decide (c ≠ Char.ofNat 0))))) = _
  rw [h3, htake]

/-- Witness for C14: a docstring with a wrapped line and a paragraph break. -/
theorem tr_keeps_paragraph_breaks_witness :
    ¬List.IsInfix "<P>".data "getFont() -> string\n\nReturns the font\nname.\n".data ∧
      (∀ c ∈ "getFont() -> string\n\nReturns the font\nname.\n".data, c ≠ Char.ofNat 0) ∧
      (tr (fun s => s) false "getFont() -> string\n\nReturns the font\nname.\n" =
          (if false then none
            else some
              (String.mk (unwrapLines "getFont() -> string\n\nReturns the font\nname.\n".data))) ∧
        (unwrapLines "getFont() -> string\n\nReturns the font\nname.\n".data).length =
          "getFont() -> string\n\nReturns the font\nname.\n".data.length ∧
        ∀ (i : Nat) (c : Char),
          "getFont() -> string\n\nReturns the font\nname.\n".data[i]? = some c →
          (c ≠ '\n' →
            (unwrapLines "getFont() -> string\n\nReturns the font\nname.\n".data)[i]? =
              some c) ∧
          (c = '\n' →
            (unwrapLines "getFont() -> string\n\nReturns the font\nname.\n".data)[i]? =
                some '\n' ∨
              (unwrapLines "getFont() -> string\n\nReturns the font\nname.\n".data)[i]? =
                some ' ')) :=
  ⟨by decide, by decide,
    tr_keeps_paragraph_breaks false "getFont() -> string\n\nReturns the font\nname.\n"
      (by decide) (by decide)⟩

end ScriptPlugin
